import Mathlib

/-!
# Verification of the FilderFlux folder-synchronisation engine

This file gives a shallow embedding of `filderflux/commands/sync/sync.py`
and proves (or refutes) the specification claims about it.

The filesystem is modelled as a finite association list from absolute
paths (lists of name components) to entries (regular files with byte
content, or directories).  All functions of the Python module are
translated one-to-one: `compare_files`, `copy_file`, `copy_folder`,
`remove_redundant_folders`, `remove_redundant_files`, `get_all_folders`,
`get_all_files`, `build_path`, `sync_folder` and `handle_sync`.

Modelling decisions (recorded once here):
* Python exceptions that are caught (`copy_file`, `copy_folder`,
  `remove_redundant_*`) are modelled by returning the filesystem
  unchanged up to the point of failure; exceptions that are *not*
  caught (`shutil.rmtree` on a regular file in `handle_sync`) are
  modelled by an `Option` result, `none` meaning the call raises.
* `st_size` of a regular file is its byte length; `st_size` of a
  directory is the integer the OS reports for it, which depends on the
  filesystem and can coincide with any file length.  The model takes
  these directory sizes from an environment oracle `dsz : Path → Nat`.
  When a directory passes the size check of `compare_files`, the
  subsequent `open` raises `IsADirectoryError`; nothing inside
  `sync_folder` catches it, so the pass aborts.  A `sync_folder` result
  therefore carries a completion flag: `((fs, events), ok)` with
  `ok = false` meaning the pass raised, `fs` and `events` being the
  state and log at the raise; `handle_sync` turns an aborted pass into
  its `none` outcome, like every other uncaught exception.
* Set iteration order in Python is unspecified; the model iterates in
  the order in which entries appear in the association list.
* Recursion over the (mutable) filesystem is fuelled; every theorem
  either holds for all fuel values or carries an explicit sufficient
  fuel bound.
* The global `shutdown_flag` is modelled as a stream of boolean reads
  `flags : Nat → Bool`; the n-th read of the flag by `handle_sync`
  returns `flags n`.  A flag that is set once and never reset is a
  monotone stream.
-/

set_option autoImplicit false

namespace FilderFlux

abbrev Name := String

/-- An absolute path: the list of name components from the filesystem root. -/
abbrev Path := List Name

/-- A filesystem entry: a regular file with its byte content, or a directory. -/
inductive Entry where
  | file (content : List Nat)
  | dir
  deriving DecidableEq, Repr

/-- A filesystem: a finite association of absolute paths to entries.
The (implicit) root `[]` is always a directory and is not stored. -/
abbrev FS := List (Path × Entry)

/-- Look up the entry at a path. -/
def find : FS → Path → Option Entry
  | [], _ => none
  | (q, e) :: rest, p => if q = p then some e else find rest p

/-- `pathlib.Path.exists`. -/
def pexists (fs : FS) (p : Path) : Bool :=
  (find fs p).isSome

/-- `pathlib.Path.is_dir`. -/
def isDir (fs : FS) (p : Path) : Bool :=
  decide (find fs p = some .dir)

/-- `pathlib.Path.is_file`. -/
def isFile (fs : FS) (p : Path) : Bool :=
  match find fs p with
  | some (.file _) => true
  | _ => false

/-- Read the content of a regular file (`open(p, "rb")` + full read);
`none` when the path is absent or a directory. -/
def readF (fs : FS) (p : Path) : Option (List Nat) :=
  match find fs p with
  | some (.file c) => some c
  | _ => none

/-- Boolean path-prefix test: `leP p q` holds when `q` lies at or below `p`. -/
def leP : Path → Path → Bool
  | [], _ => true
  | _ :: _, [] => false
  | a :: as, b :: bs => (a == b) && leP as bs

/-- Strict descendant test: `q` lies strictly below `p`. -/
def ltP (p q : Path) : Bool :=
  leP p q && decide (p.length < q.length)

/-- `q.relative_to(root)` for `q` below `root` (the only way it is called). -/
def relTo (root q : Path) : Path :=
  q.drop root.length

/-- `build_path` from the source: path concatenation (`folder_path / name`). -/
def build_path (folder_path name : Path) : Path :=
  folder_path ++ name

/-- Replace (or create) the entry at `p`. -/
def setE (fs : FS) (p : Path) (e : Entry) : FS :=
  fs.filter (fun q => decide (q.1 ≠ p)) ++ [(p, e)]

/-- `shutil.rmtree`: remove `p` and everything below it. -/
def rmtree (fs : FS) (p : Path) : FS :=
  fs.filter (fun q => !(leP p q.1))

/-- `pathlib.Path.unlink`: remove the single entry at `p`. -/
def unlinkE (fs : FS) (p : Path) : FS :=
  fs.filter (fun q => decide (q.1 ≠ p))

/-- The nonempty prefixes of a path, shortest first. -/
def pres : Path → List Path
  | [] => []
  | a :: rest => [a] :: (pres rest).map (fun q => a :: q)

/-- `pathlib.Path.mkdir(parents=True, exist_ok=True)`: create every missing
prefix of `p` as a directory; raises (`none`), mutating nothing, when `p`
or one of its ancestors exists as a regular file. -/
def mkdirP (fs : FS) (p : Path) : Option FS :=
  if (pres p).any (fun q => isFile fs q) then none
  else some ((pres p).foldl (fun acc q => if pexists acc q then acc else setE acc q .dir) fs)

/-- The immediate children of `p` present in the filesystem
(`pathlib.Path.iterdir`), in association-list order. -/
def iterdir (fs : FS) (p : Path) : List Path :=
  (fs.map Prod.fst).filter (fun q => decide (q ≠ []) && decide (q.dropLast = p))

/-- The strict descendants of `p` present in the filesystem
(`pathlib.Path.rglob("*")`), in association-list order. -/
def rglobL (fs : FS) (p : Path) : List Path :=
  (fs.map Prod.fst).filter (fun q => ltP p q)

/-- `get_all_folders` from the source: all directories strictly below `p`. -/
def get_all_folders (fs : FS) (p : Path) : List Path :=
  (rglobL fs p).filter (fun q => isDir fs q)

/-- `get_all_files` from the source: all regular files strictly below `p`. -/
def get_all_files (fs : FS) (p : Path) : List Path :=
  (rglobL fs p).filter (fun q => isFile fs q)

/-- Mutation events of one reconciliation pass (for counting copies and
deletions). -/
inductive SEv where
  | copyEv (src dst : Path)
  | rmEv (p : Path)
  | unlinkEv (p : Path)
  deriving DecidableEq, Repr

/-- `remove_redundant_folders`: delete every immediate child directory of
`folder_path` that is not listed in `folders_to_preserve`.  Deletion
failures are caught per entry in the source; the model's `rmtree` is total
on the directories this function is applied to. -/
def remove_redundant_folders (fs : FS) (folder_path : Path) (folders_to_preserve : List Path) :
    FS × List SEv :=
  (iterdir fs folder_path).foldl
    (fun acc q =>
      if isDir acc.1 q && !(folders_to_preserve.contains q) then
        (rmtree acc.1 q, acc.2 ++ [.rmEv q])
      else acc)
    (fs, [])

/-- `remove_redundant_files`: delete every immediate child file of
`folder_path` that is not listed in `files_to_preserve`. -/
def remove_redundant_files (fs : FS) (folder_path : Path) (files_to_preserve : List Path) :
    FS × List SEv :=
  (iterdir fs folder_path).foldl
    (fun acc q =>
      if isFile acc.1 q && !(files_to_preserve.contains q) then
        (unlinkE acc.1 q, acc.2 ++ [.unlinkEv q])
      else acc)
    (fs, [])

/-- `st_size` of the entry at path `p`: the byte length for a regular
file; for a directory, the integer the OS reports, taken from the
environment oracle `dsz` (it is filesystem-dependent and can coincide
with any file length). -/
def stSize (dsz : Path → Nat) (p : Path) : Entry → Nat
  | .file c => c.length
  | .dir => dsz p

/-- The 8 KiB lock-step chunk comparison loop of `compare_files`. -/
def cmpChunks (b1 b2 : List Nat) : Bool :=
  if b1.take 8192 ≠ b2.take 8192 then false
  else if b1.take 8192 = [] then true
  else cmpChunks (b1.drop 8192) (b2.drop 8192)
termination_by b1.length
decreasing_by
  rename_i _h1 h2
  simp only [List.length_drop]
  have hb1 : b1 ≠ [] := by
    intro hnil
    exact h2 (by simp [hnil])
  have : 0 < b1.length := List.length_pos.mpr hb1
  omega

/-- `compare_files` from the source: `False` when either path is absent,
`False` when the reported sizes differ, else both paths are opened for
reading and compared chunk by chunk.  Opening succeeds only for regular
files: when a directory passes the size check, `open` raises
`IsADirectoryError`, which nothing in `sync_folder` catches — the
`none` result. -/
def compare_files (dsz : Path → Nat) (fs : FS) (p1 p2 : Path) : Option Bool :=
  match find fs p1, find fs p2 with
  | some e1, some e2 =>
    if stSize dsz p1 e1 ≠ stSize dsz p2 e2 then some false
    else
      match e1, e2 with
      | .file b1, .file b2 => some (cmpChunks b1 b2)
      | _, _ => none
  | _, _ => some false

/-- Whether `open(p, "wb")` succeeds: the parent of `p` must exist as a
directory (the filesystem root `[]` always does) and `p` itself must not
be a directory. -/
def canWrite (fs : FS) (p : Path) : Bool :=
  decide (p ≠ []) && (decide (p.dropLast = []) || isDir fs p.dropLast) && !(isDir fs p)

/-- Write the full content `c` at path `p` (truncating open + chunked write). -/
def writeF (fs : FS) (p : Path) (c : List Nat) : FS :=
  setE fs p (.file c)

/-- `copy_file` from the source: stream `src` into `dst`; every failure is
caught inside the function (`except Exception`), leaving the filesystem as
it was at the point of failure.  The source is opened first, so a failing
destination open mutates nothing. -/
def copy_file (fs : FS) (src dst : Path) : FS × List SEv :=
  match readF fs src with
  | none => (fs, [])
  | some c =>
    if canWrite fs dst then (writeF fs dst c, [.copyEv src dst])
    else (fs, [])

/-- `shutil.copy2`: copy `src` to `dst`; when `dst` is an existing
directory the copy goes to `dst / src.name`.  `none` models a raised
exception (absent or unreadable source, unopenable target), which the
*caller* catches. -/
def copy2 (fs : FS) (src dst : Path) : Option (FS × SEv) :=
  match readF fs src with
  | none => none
  | some c =>
    let d := if isDir fs dst then dst ++ [src.getLastD ""] else dst
    if canWrite fs d then some (writeF fs d c, .copyEv src d) else none

/-- The `for item in source_folder_path.iterdir()` loop of `copy_folder`.
A raised exception from the `mkdir`/`copy2` of a file item aborts the rest
of the loop (it escapes to this call's `except`); recursive `copy_folder`
calls catch their own exceptions and never abort the caller's loop. -/
def cfItems (root repl : Path) (rec : FS → Path → Path → FS × List SEv) :
    List Path → FS → FS × List SEv
  | [], fs => (fs, [])
  | item :: rest, fs =>
    let rit := build_path repl (relTo root item)
    if isDir fs item then
      let r1 := rec fs item rit
      let r2 := cfItems root repl rec rest r1.1
      (r2.1, r1.2 ++ r2.2)
    else
      match mkdirP fs rit.dropLast with
      | none => (fs, [])
      | some fs1 =>
        match copy2 fs1 item rit with
        | none => (fs1, [])
        | some (fs2, ev) =>
          let r2 := cfItems root repl rec rest fs2
          (r2.1, ev :: r2.2)

/-- `copy_folder` from the source: `mkdir(parents=True, exist_ok=True)` on
the replica folder, then the item loop.  Note that the replica path of an
item is `replica_folder_path / item.relative_to(root_folder_path)` while
the recursive call descends into `replica_item_path` *and* keeps the same
`root_folder_path`. -/
def copy_folder : Nat → FS → Path → Path → Path → FS × List SEv
  | 0, fs, _, _, _ => (fs, [])
  | fuel + 1, fs, source_folder_path, replica_folder_path, root_folder_path =>
    match mkdirP fs replica_folder_path with
    | none => (fs, [])
    | some fs0 =>
      cfItems root_folder_path replica_folder_path
        (fun a b c => copy_folder fuel a b c root_folder_path)
        (iterdir fs0 source_folder_path) fs0

/-- The `for file in files` compare-and-copy loop of `sync_folder`.  A
`compare_files` raise (the `none` result) aborts the loop and escapes
from `sync_folder`: the Boolean component is the completion flag, and a
`false` flag carries the filesystem and log as they were at the raise. -/
def sfFiles (dsz : Path → Nat) (src repl : Path) :
    List Path → FS → (FS × List SEv) × Bool
  | [], fs => ((fs, []), true)
  | f :: rest, fs =>
    let rf := build_path repl (relTo src f)
    match compare_files dsz fs f rf with
    | none => ((fs, []), false)
    | some true => sfFiles dsz src repl rest fs
    | some false =>
      let r1 := copy_file fs f rf
      let r2 := sfFiles dsz src repl rest r1.1
      ((r2.1.1, r1.2 ++ r2.1.2), r2.2)

/-- The `for folder in folders` recursion loop of `sync_folder`.  An
uncaught raise inside a recursive call (`false` completion flag) aborts
the rest of the loop and propagates. -/
def sfFolders (src repl : Path) (rec : FS → Path → Path → (FS × List SEv) × Bool) :
    List Path → FS → (FS × List SEv) × Bool
  | [], fs => ((fs, []), true)
  | d :: rest, fs =>
    let rd := build_path repl (relTo src d)
    let r1 := rec fs d rd
    if r1.2 then
      let r2 := sfFolders src repl rec rest r1.1.1
      ((r2.1.1, r1.1.2 ++ r2.1.2), r2.2)
    else r1

/-- `sync_folder` from the source, in its four branches: source no longer a
directory; replica absent (full `copy_folder`); replica is now a file;
normal case (enumerate, prune, compare-copy, recurse).  The Boolean
component is the completion flag: `false` means an uncaught
`IsADirectoryError` escaped from the compare-and-copy loop (directly or
inside a recursive call), with the filesystem and log as they were at
the raise. -/
def sync_folder (dsz : Path → Nat) : Nat → FS → Path → Path → (FS × List SEv) × Bool
  | 0, fs, _, _ => ((fs, []), true)
  | fuel + 1, fs, source_folder_path, replica_folder_path =>
    if !(isDir fs source_folder_path) then ((fs, []), true)
    else if !(pexists fs replica_folder_path) then
      (copy_folder fuel fs source_folder_path replica_folder_path source_folder_path, true)
    else if isFile fs replica_folder_path then ((fs, []), true)
    else
      let folders := get_all_folders fs source_folder_path
      let files := get_all_files fs source_folder_path
      let ffp := folders.map (fun d => build_path replica_folder_path (relTo source_folder_path d))
      let flp := files.map (fun f => build_path replica_folder_path (relTo source_folder_path f))
      let r1 := remove_redundant_folders fs replica_folder_path ffp
      let r2 := remove_redundant_files r1.1 replica_folder_path flp
      let r3 := sfFiles dsz source_folder_path replica_folder_path files r2.1
      if r3.2 then
        let r4 := sfFolders source_folder_path replica_folder_path
          (fun a b c => sync_folder dsz fuel a b c) folders r3.1.1
        ((r4.1.1, r1.2 ++ r2.2 ++ r3.1.2 ++ r4.1.2), r4.2)
      else ((r3.1.1, r1.2 ++ r2.2 ++ r3.1.2), false)

/-- Scheduler-level events of `handle_sync`: a read of the shutdown flag,
one `sync_folder` round, one inter-round sleep. -/
inductive TEv where
  | readEv (b : Bool)
  | syncEv
  | sleepEv
  deriving DecidableEq, Repr

/-- The `while not shutdown_flag` loop of `handle_sync` followed by the
final `sync_folder` pass.  `i` is the index of the next flag read; `none`
means the loop fuel ran out (the loop did not terminate within `fuel`
iterations). -/
def hsLoop (dsz : Path → Nat) (sf : Nat) (flags : Nat → Bool) (src repl : Path) :
    Nat → Nat → FS → Option (FS × List TEv)
  | 0, _, _ => none
  | fuel + 1, i, fs =>
    if flags i then
      let r := sync_folder dsz sf fs src repl
      if r.2 then some (r.1.1, [.readEv true, .syncEv]) else none
    else
      let r := sync_folder dsz sf fs src repl
      if r.2 then
        if flags (i + 1) then
          match hsLoop dsz sf flags src repl fuel (i + 2) r.1.1 with
          | none => none
          | some (fs2, t2) => some (fs2, [.readEv false, .syncEv, .readEv true] ++ t2)
        else
          match hsLoop dsz sf flags src repl fuel (i + 2) r.1.1 with
          | none => none
          | some (fs2, t2) => some (fs2, [.readEv false, .syncEv, .readEv false, .sleepEv] ++ t2)
      else none

/-- `handle_sync` from the source: if the source exists, run the loop and a
final pass; otherwise delete the replica if it exists.  `shutil.rmtree` on
a path that exists as a regular file raises `NotADirectoryError`, which
nothing catches: this is the `none` outcome. -/
def handle_sync (dsz : Path → Nat) (sf fuel : Nat) (flags : Nat → Bool) (fs : FS)
    (src repl : Path) : Option (FS × List TEv) :=
  if pexists fs src then hsLoop dsz sf flags src repl fuel 0 fs
  else if isDir fs repl then some (rmtree fs repl, [])
  else if pexists fs repl then none
  else some (fs, [])

/-- Well-formed filesystem: keys are distinct, no entry sits at the root
path, and the parent of every entry is a directory (or the root). -/
def wf (fs : FS) : Prop :=
  (fs.map Prod.fst).Nodup ∧
    ∀ pe ∈ fs, pe.1 ≠ [] ∧ (pe.1.dropLast = [] ∨ find fs pe.1.dropLast = some .dir)

instance wfDecidable (fs : FS) : Decidable (wf fs) :=
  decidable_of_iff
    ((fs.map Prod.fst).Nodup ∧
      ∀ pe ∈ fs, pe.1 ≠ [] ∧ (pe.1.dropLast = [] ∨ find fs pe.1.dropLast = some .dir))
    Iff.rfl

/-- The mirror relation: every strict relative path below `src` carries the
same entry (same kind, byte-identical content for files) below `repl`, and
`repl` itself is a directory. -/
def MirrorAt (fs : FS) (src repl : Path) : Prop :=
  find fs repl = some .dir ∧
    ∀ rel : Path, rel ≠ [] → find fs (repl ++ rel) = find fs (src ++ rel)

/-- Disjoint roots: neither path is a (weak) ancestor of the other. -/
def Disjoint2 (p q : Path) : Prop :=
  leP p q = false ∧ leP q p = false

instance Disjoint2Decidable (p q : Path) : Decidable (Disjoint2 p q) :=
  decidable_of_iff (leP p q = false ∧ leP q p = false) Iff.rfl

/-- One level of the mirror relation: the entries directly below `repl`
agree with the entries directly below `src`. -/
def Level1 (fs : FS) (src repl : Path) : Prop :=
  ∀ nm : Name, find fs (repl ++ [nm]) = find fs (src ++ [nm])

/-- Height of the subtree of entries strictly below `src`: the largest
number of components below `src` among stored paths (0 for a leaf). -/
def srcHeight (fs : FS) (src : Path) : Nat :=
  ((rglobL fs src).map (fun q => q.length - src.length)).foldr max 0

/-- Frame property of one engine call with replica root `repl`: every path
that is not at or below `repl` is untouched, except that a missing strict
ancestor of `repl` may come into existence as a directory. -/
def SameOutside (repl : Path) (fs fs' : FS) : Prop :=
  ∀ q : Path, leP repl q = false →
    find fs' q = find fs q ∨
      (ltP q repl = true ∧ find fs q = none ∧ find fs' q = some .dir)

/-- Bounded height of the stored tree below `src`: every stored path below
`src` has at most `H` components more than `src`. -/
def HeightLe (fs : FS) (src : Path) (H : Nat) : Prop :=
  ∀ q : Path, leP src q = true → find fs q ≠ none → q.length ≤ src.length + H

/-- Approximate one-level agreement between `src` and `repl`: file children
agree byte for byte, directory children are mirrored by a directory or by
nothing (not yet created), and absent children are absent. -/
def KindsAt (fs : FS) (src repl : Path) : Prop :=
  ∀ nm : Name,
    (∀ b : List Nat, find fs (src ++ [nm]) = some (.file b) →
      find fs (repl ++ [nm]) = some (.file b)) ∧
    (find fs (src ++ [nm]) = some .dir →
      find fs (repl ++ [nm]) = some .dir ∨ find fs (repl ++ [nm]) = none) ∧
    (find fs (src ++ [nm]) = none → find fs (repl ++ [nm]) = none)

/-- Invariant of the recursion loop of a normal-case `sync_folder` pass, for
one directory child `c` of the pass's source with replica image `rc`, where
`L` is the list of still-unprocessed source directories.  Either the subtree
of `c` is already fully mirrored; or `c` is unprocessed and its replica root
is a directory (its own turn will mirror it); or `c` is unprocessed, its
replica root does not exist yet, and no source directory below `c` has been
processed; or `c` has been handled by a fresh copy (one correct level, with
each directory grandchild either mirrored already or left, as a directory,
to its own later turn). -/
def Psi (fs : FS) (L : List Path) (c rc : Path) : Prop :=
  MirrorAt fs c rc ∨
    (c ∈ L ∧ find fs rc = some .dir) ∨
    (c ∈ L ∧ find fs rc = none ∧
      ∀ g : Path, ltP c g = true → isDir fs g = true → g ∈ L) ∨
    (find fs rc = some .dir ∧ Level1 fs c rc ∧
      ∀ nm : Name, find fs (c ++ [nm]) = some .dir →
        (MirrorAt fs (c ++ [nm]) (rc ++ [nm]) ∨
          ((c ++ [nm]) ∈ L ∧ find fs (rc ++ [nm]) = some .dir)))

/-- Invariant of the recursion loop of a normal-case `sync_folder` pass over
the remaining source-directory list `L`, current state `fsc`, relative to the
entry state `fs`: the state is well formed, the replica root is still a
directory, the source subtree is untouched, file and absent children of the
source root are exactly mirrored, and every directory child satisfies the
per-child invariant `Psi`. -/
def LoopInv (fs : FS) (src repl : Path) (L : List Path) (fsc : FS) : Prop :=
  wf fsc ∧ find fsc repl = some .dir ∧
    (∀ q : Path, leP src q = true → find fsc q = find fs q) ∧
    (∀ nm : Name,
      (∀ b : List Nat, find fs (src ++ [nm]) = some (.file b) →
        find fsc (repl ++ [nm]) = some (.file b)) ∧
      (find fs (src ++ [nm]) = none → find fsc (repl ++ [nm]) = none)) ∧
    (∀ nm : Name, find fs (src ++ [nm]) = some .dir →
      Psi fsc L (src ++ [nm]) (repl ++ [nm]))

/-- A monotone flag stream: once the shutdown flag reads true, every later
read is true (the flag is set once and never reset). -/
def Mono (flags : Nat → Bool) : Prop :=
  ∀ i j : Nat, i ≤ j → flags i = true → flags j = true

/-- Deletion events (a `shutil.rmtree` or `Path.unlink` that was executed). -/
def isDel : SEv → Bool
  | .rmEv _ => true
  | .unlinkEv _ => true
  | .copyEv _ _ => false

/-- Copy events (a file content actually written). -/
def isCopy : SEv → Bool
  | .copyEv _ _ => true
  | _ => false

/-- The scheduler events strictly after the first read that observed the
shutdown flag set. -/
def afterRead : List TEv → List TEv
  | [] => []
  | .readEv true :: r => r
  | _ :: r => afterRead r

/-- Concrete depth-2 source tree (directories `s`, `s/x`, `s/x/a`). -/
def fsDeep : FS := [(["s"], .dir), (["s","x"], .dir), (["s","x","a"], .dir)]

/-- Concrete filesystem whose replica root `s/r` lies inside the source
root `s` (and a source file `s/f`). -/
def fsOver : FS := [(["s"], .dir), (["s","r"], .dir), (["s","f"], .file [1])]

/-- Concrete filesystem with no source root and a regular file at the
replica root. -/
def fsRFile : FS := [(["r"], .file [1])]

/-- Concrete filesystem with only an empty source directory. -/
def fsSolo : FS := [(["s"], .dir)]

/-- Concrete filesystem with a one-file source tree and an empty replica
directory. -/
def fsPair : FS := [(["s"], .dir), (["s","f"], .file [104, 105]), (["r"], .dir)]

/-- Concrete filesystem where the source path `s` is a regular file. -/
def fsSrcFile : FS := [(["s"], .file [1]), (["r"], .dir), (["r","junk"], .file [2])]

/-- Concrete filesystem with no source root and a replica directory. -/
def fsROnly : FS := [(["r"], .dir), (["r","x"], .file [2])]

/-- Concrete filesystem with a source file and a differing replica file. -/
def fsC7 : FS := [(["s"], .dir), (["s","f"], .file [1]), (["r"], .dir), (["r","f"], .file [9])]

/-- A concrete directory-size environment for the witnesses: every
directory reports 4096 bytes (an ext4-style size). -/
def dszC : Path → Nat := fun _ => 4096

/-- A normal-case input for the mirror invariant: a two-level source tree and
a replica directory holding stale content of every kind. -/
def fsC2W : FS :=
  [(["s"], .dir), (["s","a"], .dir), (["s","a","b"], .file [7]),
   (["s","f"], .file [1, 2]), (["r"], .dir), (["r","junk"], .dir),
   (["r","junk","x"], .file [3]), (["r","f"], .file [9]), (["r","g"], .file [4])]

/-! ### Path order lemmas -/

theorem leP_iff {p q : Path} : leP p q = true ↔ ∃ r, q = p ++ r := by
  induction p generalizing q with
  | nil => simp [leP]
  | cons a as ih =>
    cases q with
    | nil =>
      simp only [leP, Bool.false_eq_true, false_iff]
      rintro ⟨r, hr⟩
      simp at hr
    | cons b bs =>
      simp only [leP, Bool.and_eq_true, beq_iff_eq, ih]
      constructor
      · rintro ⟨hab, r, hr⟩
        exact ⟨r, by simp [hab, hr]⟩
      · rintro ⟨r, hr⟩
        simp only [List.cons_append, List.cons.injEq] at hr
        exact ⟨hr.1.symm, r, hr.2⟩

theorem leP_refl (p : Path) : leP p p = true :=
  leP_iff.mpr ⟨[], by simp⟩

theorem leP_append (p r : Path) : leP p (p ++ r) = true :=
  leP_iff.mpr ⟨r, rfl⟩

theorem leP_trans {p q r : Path} (h1 : leP p q = true) (h2 : leP q r = true) :
    leP p r = true := by
  obtain ⟨a, ha⟩ := leP_iff.mp h1
  obtain ⟨b, hb⟩ := leP_iff.mp h2
  exact leP_iff.mpr ⟨a ++ b, by simp [hb, ha]⟩

theorem ltP_iff {p q : Path} : ltP p q = true ↔ ∃ r, r ≠ [] ∧ q = p ++ r := by
  simp only [ltP, Bool.and_eq_true, decide_eq_true_eq, leP_iff]
  constructor
  · rintro ⟨⟨r, hr⟩, hlen⟩
    refine ⟨r, ?_, hr⟩
    intro hnil
    simp [hr, hnil] at hlen
  · rintro ⟨r, hne, hr⟩
    refine ⟨⟨r, hr⟩, ?_⟩
    subst hr
    rw [List.length_append]
    have : 0 < r.length := List.length_pos.mpr hne
    omega

theorem relTo_append (p r : Path) : relTo p (p ++ r) = r := by
  simp [relTo]

theorem append_relTo {p q : Path} (h : leP p q = true) : p ++ relTo p q = q := by
  obtain ⟨r, hr⟩ := leP_iff.mp h
  simp [hr, relTo_append]

theorem leP_antisymm {p q : Path} (h1 : leP p q = true) (h2 : leP q p = true) : p = q := by
  obtain ⟨a, ha⟩ := leP_iff.mp h1
  obtain ⟨b, hb⟩ := leP_iff.mp h2
  have l1 : q.length = p.length + a.length := by simp [ha]
  have l2 : p.length = q.length + b.length := by simp [hb]
  have hz : a.length = 0 := by omega
  have : a = [] := List.length_eq_zero.mp hz
  simp [ha, this]

theorem leP_of_append_eq {p q a b : Path} (h : p ++ a = q ++ b)
    (hl : p.length ≤ q.length) : leP p q = true := by
  refine leP_iff.mpr ⟨q.drop p.length, ?_⟩
  have h1 : (p ++ a).take p.length = p := by simp
  have h2 : (q ++ b).take p.length = q.take p.length := by
    rw [List.take_append_eq_append_take]
    have hz : p.length - q.length = 0 := by omega
    simp [hz]
  have hp : p = q.take p.length := by
    conv_lhs => rw [← h1]
    rw [h, h2]
  generalize hn : p.length = n at hp ⊢
  rw [hp]
  exact (List.take_append_drop n q).symm

theorem leP_total_of_common {p q r : Path} (h1 : leP p r = true) (h2 : leP q r = true) :
    leP p q = true ∨ leP q p = true := by
  obtain ⟨a, ha⟩ := leP_iff.mp h1
  obtain ⟨b, hb⟩ := leP_iff.mp h2
  have h : p ++ a = q ++ b := ha.symm.trans hb
  rcases le_total p.length q.length with hle | hle
  · exact Or.inl (leP_of_append_eq h hle)
  · exact Or.inr (leP_of_append_eq h.symm hle)

/-! ### `find` lemmas for the primitives -/

theorem pexists_iff {fs : FS} {p : Path} : pexists fs p = true ↔ ∃ e, find fs p = some e := by
  cases h : find fs p <;> simp [pexists, h]

theorem pexists_eq_false {fs : FS} {p : Path} : pexists fs p = false ↔ find fs p = none := by
  cases h : find fs p <;> simp [pexists, h]

theorem isDir_iff {fs : FS} {p : Path} : isDir fs p = true ↔ find fs p = some .dir := by
  simp [isDir]

theorem isFile_iff {fs : FS} {p : Path} :
    isFile fs p = true ↔ ∃ c, find fs p = some (.file c) := by
  unfold isFile
  cases h : find fs p with
  | none => simp
  | some e => cases e <;> simp

theorem readF_some_iff {fs : FS} {p : Path} {c : List Nat} :
    readF fs p = some c ↔ find fs p = some (.file c) := by
  unfold readF
  cases h : find fs p with
  | none => simp
  | some e => cases e <;> simp

theorem find_cons (q' : Path) (e' : Entry) (rest : FS) (p : Path) :
    find ((q', e') :: rest) p = if q' = p then some e' else find rest p := rfl

theorem find_append_of_some {l1 l2 : FS} {p : Path} {e : Entry} (h : find l1 p = some e) :
    find (l1 ++ l2) p = some e := by
  induction l1 with
  | nil => simp [find] at h
  | cons x rest ih =>
    obtain ⟨q', e'⟩ := x
    rw [find_cons] at h
    rw [List.cons_append, find_cons]
    by_cases hq : q' = p
    · simpa [hq] using h
    · rw [if_neg hq] at h ⊢
      exact ih h

theorem find_append_of_none {l1 l2 : FS} {p : Path} (h : find l1 p = none) :
    find (l1 ++ l2) p = find l2 p := by
  induction l1 with
  | nil => simp
  | cons x rest ih =>
    obtain ⟨q', e'⟩ := x
    rw [find_cons] at h
    rw [List.cons_append, find_cons]
    by_cases hq : q' = p
    · simp [hq] at h
    · rw [if_neg hq] at h ⊢
      exact ih h

theorem find_filterKey (g : Path → Bool) (fs : FS) (p : Path) :
    find (fs.filter (fun pe => g pe.1)) p = if g p then find fs p else none := by
  induction fs with
  | nil => simp [find]
  | cons x rest ih =>
    obtain ⟨q', e'⟩ := x
    by_cases hx : g q'
    · rw [List.filter_cons_of_pos (by simpa using hx), find_cons, find_cons]
      by_cases hqp : q' = p
      · subst hqp
        simp [hx]
      · simp [hqp, ih]
    · rw [List.filter_cons_of_neg (by simpa using hx), find_cons, ih]
      by_cases hqp : q' = p
      · subst hqp
        simp [hx]
      · simp [hqp]

theorem find_filter_ne (fs : FS) (p q : Path) :
    find (fs.filter (fun pe => decide (pe.1 ≠ p))) q = if q = p then none else find fs q := by
  have h := find_filterKey (fun x => decide (x ≠ p)) fs q
  by_cases hq : q = p <;> simpa [hq] using h

theorem find_setE (fs : FS) (p : Path) (e : Entry) (q : Path) :
    find (setE fs p e) q = if q = p then some e else find fs q := by
  unfold setE
  by_cases hq : q = p
  · subst hq
    have h1 : find (fs.filter (fun pe => decide (pe.1 ≠ q))) q = none := by
      rw [find_filter_ne]
      simp
    rw [find_append_of_none h1]
    simp [find]
  · have h1 : find (fs.filter (fun pe => decide (pe.1 ≠ p))) q = find fs q := by
      rw [find_filter_ne]
      simp [hq]
    cases h2 : find fs q with
    | some e' =>
      rw [find_append_of_some (h1.trans h2)]
      simp [hq]
    | none =>
      rw [find_append_of_none (h1.trans h2)]
      simp [find, hq, Ne.symm hq]

theorem find_rmtree (fs : FS) (p q : Path) :
    find (rmtree fs p) q = if leP p q = true then none else find fs q := by
  unfold rmtree
  have h := find_filterKey (fun x => !(leP p x)) fs q
  cases hc : leP p q <;> simpa [hc] using h

theorem find_unlinkE (fs : FS) (p q : Path) :
    find (unlinkE fs p) q = if q = p then none else find fs q := by
  unfold unlinkE
  exact find_filter_ne fs p q

/-! ### `pres` and `mkdirP` lemmas -/

theorem mem_pres {p q : Path} : q ∈ pres p ↔ q ≠ [] ∧ leP q p = true := by
  induction p generalizing q with
  | nil =>
    simp only [pres, List.not_mem_nil, false_iff, not_and]
    intro hq
    cases q with
    | nil => simp at hq
    | cons a as => simp [leP]
  | cons a rest ih =>
    simp only [pres, List.mem_cons, List.mem_map]
    constructor
    · rintro (rfl | ⟨q', hq', rfl⟩)
      · simp [leP]
      · obtain ⟨hne, hle⟩ := ih.mp hq'
        exact ⟨by simp, by simp [leP, hle]⟩
    · rintro ⟨hne, hle⟩
      cases q with
      | nil => simp at hne
      | cons b bs =>
        simp only [leP, Bool.and_eq_true, beq_iff_eq] at hle
        obtain ⟨rfl, hle⟩ := hle
        cases bs with
        | nil => exact Or.inl rfl
        | cons c cs => exact Or.inr ⟨c :: cs, ih.mpr ⟨by simp, hle⟩, rfl⟩

theorem find_mkfold (l : List Path) (fs : FS) (q : Path) :
    find (l.foldl (fun acc r => if pexists acc r then acc else setE acc r .dir) fs) q =
      if q ∈ l ∧ find fs q = none then some .dir else find fs q := by
  induction l generalizing fs with
  | nil => simp
  | cons r rest ih =>
    rw [List.foldl_cons]
    by_cases hpe : pexists fs r = true
    · rw [if_pos hpe, ih]
      obtain ⟨e, he⟩ := pexists_iff.mp hpe
      by_cases hqr : q = r
      · subst hqr
        simp [he]
      · simp [List.mem_cons, hqr]
    · rw [if_neg hpe, ih]
      have hnone : find fs r = none := pexists_eq_false.mp (by simpa using hpe)
      simp only [find_setE]
      by_cases hqr : q = r
      · subst hqr
        simp [hnone]
      · simp [List.mem_cons, hqr]

theorem mkdirP_none_iff {fs : FS} {p : Path} :
    mkdirP fs p = none ↔ ∃ q ∈ pres p, isFile fs q = true := by
  unfold mkdirP
  by_cases h : (pres p).any (fun q => isFile fs q) <;> simp [h] <;> simpa using h

theorem find_mkdirP {fs fs' : FS} {p : Path} (h : mkdirP fs p = some fs') (q : Path) :
    find fs' q = if q ∈ pres p ∧ find fs q = none then some .dir else find fs q := by
  unfold mkdirP at h
  split at h
  · exact absurd h (by simp)
  · obtain rfl := Option.some.inj h
    exact find_mkfold _ fs q

/-! ### Content comparison -/

theorem cmpChunks_iff (b1 b2 : List Nat) : cmpChunks b1 b2 = true ↔ b1 = b2 := by
  induction b1, b2 using cmpChunks.induct with
  | case1 b1 b2 hne =>
    rw [cmpChunks, if_pos hne]
    simp only [Bool.false_eq_true, false_iff]
    intro heq
    exact hne (by rw [heq])
  | case2 b1 b2 heq hnil =>
    rw [cmpChunks, if_neg heq, if_pos hnil]
    have h1 : b1 = [] := by
      rcases List.take_eq_nil_iff.mp hnil with h | h
      · omega
      · exact h
    have h2 : b2 = [] := by
      have : b2.take 8192 = [] := by
        have := not_not.mp heq
        rw [← this, hnil]
      rcases List.take_eq_nil_iff.mp this with h | h
      · omega
      · exact h
    simp [h1, h2]
  | case3 b1 b2 heq hnil ih =>
    rw [cmpChunks, if_neg heq, if_neg hnil]
    have heq' : b1.take 8192 = b2.take 8192 := not_not.mp heq
    rw [ih]
    constructor
    · intro hdrop
      calc b1 = b1.take 8192 ++ b1.drop 8192 := (List.take_append_drop _ _).symm
        _ = b2.take 8192 ++ b2.drop 8192 := by rw [heq', hdrop]
        _ = b2 := List.take_append_drop _ _
    · intro h
      rw [h]

theorem find_some_mem {fs : FS} {p : Path} {e : Entry} (h : find fs p = some e) :
    (p, e) ∈ fs := by
  induction fs with
  | nil => simp [find] at h
  | cons x rest ih =>
    obtain ⟨q', e'⟩ := x
    rw [find_cons] at h
    by_cases hq : q' = p
    · rw [if_pos hq] at h
      obtain rfl := Option.some.inj h
      simp [hq]
    · rw [if_neg hq] at h
      exact List.mem_cons_of_mem _ (ih h)

/-! ### Claim C6 -/

theorem compare_files_none_left {dsz : Path → Nat} {fs : FS} {p q : Path}
    (hfp : find fs p = none) : compare_files dsz fs p q = some false := by
  simp [compare_files, hfp]

theorem compare_files_none_right {dsz : Path → Nat} {fs : FS} {p q : Path}
    (hfq : find fs q = none) : compare_files dsz fs p q = some false := by
  rcases h : find fs p with _ | e <;> simp [compare_files, h, hfq]

theorem compare_files_files {dsz : Path → Nat} {fs : FS} {p q : Path} {c1 c2 : List Nat}
    (hfp : find fs p = some (.file c1)) (hfq : find fs q = some (.file c2)) :
    compare_files dsz fs p q =
      if c1.length = c2.length then some (cmpChunks c1 c2) else some false := by
  simp only [compare_files, hfp, hfq, stSize]
  by_cases h : c1.length = c2.length
  · simp [h]
  · simp [h]

theorem compare_files_file_dir {dsz : Path → Nat} {fs : FS} {p q : Path} {c : List Nat}
    (hfp : find fs p = some (.file c)) (hfq : find fs q = some .dir) :
    compare_files dsz fs p q =
      if c.length = dsz q then none else some false := by
  simp only [compare_files, hfp, hfq, stSize]
  by_cases h : c.length = dsz q
  · simp [h]
  · simp [h]

theorem find_file_or_none {fs : FS} {r : Path} (h : find fs r ≠ some .dir) :
    find fs r = none ∨ ∃ c : List Nat, find fs r = some (.file c) := by
  rcases hf : find fs r with _ | e
  · exact Or.inl rfl
  · rcases e with c | _
    · exact Or.inr ⟨c, rfl⟩
    · exact absurd hf h

/-- Claim C6 (confirmed).  For paths that do not denote directories (the
comparator is specified on files): `compare_files` returns false when
either path does not exist; returns false when the sizes differ; and
otherwise returns true exactly when the two files exist with identical
byte content (so two zero-length files compare equal).  The 8 KiB
lock-step loop is `cmpChunks`, whose success is equivalent to byte
equality (`cmpChunks_iff`). -/
theorem C6_compare_files (dsz : Path → Nat) (fs : FS) (p q : Path)
    (hp : find fs p ≠ some .dir) (hq : find fs q ≠ some .dir) :
    (¬ (pexists fs p = true ∧ pexists fs q = true) →
        compare_files dsz fs p q = some false) ∧
      (∀ b1 b2 : List Nat, readF fs p = some b1 → readF fs q = some b2 →
        b1.length ≠ b2.length → compare_files dsz fs p q = some false) ∧
      (compare_files dsz fs p q = some true ↔
        ∃ c : List Nat, find fs p = some (.file c) ∧ find fs q = some (.file c)) ∧
      (find fs p = some (.file []) → find fs q = some (.file []) →
        compare_files dsz fs p q = some true) := by
  rcases find_file_or_none hp with hfp | ⟨c1, hfp⟩
  · refine ⟨fun _ => compare_files_none_left hfp, fun b1 b2 h1 _ _ => ?_, ?_, fun h1 _ => ?_⟩
    · rw [readF_some_iff, hfp] at h1
      cases h1
    · rw [compare_files_none_left hfp]
      simp only [Option.some.injEq, Bool.false_eq_true, false_iff]
      rintro ⟨c, h1, _⟩
      rw [hfp] at h1
      cases h1
    · rw [hfp] at h1
      cases h1
  · rcases find_file_or_none hq with hfq | ⟨c2, hfq⟩
    · refine ⟨fun _ => compare_files_none_right hfq, fun b1 b2 _ h2 _ => ?_, ?_,
        fun _ h2 => ?_⟩
      · rw [readF_some_iff, hfq] at h2
        cases h2
      · rw [compare_files_none_right hfq]
        simp only [Option.some.injEq, Bool.false_eq_true, false_iff]
        rintro ⟨c, _, h2⟩
        rw [hfq] at h2
        cases h2
      · rw [hfq] at h2
        cases h2
    · have hpe : pexists fs p = true := by simp [pexists, hfp]
      have hqe : pexists fs q = true := by simp [pexists, hfq]
      have hcmp := @compare_files_files dsz fs p q c1 c2 hfp hfq
      refine ⟨fun hcon => absurd ⟨hpe, hqe⟩ hcon, ?_, ?_, ?_⟩
      · intro b1 b2 h1 h2 hne
        rw [readF_some_iff, hfp] at h1
        rw [readF_some_iff, hfq] at h2
        obtain rfl := Entry.file.inj (Option.some.inj h1)
        obtain rfl := Entry.file.inj (Option.some.inj h2)
        rw [hcmp, if_neg hne]
      · rw [hcmp]
        by_cases hlen : c1.length = c2.length
        · rw [if_pos hlen]
          constructor
          · intro hsome
            have : cmpChunks c1 c2 = true := by simpa using hsome
            obtain rfl := (cmpChunks_iff c1 c2).mp this
            exact ⟨c1, hfp, hfq⟩
          · rintro ⟨c, h1, h2⟩
            rw [hfp] at h1
            rw [hfq] at h2
            obtain rfl := Entry.file.inj (Option.some.inj h1)
            obtain rfl := Entry.file.inj (Option.some.inj h2)
            simp [cmpChunks_iff]
        · rw [if_neg hlen]
          simp only [Option.some.injEq, Bool.false_eq_true, false_iff]
          rintro ⟨c, h1, h2⟩
          rw [hfp] at h1
          rw [hfq] at h2
          obtain rfl := Entry.file.inj (Option.some.inj h1)
          obtain rfl := Entry.file.inj (Option.some.inj h2)
          exact absurd rfl hlen
      · intro h1 h2
        rw [hfp] at h1
        rw [hfq] at h2
        obtain rfl := Entry.file.inj (Option.some.inj h1)
        obtain rfl := Entry.file.inj (Option.some.inj h2)
        rw [hcmp]
        simp [cmpChunks_iff]

/-- Witness for C6: the sample file compared against itself yields true. -/
theorem C6_compare_files_witness :
    compare_files dszC fsPair ["s", "f"] ["s", "f"] = some true :=
  (C6_compare_files dszC fsPair ["s", "f"] ["s", "f"] (by decide) (by decide)).2.2.1.mpr
    ⟨[104, 105], by decide, by decide⟩

/-! ### Claim C7 -/

/-- Claim C7 (confirmed).  `copy_file` overwrites an existing destination
file with the source bytes; it never creates a missing parent directory
of the destination (when the parent is absent the copy does nothing at
all); and on any failure — unreadable source or unopenable destination —
it returns normally (it is total: the `except Exception` swallows
everything) leaving the filesystem exactly as it was, deleting nothing. -/
theorem C7_copy_file (fs : FS) (src dst : Path) :
    (∀ c cd : List Nat, readF fs src = some c → find fs dst = some (.file cd) → wf fs →
        (copy_file fs src dst).1 = writeF fs dst c ∧
          find (copy_file fs src dst).1 dst = some (.file c)) ∧
      (dst.dropLast ≠ [] → pexists fs dst.dropLast = false → copy_file fs src dst = (fs, [])) ∧
      ((readF fs src = none ∨ canWrite fs dst = false) → copy_file fs src dst = (fs, [])) := by
  refine ⟨?_, ?_, ?_⟩
  · intro c cd h1 h2 hwf
    have hnd : isDir fs dst = false := by simp [isDir, h2]
    have hpar : dst.dropLast = [] ∨ find fs dst.dropLast = some .dir :=
      (hwf.2 (dst, .file cd) (find_some_mem h2)).2
    have hcw : canWrite fs dst = true := by
      have hne : dst ≠ [] := (hwf.2 (dst, .file cd) (find_some_mem h2)).1
      rcases hpar with h | h
      · simp [canWrite, hne, h, hnd]
      · simp [canWrite, hne, isDir_iff.mpr h, hnd]
    have : copy_file fs src dst = (writeF fs dst c, [.copyEv src dst]) := by
      simp [copy_file, h1, hcw]
    refine ⟨by rw [this], ?_⟩
    rw [this]
    simp [writeF, find_setE]
  · intro hne hmiss
    have hpd : isDir fs dst.dropLast = false := by
      rcases h : find fs dst.dropLast with _ | e
      · simp [isDir, h]
      · exact absurd (pexists_iff.mpr ⟨e, h⟩) (by simp [hmiss])
    have hcw : canWrite fs dst = false := by
      simp [canWrite, hne, hpd]
    rcases h1 : readF fs src with _ | c
    · simp [copy_file, h1]
    · simp [copy_file, h1, hcw]
  · rintro (h1 | h1)
    · simp [copy_file, h1]
    · rcases h2 : readF fs src with _ | c
      · simp [copy_file, h2]
      · simp [copy_file, h2, h1]

/-- Witness for C7: overwriting an existing destination file with the
source bytes at a concrete input. -/
theorem C7_copy_file_witness :
    find (copy_file fsC7 ["s", "f"] ["r", "f"]).1 ["r", "f"] = some (.file [1]) :=
  ((C7_copy_file fsC7 ["s", "f"] ["r", "f"]).1 [1] [9] (by decide) (by decide)
    (by decide)).2

/-! ### Scheduler lemmas -/

theorem sync_folder_src_not_dir (dsz : Path → Nat) (fuel : Nat) (fs : FS) (src repl : Path)
    (h : isDir fs src = false) : sync_folder dsz fuel fs src repl = ((fs, []), true) := by
  cases fuel with
  | zero => rfl
  | succ n => simp [sync_folder, h]

theorem isDir_eq_false_of_isFile {fs : FS} {p : Path} (h : isFile fs p = true) :
    isDir fs p = false := by
  obtain ⟨c, hc⟩ := isFile_iff.mp h
  simp [isDir, hc]

theorem hsLoop_succ_ok (dsz : Path → Nat) (sf : Nat) (flags : Nat → Bool)
    (src repl : Path) (n i : Nat) (fs fs0 : FS) (ev0 : List SEv)
    (hs : sync_folder dsz sf fs src repl = ((fs0, ev0), true)) :
    hsLoop dsz sf flags src repl (n + 1) i fs =
      if flags i then some (fs0, [TEv.readEv true, TEv.syncEv])
      else if flags (i + 1) then
        match hsLoop dsz sf flags src repl n (i + 2) fs0 with
        | none => none
        | some (fs2, t2) => some (fs2, [TEv.readEv false, TEv.syncEv, TEv.readEv true] ++ t2)
      else
        match hsLoop dsz sf flags src repl n (i + 2) fs0 with
        | none => none
        | some (fs2, t2) =>
            some (fs2, [TEv.readEv false, TEv.syncEv, TEv.readEv false, TEv.sleepEv] ++ t2) := by
  rw [hsLoop, hs]
  by_cases hf : flags i = true
  · simp [hf]
  · simp [hf]

theorem hsLoop_succ_fail (dsz : Path → Nat) (sf : Nat) (flags : Nat → Bool)
    (src repl : Path) (n i : Nat) (fs : FS) (r0 : FS × List SEv)
    (hs : sync_folder dsz sf fs src repl = (r0, false)) :
    hsLoop dsz sf flags src repl (n + 1) i fs = none := by
  rw [hsLoop, hs]
  by_cases hf : flags i = true
  · simp [hf]
  · simp [hf]

theorem hsLoop_noop (dsz : Path → Nat) (sf : Nat) (flags : Nat → Bool) (src repl : Path)
    (fuel : Nat) (fs : FS) (h : isDir fs src = false) :
    ∀ i : Nat, ∀ r ∈ hsLoop dsz sf flags src repl fuel i fs, r.1 = fs := by
  induction fuel with
  | zero =>
    intro i r hr
    simp [hsLoop] at hr
  | succ n ih =>
    intro i r hr
    rw [hsLoop_succ_ok dsz sf flags src repl n i fs fs []
      (sync_folder_src_not_dir dsz sf fs src repl h)] at hr
    by_cases hf : flags i = true
    · rw [if_pos hf] at hr
      simp only [Option.mem_def, Option.some.injEq] at hr
      subst hr
      rfl
    · rw [if_neg hf] at hr
      by_cases hf2 : flags (i + 1) = true
      · rw [if_pos hf2] at hr
        cases hrec : hsLoop dsz sf flags src repl n (i + 2) fs with
        | none => rw [hrec] at hr; simp at hr
        | some r2 =>
          rw [hrec] at hr
          simp only [Option.mem_def, Option.some.injEq] at hr
          subst hr
          exact ih (i + 2) r2 (by simp [hrec])
      · rw [if_neg hf2] at hr
        cases hrec : hsLoop dsz sf flags src repl n (i + 2) fs with
        | none => rw [hrec] at hr; simp at hr
        | some r2 =>
          rw [hrec] at hr
          simp only [Option.mem_def, Option.some.injEq] at hr
          subst hr
          exact ih (i + 2) r2 (by simp [hrec])

theorem hsLoop_sync_count (dsz : Path → Nat) (sf : Nat) (flags : Nat → Bool)
    (src repl : Path) (fuel : Nat) :
    ∀ i : Nat, ∀ fs : FS, ∀ r ∈ hsLoop dsz sf flags src repl fuel i fs,
      1 ≤ r.2.count TEv.syncEv := by
  induction fuel with
  | zero =>
    intro i fs r hr
    simp [hsLoop] at hr
  | succ n ih =>
    intro i fs r hr
    rcases hsy : sync_folder dsz sf fs src repl with ⟨⟨fs0, ev0⟩, ok⟩
    cases ok with
    | false =>
      rw [hsLoop_succ_fail dsz sf flags src repl n i fs (fs0, ev0) hsy] at hr
      simp at hr
    | true =>
      rw [hsLoop_succ_ok dsz sf flags src repl n i fs fs0 ev0 hsy] at hr
      by_cases hf : flags i = true
      · rw [if_pos hf] at hr
        simp only [Option.mem_def, Option.some.injEq] at hr
        subst hr
        simp [List.count_cons]
      · rw [if_neg hf] at hr
        by_cases hf2 : flags (i + 1) = true
        · rw [if_pos hf2] at hr
          cases hrec : hsLoop dsz sf flags src repl n (i + 2) fs0 with
          | none => rw [hrec] at hr; simp at hr
          | some r2 =>
            rw [hrec] at hr
            simp only [Option.mem_def, Option.some.injEq] at hr
            subst hr
            have := ih (i + 2) fs0 r2 (by simp [hrec])
            simp only [List.count_append, List.count_cons]
            omega
        · rw [if_neg hf2] at hr
          cases hrec : hsLoop dsz sf flags src repl n (i + 2) fs0 with
          | none => rw [hrec] at hr; simp at hr
          | some r2 =>
            rw [hrec] at hr
            simp only [Option.mem_def, Option.some.injEq] at hr
            subst hr
            have := ih (i + 2) fs0 r2 (by simp [hrec])
            simp only [List.count_append, List.count_cons]
            omega

theorem hsLoop_afterRead (dsz : Path → Nat) (sf : Nat) (flags : Nat → Bool)
    (src repl : Path) (hm : Mono flags) (fuel : Nat) :
    ∀ i : Nat, ∀ fs : FS, ∀ r ∈ hsLoop dsz sf flags src repl fuel i fs,
      afterRead r.2 = [TEv.syncEv] ∨ afterRead r.2 = [TEv.readEv true, TEv.syncEv] := by
  induction fuel with
  | zero =>
    intro i fs r hr
    simp [hsLoop] at hr
  | succ n ih =>
    intro i fs r hr
    rcases hsy : sync_folder dsz sf fs src repl with ⟨⟨fs0, ev0⟩, ok⟩
    cases ok with
    | false =>
      rw [hsLoop_succ_fail dsz sf flags src repl n i fs (fs0, ev0) hsy] at hr
      simp at hr
    | true =>
      rw [hsLoop_succ_ok dsz sf flags src repl n i fs fs0 ev0 hsy] at hr
      by_cases hf : flags i = true
      · rw [if_pos hf] at hr
        simp only [Option.mem_def, Option.some.injEq] at hr
        subst hr
        left
        rfl
      · rw [if_neg hf] at hr
        by_cases hf2 : flags (i + 1) = true
        · rw [if_pos hf2] at hr
          -- by monotonicity the guard at i+2 reads true, so the nested loop
          -- terminates with exactly a final read and sync
          cases n with
          | zero =>
            rw [hsLoop] at hr
            simp at hr
          | succ m =>
            have hf3 : flags (i + 2) = true := hm (i + 1) (i + 2) (by omega) hf2
            rcases hsy2 : sync_folder dsz sf fs0 src repl with ⟨⟨fs1, ev1⟩, ok1⟩
            cases ok1 with
            | false =>
              rw [hsLoop_succ_fail dsz sf flags src repl m (i + 2) fs0 (fs1, ev1) hsy2] at hr
              simp at hr
            | true =>
              rw [hsLoop_succ_ok dsz sf flags src repl m (i + 2) fs0 fs1 ev1 hsy2,
                if_pos hf3] at hr
              simp only [Option.mem_def, Option.some.injEq] at hr
              subst hr
              right
              rfl
        · rw [if_neg hf2] at hr
          cases hrec : hsLoop dsz sf flags src repl n (i + 2) fs0 with
          | none => rw [hrec] at hr; simp at hr
          | some r2 =>
            rw [hrec] at hr
            simp only [Option.mem_def, Option.some.injEq] at hr
            subst hr
            have := ih (i + 2) fs0 r2 (by simp [hrec])
            simpa [afterRead] using this

/-! ### Claim C4 -/

/-- Claim C4 (confirmed).  For a terminating run of the scheduler on an
existing source root, with a monotone (set-once) shutdown flag: once a
read of the flag observes `true`, the remaining scheduler trace is exactly
one final `sync_folder` round — possibly preceded by the loop-guard read
that also observes `true` (the flag is not re-checked after the final
round begins), and with no sleep. -/
theorem C4_one_final_round (dsz : Path → Nat) (sf fuel : Nat) (flags : Nat → Bool)
    (fs fs' : FS) (src repl : Path) (evs : List TEv) (hm : Mono flags)
    (hsrc : pexists fs src = true)
    (h : handle_sync dsz sf fuel flags fs src repl = some (fs', evs)) :
    afterRead evs = [TEv.syncEv] ∨ afterRead evs = [TEv.readEv true, TEv.syncEv] := by
  unfold handle_sync at h
  rw [if_pos hsrc] at h
  exact hsLoop_afterRead dsz sf flags src repl hm fuel 0 fs (fs', evs) (by simp [h])

/-- Witness for C4 at a concrete input: the flag is already set, the loop
exits at once, and the trace after the first positive read is exactly the
final round. -/
theorem C4_one_final_round_witness :
    Mono (fun _ => true) ∧ pexists fsPair ["s"] = true ∧
      handle_sync dszC 3 1 (fun _ => true) fsPair ["s"] ["r"] =
        some ((sync_folder dszC 3 fsPair ["s"] ["r"]).1.1, [TEv.readEv true, TEv.syncEv]) ∧
      (afterRead [TEv.readEv true, TEv.syncEv] = [TEv.syncEv] ∨
        afterRead [TEv.readEv true, TEv.syncEv] = [TEv.readEv true, TEv.syncEv]) :=
  ⟨fun _ _ _ _ => rfl, by decide, by decide,
    C4_one_final_round dszC 3 1 (fun _ => true) fsPair
      ((sync_folder dszC 3 fsPair ["s"] ["r"]).1.1)
      ["s"] ["r"] [TEv.readEv true, TEv.syncEv]
      (fun _ _ _ _ => rfl) (by decide) (by decide)⟩

/-! ### Claim C9 -/

/-- Claim C9 (confirmed).  Whenever `handle_sync` is entered with an
existing source root and returns, its trace contains at least one
`sync_folder` round: the final pass after the loop runs unconditionally,
even when the shutdown flag was already set before the loop was entered. -/
theorem C9_at_least_one_round (dsz : Path → Nat) (sf fuel : Nat) (flags : Nat → Bool)
    (fs fs' : FS) (src repl : Path) (evs : List TEv)
    (hsrc : pexists fs src = true)
    (h : handle_sync dsz sf fuel flags fs src repl = some (fs', evs)) :
    1 ≤ evs.count TEv.syncEv := by
  unfold handle_sync at h
  rw [if_pos hsrc] at h
  exact hsLoop_sync_count dsz sf flags src repl fuel 0 fs (fs', evs) (by simp [h])

/-- Witness for C9: the flag is set before the loop starts and one round
still runs. -/
theorem C9_at_least_one_round_witness :
    pexists fsPair ["s"] = true ∧
      handle_sync dszC 3 1 (fun _ => true) fsPair ["s"] ["r"] =
        some ((sync_folder dszC 3 fsPair ["s"] ["r"]).1.1, [TEv.readEv true, TEv.syncEv]) ∧
      1 ≤ [TEv.readEv true, TEv.syncEv].count TEv.syncEv :=
  ⟨by decide, by decide,
    C9_at_least_one_round dszC 3 1 (fun _ => true) fsPair
      ((sync_folder dszC 3 fsPair ["s"] ["r"]).1.1)
      ["s"] ["r"] [TEv.readEv true, TEv.syncEv] (by decide) (by decide)⟩

/-! ### Claim C10 -/

/-- Claim C10 (confirmed).  When the source path exists but is a regular
file, `handle_sync` enters its loop (the `exists` check passes), and every
`sync_folder` call returns at the not-a-directory guard without mutating
anything: the filesystem at the end of the run is exactly the initial one;
the replica is neither updated nor deleted. -/
theorem C10_file_source_frozen (dsz : Path → Nat) (sf fuel : Nat) (flags : Nat → Bool)
    (fs fs' : FS) (src repl : Path) (evs : List TEv)
    (hfile : isFile fs src = true)
    (h : handle_sync dsz sf fuel flags fs src repl = some (fs', evs)) : fs' = fs := by
  have hex : pexists fs src = true := by
    obtain ⟨c, hc⟩ := isFile_iff.mp hfile
    simp [pexists, hc]
  unfold handle_sync at h
  rw [if_pos hex] at h
  exact hsLoop_noop dsz sf flags src repl fuel fs (isDir_eq_false_of_isFile hfile) 0
    (fs', evs) (by simp [h])

/-- Witness for C10 at a concrete input: a run over a file source returns
the filesystem unchanged (the junk in the replica survives). -/
theorem C10_file_source_frozen_witness :
    isFile fsSrcFile ["s"] = true ∧
      handle_sync dszC 2 1 (fun _ => true) fsSrcFile ["s"] ["r"] =
        some (fsSrcFile, [TEv.readEv true, TEv.syncEv]) ∧
      fsSrcFile = fsSrcFile :=
  ⟨by decide, by decide,
    C10_file_source_frozen dszC 2 1 (fun _ => true) fsSrcFile fsSrcFile ["s"] ["r"]
      [TEv.readEv true, TEv.syncEv] (by decide) (by decide)⟩

/-! ### Claim C5, amended part -/

/-- Claim C5 (corrected).  When the source root does not exist at entry:
no reconcile round ever runs and the source root is never created; if the
replica root exists as a directory it is deleted wholesale; if it does not
exist, nothing happens; but if it exists as a regular file, `shutil.rmtree`
raises an uncaught `NotADirectoryError` (outcome `none`) and nothing is
deleted — the unqualified "if it exists it is deleted" of the claim fails
there (see the counterexample theorem). -/
theorem C5_absent_source (dsz : Path → Nat) (sf fuel : Nat) (flags : Nat → Bool) (fs : FS)
    (src repl : Path) (h : pexists fs src = false) :
    (∀ r ∈ handle_sync dsz sf fuel flags fs src repl,
        r.2.count TEv.syncEv = 0 ∧ find r.1 src = none) ∧
      (isDir fs repl = true →
        handle_sync dsz sf fuel flags fs src repl = some (rmtree fs repl, []) ∧
          ∀ q : Path, leP repl q = true → find (rmtree fs repl) q = none) ∧
      (pexists fs repl = false →
        handle_sync dsz sf fuel flags fs src repl = some (fs, [])) ∧
      (isFile fs repl = true → handle_sync dsz sf fuel flags fs src repl = none) := by
  have hs : find fs src = none := pexists_eq_false.mp h
  have hfalse : ¬ pexists fs src = true := by simp [h]
  refine ⟨?_, ?_, ?_, ?_⟩
  · intro r hr
    unfold handle_sync at hr
    rw [if_neg hfalse] at hr
    by_cases hd : isDir fs repl = true
    · rw [if_pos hd] at hr
      simp only [Option.mem_def, Option.some.injEq] at hr
      subst hr
      refine ⟨rfl, ?_⟩
      rw [find_rmtree]
      split <;> simp [hs]
    · rw [if_neg hd] at hr
      by_cases hp : pexists fs repl = true
      · rw [if_pos hp] at hr
        simp at hr
      · rw [if_neg hp] at hr
        simp only [Option.mem_def, Option.some.injEq] at hr
        subst hr
        exact ⟨rfl, hs⟩
  · intro hd
    unfold handle_sync
    rw [if_neg hfalse, if_pos hd]
    refine ⟨rfl, fun q hq => ?_⟩
    rw [find_rmtree]
    simp [hq]
  · intro hp
    unfold handle_sync
    have hd : isDir fs repl = false := by
      rcases hb : find fs repl with _ | e
      · simp [isDir, hb]
      · exact absurd (pexists_iff.mpr ⟨e, hb⟩) (by simp [hp])
    rw [if_neg hfalse, if_neg (by simp [hd]), if_neg (by simp [hp])]
  · intro hfile
    unfold handle_sync
    have hd : isDir fs repl = false := isDir_eq_false_of_isFile hfile
    have hp : pexists fs repl = true := by
      obtain ⟨c, hc⟩ := isFile_iff.mp hfile
      simp [pexists, hc]
    rw [if_neg hfalse, if_neg (by simp [hd]), if_pos hp]

/-- Witness for C5 at a concrete input with a replica directory: the
replica is removed wholesale, no round runs and the source stays absent. -/
theorem C5_absent_source_witness :
    pexists fsROnly ["s"] = false ∧ isDir fsROnly ["r"] = true ∧
      (handle_sync dszC 1 1 (fun _ => true) fsROnly ["s"] ["r"] =
          some (rmtree fsROnly ["r"], []) ∧
        ∀ q : Path, leP ["r"] q = true → find (rmtree fsROnly ["r"]) q = none) :=
  ⟨by decide, by decide,
    (C5_absent_source dszC 1 1 (fun _ => true) fsROnly ["s"] ["r"] (by decide)).2.1 (by decide)⟩

/-! ### Frame lemmas: every mutation stays at or below the replica root,
or creates a missing ancestor of it as a directory -/

theorem leP_dropLast (p : Path) : leP p.dropLast p = true := by
  rcases p.eq_nil_or_concat with h | ⟨q, a, rfl⟩
  · simp [h, leP]
  · rw [List.concat_eq_append, List.dropLast_concat]
    exact leP_append q [a]

theorem sync_folder_succ_fresh {dsz : Path → Nat} {fs : FS} {src repl : Path} (n : Nat)
    (hd : isDir fs src = true) (hnp : pexists fs repl = false) :
    sync_folder dsz (n + 1) fs src repl = (copy_folder n fs src repl src, true) := by
  rw [sync_folder]
  rw [if_neg (by simp [hd]), if_pos (by simp [hnp])]

theorem sync_folder_succ_conflict {dsz : Path → Nat} {fs : FS} {src repl : Path} (n : Nat)
    (hd : isDir fs src = true) (hp : pexists fs repl = true)
    (hf : isFile fs repl = true) :
    sync_folder dsz (n + 1) fs src repl = ((fs, []), true) := by
  rw [sync_folder]
  rw [if_neg (by simp [hd]), if_neg (by simp [hp]), if_pos hf]

theorem sync_folder_succ_normal {dsz : Path → Nat} {fs : FS} {src repl : Path} (n : Nat)
    (hd : isDir fs src = true) (hp : pexists fs repl = true)
    (hnf : isFile fs repl = false) :
    sync_folder dsz (n + 1) fs src repl =
      (if (sfFiles dsz src repl (get_all_files fs src)
            (remove_redundant_files
              (remove_redundant_folders fs repl
                ((get_all_folders fs src).map (fun d => build_path repl (relTo src d)))).1
              repl
              ((get_all_files fs src).map (fun f => build_path repl (relTo src f)))).1).2 then
        (((sfFolders src repl (fun a b c => sync_folder dsz n a b c) (get_all_folders fs src)
            (sfFiles dsz src repl (get_all_files fs src)
              (remove_redundant_files
                (remove_redundant_folders fs repl
                  ((get_all_folders fs src).map (fun d => build_path repl (relTo src d)))).1
                repl
                ((get_all_files fs src).map (fun f => build_path repl (relTo src f)))).1).1.1).1.1,
          (remove_redundant_folders fs repl
              ((get_all_folders fs src).map (fun d => build_path repl (relTo src d)))).2 ++
            (remove_redundant_files
                (remove_redundant_folders fs repl
                  ((get_all_folders fs src).map (fun d => build_path repl (relTo src d)))).1
                repl
                ((get_all_files fs src).map (fun f => build_path repl (relTo src f)))).2 ++
            (sfFiles dsz src repl (get_all_files fs src)
              (remove_redundant_files
                (remove_redundant_folders fs repl
                  ((get_all_folders fs src).map (fun d => build_path repl (relTo src d)))).1
                repl
                ((get_all_files fs src).map (fun f => build_path repl (relTo src f)))).1).1.2 ++
            (sfFolders src repl (fun a b c => sync_folder dsz n a b c) (get_all_folders fs src)
              (sfFiles dsz src repl (get_all_files fs src)
                (remove_redundant_files
                  (remove_redundant_folders fs repl
                    ((get_all_folders fs src).map (fun d => build_path repl (relTo src d)))).1
                  repl
                  ((get_all_files fs src).map
                    (fun f => build_path repl (relTo src f)))).1).1.1).1.2),
          (sfFolders src repl (fun a b c => sync_folder dsz n a b c) (get_all_folders fs src)
            (sfFiles dsz src repl (get_all_files fs src)
              (remove_redundant_files
                (remove_redundant_folders fs repl
                  ((get_all_folders fs src).map (fun d => build_path repl (relTo src d)))).1
                repl
                ((get_all_files fs src).map (fun f => build_path repl (relTo src f)))).1).1.1).2)
      else
        (((sfFiles dsz src repl (get_all_files fs src)
            (remove_redundant_files
              (remove_redundant_folders fs repl
                ((get_all_folders fs src).map (fun d => build_path repl (relTo src d)))).1
              repl
              ((get_all_files fs src).map (fun f => build_path repl (relTo src f)))).1).1.1,
          (remove_redundant_folders fs repl
              ((get_all_folders fs src).map (fun d => build_path repl (relTo src d)))).2 ++
            (remove_redundant_files
                (remove_redundant_folders fs repl
                  ((get_all_folders fs src).map (fun d => build_path repl (relTo src d)))).1
                repl
                ((get_all_files fs src).map (fun f => build_path repl (relTo src f)))).2 ++
            (sfFiles dsz src repl (get_all_files fs src)
              (remove_redundant_files
                (remove_redundant_folders fs repl
                  ((get_all_folders fs src).map (fun d => build_path repl (relTo src d)))).1
                repl
                ((get_all_files fs src).map (fun f => build_path repl (relTo src f)))).1).1.2),
          false)) := by
  rw [sync_folder]
  rw [if_neg (by simp [hd]), if_neg (by simp [hp]), if_neg (by simp [hnf])]

theorem copy_folder_succ_mkfail {fs : FS} {src repl root : Path} (n : Nat)
    (hm : mkdirP fs repl = none) :
    copy_folder (n + 1) fs src repl root = (fs, []) := by
  rw [copy_folder, hm]

theorem copy_folder_succ_ok {fs fs0 : FS} {src repl root : Path} (n : Nat)
    (hm : mkdirP fs repl = some fs0) :
    copy_folder (n + 1) fs src repl root =
      cfItems root repl (fun a b c => copy_folder n a b c root) (iterdir fs0 src) fs0 := by
  rw [copy_folder, hm]

theorem cfItems_cons_dir {fs : FS} {root repl item : Path}
    {rec : FS → Path → Path → FS × List SEv} {rest : List Path}
    (hd : isDir fs item = true) :
    cfItems root repl rec (item :: rest) fs =
      ((cfItems root repl rec rest (rec fs item (build_path repl (relTo root item))).1).1,
        (rec fs item (build_path repl (relTo root item))).2 ++
          (cfItems root repl rec rest (rec fs item (build_path repl (relTo root item))).1).2) := by
  rw [cfItems, if_pos hd]

theorem cfItems_cons_mkfail {fs : FS} {root repl item : Path}
    {rec : FS → Path → Path → FS × List SEv} {rest : List Path}
    (hd : isDir fs item = false)
    (hm : mkdirP fs (build_path repl (relTo root item)).dropLast = none) :
    cfItems root repl rec (item :: rest) fs = (fs, []) := by
  simp only [cfItems, hd, Bool.false_eq_true, if_false, hm]

theorem cfItems_cons_copyfail {fs fs1 : FS} {root repl item : Path}
    {rec : FS → Path → Path → FS × List SEv} {rest : List Path}
    (hd : isDir fs item = false)
    (hm : mkdirP fs (build_path repl (relTo root item)).dropLast = some fs1)
    (hc : copy2 fs1 item (build_path repl (relTo root item)) = none) :
    cfItems root repl rec (item :: rest) fs = (fs1, []) := by
  simp only [cfItems, hd, Bool.false_eq_true, if_false, hm, hc]

theorem cfItems_cons_copyok {fs fs1 fs2 : FS} {root repl item : Path} {ev : SEv}
    {rec : FS → Path → Path → FS × List SEv} {rest : List Path}
    (hd : isDir fs item = false)
    (hm : mkdirP fs (build_path repl (relTo root item)).dropLast = some fs1)
    (hc : copy2 fs1 item (build_path repl (relTo root item)) = some (fs2, ev)) :
    cfItems root repl rec (item :: rest) fs =
      ((cfItems root repl rec rest fs2).1, ev :: (cfItems root repl rec rest fs2).2) := by
  simp only [cfItems, hd, Bool.false_eq_true, if_false, hm, hc]

theorem sfFiles_cons_none {dsz : Path → Nat} {fs : FS} {src repl f : Path} {rest : List Path}
    (hc : compare_files dsz fs f (build_path repl (relTo src f)) = none) :
    sfFiles dsz src repl (f :: rest) fs = ((fs, []), false) := by
  rw [sfFiles, hc]

theorem sfFiles_cons_skip {dsz : Path → Nat} {fs : FS} {src repl f : Path} {rest : List Path}
    (hc : compare_files dsz fs f (build_path repl (relTo src f)) = some true) :
    sfFiles dsz src repl (f :: rest) fs = sfFiles dsz src repl rest fs := by
  rw [sfFiles, hc]

theorem sfFiles_cons_copy {dsz : Path → Nat} {fs : FS} {src repl f : Path} {rest : List Path}
    (hc : compare_files dsz fs f (build_path repl (relTo src f)) = some false) :
    sfFiles dsz src repl (f :: rest) fs =
      (((sfFiles dsz src repl rest (copy_file fs f (build_path repl (relTo src f))).1).1.1,
        (copy_file fs f (build_path repl (relTo src f))).2 ++
          (sfFiles dsz src repl rest (copy_file fs f (build_path repl (relTo src f))).1).1.2),
        (sfFiles dsz src repl rest (copy_file fs f (build_path repl (relTo src f))).1).2) := by
  rw [sfFiles, hc]

theorem sfFolders_cons {fs : FS} {src repl d : Path}
    {rec : FS → Path → Path → (FS × List SEv) × Bool} {rest : List Path} :
    sfFolders src repl rec (d :: rest) fs =
      if (rec fs d (build_path repl (relTo src d))).2 then
        (((sfFolders src repl rec rest (rec fs d (build_path repl (relTo src d))).1.1).1.1,
          (rec fs d (build_path repl (relTo src d))).1.2 ++
            (sfFolders src repl rec rest (rec fs d (build_path repl (relTo src d))).1.1).1.2),
          (sfFolders src repl rec rest (rec fs d (build_path repl (relTo src d))).1.1).2)
      else rec fs d (build_path repl (relTo src d)) := by
  rw [sfFolders]

theorem sfFolders_cons_ok {fs : FS} {src repl d : Path}
    {rec : FS → Path → Path → (FS × List SEv) × Bool} {rest : List Path}
    (h : (rec fs d (build_path repl (relTo src d))).2 = true) :
    sfFolders src repl rec (d :: rest) fs =
      (((sfFolders src repl rec rest (rec fs d (build_path repl (relTo src d))).1.1).1.1,
        (rec fs d (build_path repl (relTo src d))).1.2 ++
          (sfFolders src repl rec rest (rec fs d (build_path repl (relTo src d))).1.1).1.2),
        (sfFolders src repl rec rest (rec fs d (build_path repl (relTo src d))).1.1).2) := by
  rw [sfFolders, if_pos h]

theorem sfFolders_cons_fail {fs : FS} {src repl d : Path}
    {rec : FS → Path → Path → (FS × List SEv) × Bool} {rest : List Path}
    (h : (rec fs d (build_path repl (relTo src d))).2 = false) :
    sfFolders src repl rec (d :: rest) fs = rec fs d (build_path repl (relTo src d)) := by
  rw [sfFolders, if_neg (by simp [h])]

theorem SameOutside_refl (repl : Path) (fs : FS) : SameOutside repl fs fs :=
  fun _ _ => Or.inl rfl

theorem SameOutside_trans {repl : Path} {fs1 fs2 fs3 : FS}
    (h1 : SameOutside repl fs1 fs2) (h2 : SameOutside repl fs2 fs3) :
    SameOutside repl fs1 fs3 := by
  intro q hq
  rcases h1 q hq with ha | ⟨hlt, hn, hd⟩
  · rcases h2 q hq with hb | ⟨hlt, hn, hd⟩
    · exact Or.inl (hb.trans ha)
    · exact Or.inr ⟨hlt, ha ▸ hn, hd⟩
  · rcases h2 q hq with hb | ⟨hlt2, hn2, hd2⟩
    · exact Or.inr ⟨hlt, hn, hb.trans hd⟩
    · rw [hd] at hn2
      cases hn2

theorem SameOutside_mono {repl repl' : Path} {fs fs' : FS}
    (hle : leP repl repl' = true) (h : SameOutside repl' fs fs') :
    SameOutside repl fs fs' := by
  intro q hq
  have hq' : leP repl' q = false := by
    cases hc : leP repl' q
    · rfl
    · exact absurd (leP_trans hle hc) (by simp [hq])
  rcases h q hq' with ha | ⟨hlt, hn, hd⟩
  · exact Or.inl ha
  · obtain ⟨r, hr, hrep⟩ := ltP_iff.mp hlt
    have hqle : leP q repl = true ∨ leP repl q = true := by
      rcases leP_total_of_common (leP_iff.mpr ⟨r, hrep⟩) hle with h' | h'
      · exact Or.inl h'
      · exact Or.inr h'
    rcases hqle with h' | h'
    · have hne : q ≠ repl := by
        rintro rfl
        simp [leP_refl] at hq
      refine Or.inr ⟨?_, hn, hd⟩
      obtain ⟨s, hs⟩ := leP_iff.mp h'
      refine ltP_iff.mpr ⟨s, ?_, hs⟩
      rintro rfl
      simp at hs
      exact hne hs.symm
    · simp [h'] at hq

theorem setE_SameOutside {repl p : Path} (fs : FS) (e : Entry)
    (hle : leP repl p = true) : SameOutside repl fs (setE fs p e) := by
  intro q hq
  left
  rw [find_setE]
  rw [if_neg]
  rintro rfl
  simp [hle] at hq

theorem rmtree_SameOutside {repl p : Path} (fs : FS)
    (hle : leP repl p = true) : SameOutside repl fs (rmtree fs p) := by
  intro q hq
  left
  rw [find_rmtree]
  rw [if_neg]
  intro hpq
  simp [leP_trans hle hpq] at hq

theorem unlinkE_SameOutside {repl p : Path} (fs : FS)
    (hle : leP repl p = true) : SameOutside repl fs (unlinkE fs p) := by
  intro q hq
  left
  rw [find_unlinkE]
  rw [if_neg]
  rintro rfl
  simp [hle] at hq

theorem mkdirP_SameOutside {repl t : Path} {fs fs' : FS}
    (h : mkdirP fs t = some fs')
    (hcomp : leP repl t = true ∨ leP t repl = true) :
    SameOutside repl fs fs' := by
  intro q hq
  rw [find_mkdirP h q]
  by_cases hc : q ∈ pres t ∧ find fs q = none
  · rw [if_pos hc]
    obtain ⟨hmem, hnone⟩ := hc
    obtain ⟨hne, hqt⟩ := mem_pres.mp hmem
    -- q is a nonempty weak ancestor of t; with q not at/below repl this
    -- forces q to be a strict ancestor of repl
    have hqrepl : leP q repl = true := by
      rcases hcomp with hrt | htr
      · rcases leP_total_of_common hqt hrt with h' | h'
        · exact h'
        · simp [h'] at hq
      · rcases leP_total_of_common (leP_refl repl) (leP_trans hqt htr) with h' | h'
        · simp [h'] at hq
        · exact h'
    have hne2 : q ≠ repl := by
      rintro rfl
      simp [leP_refl] at hq
    refine Or.inr ⟨?_, hnone, rfl⟩
    obtain ⟨s, hs⟩ := leP_iff.mp hqrepl
    refine ltP_iff.mpr ⟨s, ?_, hs⟩
    rintro rfl
    simp at hs
    exact hne2 hs.symm
  · rw [if_neg hc]
    exact Or.inl rfl

theorem copy_file_SameOutside {repl : Path} (fs : FS) (a dst : Path)
    (hle : leP repl dst = true) : SameOutside repl fs (copy_file fs a dst).1 := by
  unfold copy_file
  rcases h1 : readF fs a with _ | c
  · exact SameOutside_refl repl fs
  · by_cases hcw : canWrite fs dst = true
    · simp only [hcw, if_pos]
      exact setE_SameOutside fs (.file c) hle
    · simp only [Bool.not_eq_true] at hcw
      simp only [hcw, Bool.false_eq_true, if_neg, if_false]
      exact SameOutside_refl repl fs

theorem copy2_SameOutside {repl : Path} {fs fs2 : FS} {a dst : Path} {ev : SEv}
    (h : copy2 fs a dst = some (fs2, ev))
    (hle : leP repl dst = true) : SameOutside repl fs fs2 := by
  unfold copy2 at h
  rcases h1 : readF fs a with _ | c
  · rw [h1] at h
    cases h
  · rw [h1] at h
    simp only at h
    split at h
    · split at h
      · simp only [Option.some.injEq, Prod.mk.injEq] at h
        obtain ⟨h2, _⟩ := h
        subst h2
        exact setE_SameOutside fs _ (leP_trans hle (leP_append dst _))
      · cases h
    · split at h
      · simp only [Option.some.injEq, Prod.mk.injEq] at h
        obtain ⟨h2, _⟩ := h
        subst h2
        exact setE_SameOutside fs _ hle
      · cases h

theorem prune_dirs_SameOutside {repl : Path} (l : List Path) (acc : FS × List SEv)
    (preserve : List Path) (hl : ∀ q ∈ l, leP repl q = true) :
    SameOutside repl acc.1
      (l.foldl (fun acc q =>
        if isDir acc.1 q && !(preserve.contains q) then
          (rmtree acc.1 q, acc.2 ++ [.rmEv q]) else acc) acc).1 := by
  induction l generalizing acc with
  | nil => exact SameOutside_refl repl acc.1
  | cons x rest ih =>
    rw [List.foldl_cons]
    have hx : leP repl x = true := hl x (by simp)
    have hrest : ∀ q ∈ rest, leP repl q = true := fun q hq => hl q (by simp [hq])
    by_cases hc : (isDir acc.1 x && !(preserve.contains x)) = true
    · rw [if_pos hc]
      exact SameOutside_trans (rmtree_SameOutside acc.1 hx) (ih _ hrest)
    · rw [if_neg hc]
      exact ih _ hrest

theorem prune_files_SameOutside {repl : Path} (l : List Path) (acc : FS × List SEv)
    (preserve : List Path) (hl : ∀ q ∈ l, leP repl q = true) :
    SameOutside repl acc.1
      (l.foldl (fun acc q =>
        if isFile acc.1 q && !(preserve.contains q) then
          (unlinkE acc.1 q, acc.2 ++ [.unlinkEv q]) else acc) acc).1 := by
  induction l generalizing acc with
  | nil => exact SameOutside_refl repl acc.1
  | cons x rest ih =>
    rw [List.foldl_cons]
    have hx : leP repl x = true := hl x (by simp)
    have hrest : ∀ q ∈ rest, leP repl q = true := fun q hq => hl q (by simp [hq])
    by_cases hc : (isFile acc.1 x && !(preserve.contains x)) = true
    · rw [if_pos hc]
      exact SameOutside_trans (unlinkE_SameOutside acc.1 hx) (ih _ hrest)
    · rw [if_neg hc]
      exact ih _ hrest

theorem mem_iterdir_leP {fs : FS} {p q : Path} (h : q ∈ iterdir fs p) :
    leP p q = true := by
  unfold iterdir at h
  obtain ⟨hmem, hcond⟩ := List.mem_filter.mp h
  simp only [Bool.and_eq_true, decide_eq_true_eq] at hcond
  obtain ⟨hne, hdrop⟩ := hcond
  have : q = p ++ [q.getLast hne] := by
    conv_lhs => rw [← List.dropLast_append_getLast hne]
    rw [hdrop]
  rw [this]
  exact leP_append p _

theorem remove_redundant_folders_SameOutside (fs : FS) (repl : Path)
    (preserve : List Path) :
    SameOutside repl fs (remove_redundant_folders fs repl preserve).1 := by
  unfold remove_redundant_folders
  exact prune_dirs_SameOutside (iterdir fs repl) (fs, []) preserve
    (fun q hq => mem_iterdir_leP hq)

theorem remove_redundant_files_SameOutside (fs : FS) (repl : Path)
    (preserve : List Path) :
    SameOutside repl fs (remove_redundant_files fs repl preserve).1 := by
  unfold remove_redundant_files
  exact prune_files_SameOutside (iterdir fs repl) (fs, []) preserve
    (fun q hq => mem_iterdir_leP hq)

theorem sfFiles_SameOutside (dsz : Path → Nat) (src repl : Path) (l : List Path) (fs : FS) :
    SameOutside repl fs (sfFiles dsz src repl l fs).1.1 := by
  induction l generalizing fs with
  | nil => exact SameOutside_refl repl fs
  | cons f rest ih =>
    rcases hc : compare_files dsz fs f (build_path repl (relTo src f)) with _ | b
    · rw [sfFiles_cons_none hc]
      exact SameOutside_refl repl fs
    · cases b with
      | true =>
        rw [sfFiles_cons_skip hc]
        exact ih fs
      | false =>
        rw [sfFiles_cons_copy hc]
        exact SameOutside_trans
          (copy_file_SameOutside fs f (build_path repl (relTo src f)) (leP_append repl _))
          (ih _)

theorem cfItems_SameOutside (root repl : Path) (rec : FS → Path → Path → FS × List SEv)
    (hrec : ∀ a b c, SameOutside c a (rec a b c).1) (l : List Path) (fs : FS) :
    SameOutside repl fs (cfItems root repl rec l fs).1 := by
  induction l generalizing fs with
  | nil => exact SameOutside_refl repl fs
  | cons item rest ih =>
    by_cases hd : isDir fs item = true
    · rw [cfItems_cons_dir hd]
      refine SameOutside_trans ?_ (ih _)
      exact SameOutside_mono (leP_append repl _) (hrec fs item _)
    · rcases hm : mkdirP fs (build_path repl (relTo root item)).dropLast with _ | fs1
      · rw [cfItems_cons_mkfail (by simp [hd]) hm]
        exact SameOutside_refl repl fs
      · have hso1 : SameOutside repl fs fs1 := by
          refine mkdirP_SameOutside hm ?_
          have h1 : leP repl (build_path repl (relTo root item)) = true := leP_append repl _
          have h2 : leP (build_path repl (relTo root item)).dropLast
              (build_path repl (relTo root item)) = true := leP_dropLast _
          rcases leP_total_of_common h1 h2 with h' | h'
          · exact Or.inl h'
          · exact Or.inr h'
        rcases hc : copy2 fs1 item (build_path repl (relTo root item)) with _ | r2
        · rw [cfItems_cons_copyfail (by simp [hd]) hm hc]
          exact hso1
        · obtain ⟨fs2, ev⟩ := r2
          rw [cfItems_cons_copyok (by simp [hd]) hm hc]
          have hso2 : SameOutside repl fs1 fs2 :=
            copy2_SameOutside hc (leP_append repl _)
          exact SameOutside_trans hso1 (SameOutside_trans hso2 (ih _))

theorem copy_folder_SameOutside (fuel : Nat) (fs : FS) (src repl root : Path) :
    SameOutside repl fs (copy_folder fuel fs src repl root).1 := by
  induction fuel generalizing fs src repl with
  | zero => exact SameOutside_refl repl fs
  | succ n ih =>
    rcases hm : mkdirP fs repl with _ | fs0
    · rw [copy_folder_succ_mkfail n hm]
      exact SameOutside_refl repl fs
    · rw [copy_folder_succ_ok n hm]
      have hso : SameOutside repl fs fs0 :=
        mkdirP_SameOutside hm (Or.inl (leP_refl repl))
      exact SameOutside_trans hso
        (cfItems_SameOutside root repl _ (fun a b c => ih a b c) _ fs0)

theorem sfFolders_SameOutside (src repl : Path)
    (rec : FS → Path → Path → (FS × List SEv) × Bool)
    (hrec : ∀ a b c, SameOutside c a (rec a b c).1.1) (l : List Path) (fs : FS) :
    SameOutside repl fs (sfFolders src repl rec l fs).1.1 := by
  induction l generalizing fs with
  | nil => exact SameOutside_refl repl fs
  | cons d rest ih =>
    rw [sfFolders_cons]
    split
    · exact SameOutside_trans
        (SameOutside_mono (leP_append repl _) (hrec fs d _)) (ih _)
    · exact SameOutside_mono (leP_append repl _) (hrec fs d _)

theorem sync_folder_SameOutside (dsz : Path → Nat) (fuel : Nat) (fs : FS) (src repl : Path) :
    SameOutside repl fs (sync_folder dsz fuel fs src repl).1.1 := by
  induction fuel generalizing fs src repl with
  | zero => exact SameOutside_refl repl fs
  | succ n ih =>
    by_cases h1 : isDir fs src = true
    · by_cases h2 : pexists fs repl = true
      · by_cases h3 : isFile fs repl = true
        · rw [sync_folder_succ_conflict n h1 h2 h3]
          exact SameOutside_refl repl fs
        · rw [sync_folder_succ_normal n h1 h2 (by simpa using h3)]
          split
          · refine SameOutside_trans
              (remove_redundant_folders_SameOutside fs repl
                ((get_all_folders fs src).map (fun d => build_path repl (relTo src d)))) ?_
            refine SameOutside_trans
              (remove_redundant_files_SameOutside
                (remove_redundant_folders fs repl
                  ((get_all_folders fs src).map (fun d => build_path repl (relTo src d)))).1
                repl ((get_all_files fs src).map (fun f => build_path repl (relTo src f)))) ?_
            refine SameOutside_trans
              (sfFiles_SameOutside dsz src repl (get_all_files fs src) _) ?_
            exact sfFolders_SameOutside src repl _ (fun a b c => ih a b c) _ _
          · refine SameOutside_trans
              (remove_redundant_folders_SameOutside fs repl
                ((get_all_folders fs src).map (fun d => build_path repl (relTo src d)))) ?_
            refine SameOutside_trans
              (remove_redundant_files_SameOutside
                (remove_redundant_folders fs repl
                  ((get_all_folders fs src).map (fun d => build_path repl (relTo src d)))).1
                repl ((get_all_files fs src).map (fun f => build_path repl (relTo src f)))) ?_
            exact sfFiles_SameOutside dsz src repl (get_all_files fs src) _
      · rw [sync_folder_succ_fresh n h1 (by simpa using h2)]
        exact copy_folder_SameOutside n fs src repl src
    · rw [sync_folder_src_not_dir dsz (n + 1) fs src repl (by simpa using h1)]
      exact SameOutside_refl repl fs

theorem hsLoop_SameOutside (dsz : Path → Nat) (sf : Nat) (flags : Nat → Bool)
    (src repl : Path) (fuel : Nat) :
    ∀ i : Nat, ∀ fs : FS, ∀ r ∈ hsLoop dsz sf flags src repl fuel i fs,
      SameOutside repl fs r.1 := by
  induction fuel with
  | zero =>
    intro i fs r hr
    simp [hsLoop] at hr
  | succ n ih =>
    intro i fs r hr
    rcases hsy : sync_folder dsz sf fs src repl with ⟨⟨fs0, ev0⟩, ok⟩
    have hso : SameOutside repl fs fs0 := by
      have h := sync_folder_SameOutside dsz sf fs src repl
      rw [hsy] at h
      exact h
    cases ok with
    | false =>
      rw [hsLoop_succ_fail dsz sf flags src repl n i fs (fs0, ev0) hsy] at hr
      simp at hr
    | true =>
      rw [hsLoop_succ_ok dsz sf flags src repl n i fs fs0 ev0 hsy] at hr
      by_cases hf : flags i = true
      · rw [if_pos hf] at hr
        simp only [Option.mem_def, Option.some.injEq] at hr
        subst hr
        exact hso
      · rw [if_neg hf] at hr
        by_cases hf2 : flags (i + 1) = true
        · rw [if_pos hf2] at hr
          cases hrec : hsLoop dsz sf flags src repl n (i + 2) fs0 with
          | none => rw [hrec] at hr; simp at hr
          | some r2 =>
            rw [hrec] at hr
            simp only [Option.mem_def, Option.some.injEq] at hr
            subst hr
            exact SameOutside_trans hso (ih (i + 2) _ r2 (by simp [hrec]))
        · rw [if_neg hf2] at hr
          cases hrec : hsLoop dsz sf flags src repl n (i + 2) fs0 with
          | none => rw [hrec] at hr; simp at hr
          | some r2 =>
            rw [hrec] at hr
            simp only [Option.mem_def, Option.some.injEq] at hr
            subst hr
            exact SameOutside_trans hso (ih (i + 2) _ r2 (by simp [hrec]))

theorem handle_sync_SameOutside (dsz : Path → Nat) (sf fuel : Nat) (flags : Nat → Bool)
    (fs : FS) (src repl : Path) :
    ∀ r ∈ handle_sync dsz sf fuel flags fs src repl, SameOutside repl fs r.1 := by
  intro r hr
  unfold handle_sync at hr
  by_cases h1 : pexists fs src = true
  · rw [if_pos h1] at hr
    exact hsLoop_SameOutside dsz sf flags src repl fuel 0 fs r hr
  · rw [if_neg h1] at hr
    by_cases h2 : isDir fs repl = true
    · rw [if_pos h2] at hr
      simp only [Option.mem_def, Option.some.injEq] at hr
      subst hr
      exact rmtree_SameOutside fs (leP_refl repl)
    · rw [if_neg h2] at hr
      by_cases h3 : pexists fs repl = true
      · rw [if_pos h3] at hr
        simp at hr
      · rw [if_neg h3] at hr
        simp only [Option.mem_def, Option.some.injEq] at hr
        subst hr
        exact SameOutside_refl repl fs

theorem SameOutside_src_untouched {src repl : Path} {fs fs' : FS}
    (hd : Disjoint2 src repl) (h : SameOutside repl fs fs') :
    ∀ q : Path, leP src q = true → find fs' q = find fs q := by
  intro q hq
  have hnr : leP repl q = false := by
    cases hc : leP repl q
    · rfl
    · rcases leP_total_of_common hq hc with h' | h'
      · rw [hd.1] at h'
        cases h'
      · rw [hd.2] at h'
        cases h'
  rcases h q hnr with ha | ⟨hlt, _, _⟩
  · exact ha
  · obtain ⟨r, hr, hrepl⟩ := ltP_iff.mp hlt
    have : leP src repl = true := leP_trans hq (leP_iff.mpr ⟨r, hrepl⟩)
    rw [hd.1] at this
    cases this

/-! ### Claim C8, amended part -/

/-- Claim C8 (corrected).  For `sync_folder` and `handle_sync` on disjoint
roots: every mutation happens at or below the replica root, except that a
missing strict ancestor of the replica root may be created as a directory
(this is the amendment forced by the counterexample); in particular
nothing at or below the source root is ever modified. -/
theorem C8_frame (dsz : Path → Nat) (sf fuel : Nat) (flags : Nat → Bool) (fs : FS)
    (src repl : Path) (hd : Disjoint2 src repl) :
    SameOutside repl fs (sync_folder dsz fuel fs src repl).1.1 ∧
      (∀ q : Path, leP src q = true →
        find (sync_folder dsz fuel fs src repl).1.1 q = find fs q) ∧
      (∀ r ∈ handle_sync dsz sf fuel flags fs src repl,
        SameOutside repl fs r.1 ∧
          ∀ q : Path, leP src q = true → find r.1 q = find fs q) := by
  refine ⟨sync_folder_SameOutside dsz fuel fs src repl,
    SameOutside_src_untouched hd (sync_folder_SameOutside dsz fuel fs src repl),
    fun r hr => ?_⟩
  have hso := handle_sync_SameOutside dsz sf fuel flags fs src repl r hr
  exact ⟨hso, SameOutside_src_untouched hd hso⟩

/-- Witness for the C8 frame theorem at a concrete input: a sync of `s`
into `r/x` leaves the source file `s/f` untouched. -/
theorem C8_frame_witness :
    Disjoint2 ["s"] ["r", "x"] ∧
      find (sync_folder dszC 5 fsPair ["s"] ["r", "x"]).1.1 ["s", "f"] =
        find fsPair ["s", "f"] :=
  ⟨⟨by decide, by decide⟩,
    (C8_frame dszC 5 5 (fun _ => true) fsPair ["s"] ["r", "x"] ⟨by decide, by decide⟩).2.1
      ["s", "f"] (by decide)⟩

/-! ### Claim C1 -/

/-- Claim C1 (code bug).  With the source tree `s ⊃ s/x ⊃ s/x/a` and an
absent replica root `r`, the fresh-copy branch of `sync_folder` produces
`r/x/x/a` and no `r/x/a`: the replica tree is not structurally identical
to the source.  `copy_folder` joins the replica folder with a path taken
relative to the fixed original root while simultaneously descending into
the replica, so every component below depth one is duplicated. -/
theorem C1_fresh_copy_not_mirror :
    pexists fsDeep ["r"] = false ∧ isDir fsDeep ["s"] = true ∧
      find (sync_folder dszC 9 fsDeep ["s"] ["r"]).1.1 ["r", "x", "a"] = none ∧
      find (sync_folder dszC 9 fsDeep ["s"] ["r"]).1.1 ["r", "x", "x", "a"] = some .dir := by
  decide

/-! ### Claim C3 -/

/-- Claim C3 (code bug).  Starting from the depth-2 source tree and an
absent replica, the first `sync_folder` call mis-copies (claim C1), and
the second call — with no intervening source change — performs a deletion
(`shutil.rmtree` of the stray `r/x/x`), so the second call does not
perform zero copies and zero deletions. -/
theorem C3_second_call_performs_deletions :
    ((sync_folder dszC 9 (sync_folder dszC 9 fsDeep ["s"] ["r"]).1.1
          ["s"] ["r"]).1.2.filter isDel) = [.rmEv ["r", "x", "x"]] ∧
      ((sync_folder dszC 9 (sync_folder dszC 9 fsDeep ["s"] ["r"]).1.1
          ["s"] ["r"]).1.2.filter isDel) ≠ [] := by
  decide

/-! ### Claim C2, counterexample part -/

/-- Claim C2 as stated is false: it quantifies over every replica path that
exists as a directory, including a replica root lying inside the source
tree.  With source root `s` and replica root `s/r` (an existing directory,
so the normal-case branch runs), the engine copies the replica into
itself; afterwards the relative path `r/r/f` carries a file under the
source root but nothing under the replica root, so the two trees do not
agree.  (No fuel bound can repair this: a finite replica can never contain
a copy of itself.) -/
theorem C2_claim_counterexample :
    isDir fsOver ["s"] = true ∧ find fsOver ["s", "r"] = some .dir ∧
      ¬ (∀ rel : Path, rel ≠ [] →
          find (sync_folder dszC 4 fsOver ["s"] ["s", "r"]).1.1 (["s", "r"] ++ rel) =
            find (sync_folder dszC 4 fsOver ["s"] ["s", "r"]).1.1 (["s"] ++ rel)) := by
  refine ⟨by decide, by decide, fun h => ?_⟩
  have h2 := h ["r", "r", "f"] (by decide)
  revert h2
  decide

/-! ### Claim C5, counterexample part -/

/-- Claim C5 as stated is false in one corner: when the source root does
not exist and the replica root exists as a regular file, `handle_sync`
calls `shutil.rmtree` on that file, which raises `NotADirectoryError`;
nothing catches it (`none` outcome), and the replica is not deleted. -/
theorem C5_replica_file_counterexample :
    pexists fsRFile ["s"] = false ∧ pexists fsRFile ["r"] = true ∧
      handle_sync dszC 1 1 (fun _ => true) fsRFile ["s"] ["r"] = none := by
  decide

/-! ### Claim C8, counterexample part -/

/-- Claim C8 as stated is false in one corner: with disjoint roots `s` and
`r/x` where `r` does not exist, the fresh-copy branch runs
`mkdir(parents=True)` on the replica root and thereby creates the
directory `r`, a filesystem mutation at a path that is not at or below
the replica root `r/x`. -/
theorem C8_parent_creation_counterexample :
    Disjoint2 ["s"] ["r", "x"] ∧ find fsSolo ["r"] = none ∧
      leP ["r", "x"] ["r"] = false ∧
      find (sync_folder dszC 5 fsSolo ["s"] ["r", "x"]).1.1 ["r"] = some .dir := by
  refine ⟨⟨by decide, by decide⟩, by decide, by decide, by decide⟩

/-! ### Utilities for the mirror proof: membership, ancestors, heights -/

theorem ltP_append_ne {p r : Path} (h : r ≠ []) : ltP p (p ++ r) = true :=
  ltP_iff.mpr ⟨r, h, rfl⟩

theorem Disjoint2_ext {src repl : Path} (h : Disjoint2 src repl) (a b : Path) :
    Disjoint2 (src ++ a) (repl ++ b) := by
  constructor
  · cases hc : leP (src ++ a) (repl ++ b)
    · rfl
    · exfalso
      have h1 : leP src (repl ++ b) = true := leP_trans (leP_append src a) hc
      have h2 : leP repl (repl ++ b) = true := leP_append repl b
      rcases leP_total_of_common h1 h2 with h' | h'
      · rw [h.1] at h'
        cases h'
      · rw [h.2] at h'
        cases h'
  · cases hc : leP (repl ++ b) (src ++ a)
    · rfl
    · exfalso
      have h1 : leP repl (src ++ a) = true := leP_trans (leP_append repl b) hc
      have h2 : leP src (src ++ a) = true := leP_append src a
      rcases leP_total_of_common h1 h2 with h' | h'
      · rw [h.2] at h'
        cases h'
      · rw [h.1] at h'
        cases h'

theorem find_ne_none_of_mem {fs : FS} {q : Path} (h : q ∈ fs.map Prod.fst) :
    find fs q ≠ none := by
  induction fs with
  | nil => simp at h
  | cons x rest ih =>
    obtain ⟨q', e'⟩ := x
    rw [find_cons]
    by_cases hq : q' = q
    · simp [hq]
    · rw [if_neg hq]
      refine ih ?_
      simp only [List.map_cons, List.mem_cons] at h
      rcases h with h | h
      · exact absurd h.symm hq
      · exact h

theorem mem_keys_iff {fs : FS} {q : Path} : q ∈ fs.map Prod.fst ↔ find fs q ≠ none := by
  constructor
  · exact find_ne_none_of_mem
  · intro h
    rcases he : find fs q with _ | e
    · exact absurd he h
    · exact List.mem_map.mpr ⟨(q, e), find_some_mem he, rfl⟩

theorem mem_iterdir_iff {fs : FS} {p q : Path} :
    q ∈ iterdir fs p ↔ q ≠ [] ∧ q.dropLast = p ∧ find fs q ≠ none := by
  unfold iterdir
  rw [List.mem_filter]
  simp only [Bool.and_eq_true, decide_eq_true_eq]
  rw [mem_keys_iff]
  tauto

theorem mem_rglobL_iff {fs : FS} {p q : Path} :
    q ∈ rglobL fs p ↔ ltP p q = true ∧ find fs q ≠ none := by
  unfold rglobL
  rw [List.mem_filter, mem_keys_iff]
  tauto

theorem mem_get_all_folders_iff {fs : FS} {p q : Path} :
    q ∈ get_all_folders fs p ↔ ltP p q = true ∧ isDir fs q = true := by
  unfold get_all_folders
  rw [List.mem_filter, mem_rglobL_iff]
  constructor
  · rintro ⟨⟨h1, _⟩, h3⟩
    exact ⟨h1, h3⟩
  · rintro ⟨h1, h2⟩
    exact ⟨⟨h1, by simp [isDir_iff.mp h2]⟩, h2⟩

theorem mem_get_all_files_iff {fs : FS} {p q : Path} :
    q ∈ get_all_files fs p ↔ ltP p q = true ∧ isFile fs q = true := by
  unfold get_all_files
  rw [List.mem_filter, mem_rglobL_iff]
  constructor
  · rintro ⟨⟨h1, _⟩, h3⟩
    exact ⟨h1, h3⟩
  · rintro ⟨h1, h2⟩
    obtain ⟨c, hc⟩ := isFile_iff.mp h2
    exact ⟨⟨h1, by simp [hc]⟩, h2⟩

theorem wf_find_cond {fs : FS} (hwf : wf fs) {q : Path} (h : find fs q ≠ none) :
    q ≠ [] ∧ (q.dropLast = [] ∨ find fs q.dropLast = some .dir) := by
  rcases he : find fs q with _ | e
  · exact absurd he h
  · exact hwf.2 (q, e) (find_some_mem he)

theorem wf_of_find_cond {fs : FS} (hn : (fs.map Prod.fst).Nodup)
    (h : ∀ q : Path, find fs q ≠ none →
      q ≠ [] ∧ (q.dropLast = [] ∨ find fs q.dropLast = some .dir)) : wf fs := by
  refine ⟨hn, fun pe hpe => ?_⟩
  exact h pe.1 (find_ne_none_of_mem (List.mem_map.mpr ⟨pe, hpe, rfl⟩))

theorem dropLast_append_ne {p r : Path} (h : r ≠ []) :
    (p ++ r).dropLast = p ++ r.dropLast := by
  rcases r.eq_nil_or_concat with h' | ⟨s, a, rfl⟩
  · exact absurd h' h
  · rw [List.concat_eq_append, ← List.append_assoc, List.dropLast_concat,
      List.dropLast_concat]

theorem leP_dropLast_of_lt {p q : Path} (h : ltP p q = true) :
    leP p q.dropLast = true := by
  obtain ⟨r, hne, rfl⟩ := ltP_iff.mp h
  rw [dropLast_append_ne hne]
  exact leP_append p _

theorem length_lt_of_ltP {p q : Path} (h : ltP p q = true) : p.length < q.length := by
  obtain ⟨r, hne, rfl⟩ := ltP_iff.mp h
  have : 0 < r.length := List.length_pos.mpr hne
  rw [List.length_append]
  omega

theorem wf_ancestors_aux {fs : FS} (hwf : wf fs) :
    ∀ n : Nat, ∀ q : Path, q.length ≤ n → find fs q ≠ none →
      ∀ p : Path, ltP p q = true → p ≠ [] → find fs p = some .dir := by
  intro n
  induction n with
  | zero =>
    intro q hq hfind p hlt hne
    have hq0 : q = [] := List.length_eq_zero.mp (Nat.le_zero.mp hq)
    subst hq0
    have := length_lt_of_ltP hlt
    simp at this
  | succ n ih =>
    intro q hq hfind p hlt hne
    obtain ⟨hqne, hpar⟩ := wf_find_cond hwf hfind
    have hple : leP p q.dropLast = true := leP_dropLast_of_lt hlt
    rcases hpar with hroot | hdir
    · exfalso
      rw [hroot] at hple
      cases p with
      | nil => exact hne rfl
      | cons a as => simp [leP] at hple
    · by_cases hpq : p = q.dropLast
      · rw [hpq]
        exact hdir
      · have hlt2 : ltP p q.dropLast = true := by
          rcases leP_iff.mp hple with ⟨r, hr⟩
          refine ltP_iff.mpr ⟨r, ?_, hr⟩
          rintro rfl
          simp at hr
          exact hpq hr.symm
        have hlen : q.dropLast.length ≤ n := by
          have h1 : 0 < q.length := List.length_pos.mpr hqne
          rw [List.length_dropLast]
          omega
        exact ih q.dropLast hlen (by simp [hdir]) p hlt2 hne

theorem wf_ancestors {fs : FS} (hwf : wf fs) :
    ∀ q : Path, find fs q ≠ none → ∀ p : Path, ltP p q = true → p ≠ [] →
      find fs p = some .dir :=
  fun q hfind p hlt hne => wf_ancestors_aux hwf q.length q le_rfl hfind p hlt hne

theorem under_none {fs : FS} (hwf : wf fs) {p : Path} (h : find fs p = none)
    (hp : p ≠ []) : ∀ r : Path, r ≠ [] → find fs (p ++ r) = none := by
  intro r hr
  by_contra hc
  have := wf_ancestors hwf (p ++ r) hc p (ltP_append_ne hr) hp
  rw [h] at this
  cases this

theorem under_file {fs : FS} (hwf : wf fs) {p : Path} {b : List Nat}
    (h : find fs p = some (.file b)) : ∀ r : Path, r ≠ [] → find fs (p ++ r) = none := by
  intro r hr
  by_contra hc
  have hp : p ≠ [] := (wf_find_cond hwf (by simp [h])).1
  have := wf_ancestors hwf (p ++ r) hc p (ltP_append_ne hr) hp
  rw [h] at this
  cases this

theorem HeightLe_mono {fs : FS} {src : Path} {H H' : Nat} (h : HeightLe fs src H)
    (hle : H ≤ H') : HeightLe fs src H' := by
  intro q h1 h2
  have := h q h1 h2
  omega

theorem HeightLe_sub {fs : FS} {src : Path} {H : Nat} (h : HeightLe fs src H)
    (α : Path) : HeightLe fs (src ++ α) (H - α.length) := by
  intro q h1 h2
  have h3 : leP src q = true := leP_trans (leP_append src α) h1
  have h4 := h q h3 h2
  have h5 : src.length + α.length ≤ q.length := by
    obtain ⟨r, rfl⟩ := leP_iff.mp h1
    simp
  rw [List.length_append]
  omega

theorem HeightLe_stable {fs fs' : FS} {src : Path} {H : Nat} (h : HeightLe fs src H)
    (hsame : ∀ q : Path, leP src q = true → find fs' q = find fs q) :
    HeightLe fs' src H := by
  intro q h1 h2
  exact h q h1 (by rw [← hsame q h1]; exact h2)

theorem HeightLe_of_entries {fs : FS} {src : Path} {H : Nat}
    (h : ∀ pe ∈ fs, leP src pe.1 = true → pe.1.length ≤ src.length + H) :
    HeightLe fs src H := by
  intro q h1 h2
  rcases he : find fs q with _ | e
  · exact absurd he h2
  · exact h (q, e) (find_some_mem he) h1

/-! ### Well-formedness preservation -/

theorem keys_nodup_filter {fs : FS} (h : (fs.map Prod.fst).Nodup) (P : Path × Entry → Bool) :
    ((fs.filter P).map Prod.fst).Nodup := by
  have hsub : ((fs.filter P).map Prod.fst).Sublist (fs.map Prod.fst) :=
    (List.filter_sublist fs).map Prod.fst
  exact hsub.nodup h

theorem keys_nodup_setE {fs : FS} (h : (fs.map Prod.fst).Nodup) (p : Path) (e : Entry) :
    ((setE fs p e).map Prod.fst).Nodup := by
  unfold setE
  rw [List.map_append]
  refine List.Nodup.append (keys_nodup_filter h _) (by simp) ?_
  intro q hq hq2
  simp only [List.map_cons, List.map_nil, List.mem_singleton] at hq2
  subst hq2
  obtain ⟨pe, hpe, rfl⟩ := List.mem_map.mp hq
  have := (List.mem_filter.mp hpe).2
  simp at this

theorem dropLast_ne_self {p : Path} (h : p ≠ []) : p.dropLast ≠ p := by
  intro hc
  have h1 : 0 < p.length := List.length_pos.mpr h
  have h2 := congrArg List.length hc
  rw [List.length_dropLast] at h2
  omega

theorem wf_setE {fs : FS} (hwf : wf fs) {p : Path} (e : Entry) (hne : p ≠ [])
    (hpar : p.dropLast = [] ∨ find fs p.dropLast = some .dir)
    (hnc : ∀ q : Path, ltP p q = true → find fs q = none) : wf (setE fs p e) := by
  refine wf_of_find_cond (keys_nodup_setE hwf.1 p e) ?_
  intro q hq
  rw [find_setE] at hq
  by_cases hqp : q = p
  · subst hqp
    refine ⟨hne, ?_⟩
    rw [find_setE, if_neg (dropLast_ne_self hne)]
    exact hpar
  · rw [if_neg hqp] at hq
    obtain ⟨h1, h2⟩ := wf_find_cond hwf hq
    refine ⟨h1, ?_⟩
    rw [find_setE]
    by_cases hdp : q.dropLast = p
    · exfalso
      have hq2 : q = p ++ [q.getLast h1] := by
        conv_lhs => rw [← List.dropLast_append_getLast h1]
        rw [hdp]
      have : find fs q = none := by
        refine hnc q ?_
        rw [hq2]
        exact ltP_append_ne (by simp)
      exact hq this
    · rw [if_neg hdp]
      exact h2

theorem wf_rmtree {fs : FS} (hwf : wf fs) (p : Path) : wf (rmtree fs p) := by
  refine wf_of_find_cond (keys_nodup_filter hwf.1 _) ?_
  intro q hq
  rw [find_rmtree] at hq
  by_cases hle : leP p q = true
  · rw [if_pos hle] at hq
    exact absurd rfl hq
  · rw [if_neg hle] at hq
    obtain ⟨h1, h2⟩ := wf_find_cond hwf hq
    refine ⟨h1, ?_⟩
    rw [find_rmtree]
    rw [if_neg]
    · exact h2
    · intro hc
      exact hle (leP_trans hc (leP_dropLast q))

theorem wf_unlinkE {fs : FS} (hwf : wf fs) {p : Path}
    (hnc : ∀ q : Path, ltP p q = true → find fs q = none) : wf (unlinkE fs p) := by
  refine wf_of_find_cond (keys_nodup_filter hwf.1 _) ?_
  intro q hq
  rw [find_unlinkE] at hq
  by_cases hqp : q = p
  · rw [if_pos hqp] at hq
    exact absurd rfl hq
  · rw [if_neg hqp] at hq
    obtain ⟨h1, h2⟩ := wf_find_cond hwf hq
    refine ⟨h1, ?_⟩
    rw [find_unlinkE]
    by_cases hdp : q.dropLast = p
    · exfalso
      have hq2 : q = p ++ [q.getLast h1] := by
        conv_lhs => rw [← List.dropLast_append_getLast h1]
        rw [hdp]
      refine hq (hnc q ?_)
      rw [hq2]
      exact ltP_append_ne (by simp)
    · rw [if_neg hdp]
      exact h2

theorem mkdirP_some_not_file {fs fs' : FS} {p : Path} (h : mkdirP fs p = some fs') :
    ∀ q ∈ pres p, isFile fs q = false := by
  unfold mkdirP at h
  split at h
  · cases h
  · rename_i hany
    intro q hq
    by_cases hf : isFile fs q = true
    · exact absurd (List.any_eq_true.mpr ⟨q, hq, hf⟩) hany
    · simpa using hf

theorem keys_nodup_mkfold (l : List Path) (fs : FS) (h : (fs.map Prod.fst).Nodup) :
    (((l.foldl (fun acc r => if pexists acc r then acc else setE acc r .dir) fs)).map
      Prod.fst).Nodup := by
  induction l generalizing fs with
  | nil => exact h
  | cons r rest ih =>
    rw [List.foldl_cons]
    by_cases hp : pexists fs r = true
    · rw [if_pos hp]
      exact ih fs h
    · rw [if_neg hp]
      exact ih _ (keys_nodup_setE h r .dir)

theorem mem_pres_dropLast {p q : Path} (hq : q ∈ pres p) (hne : q.dropLast ≠ []) :
    q.dropLast ∈ pres p := by
  obtain ⟨h1, h2⟩ := mem_pres.mp hq
  exact mem_pres.mpr ⟨hne, leP_trans (leP_dropLast q) h2⟩

theorem wf_mkdirP {fs fs' : FS} (hwf : wf fs) {p : Path} (h : mkdirP fs p = some fs') :
    wf fs' := by
  have hchar := find_mkdirP h
  have hnf := mkdirP_some_not_file h
  have hkeys : (fs'.map Prod.fst).Nodup := by
    unfold mkdirP at h
    split at h
    · cases h
    · obtain rfl := Option.some.inj h
      exact keys_nodup_mkfold _ fs hwf.1
  refine wf_of_find_cond hkeys ?_
  intro q hq
  rw [hchar q] at hq
  by_cases hc : q ∈ pres p ∧ find fs q = none
  · obtain ⟨hmem, hnone⟩ := hc
    obtain ⟨hne, hle⟩ := mem_pres.mp hmem
    refine ⟨hne, ?_⟩
    by_cases hdl : q.dropLast = []
    · exact Or.inl hdl
    · right
      have hmem2 : q.dropLast ∈ pres p := mem_pres_dropLast hmem hdl
      rw [hchar q.dropLast]
      by_cases hc2 : q.dropLast ∈ pres p ∧ find fs q.dropLast = none
      · rw [if_pos hc2]
      · rw [if_neg hc2]
        rcases hpd : find fs q.dropLast with _ | e
        · exact absurd ⟨hmem2, hpd⟩ hc2
        · rcases e with b | _
          · exfalso
            have hfalse := hnf q.dropLast hmem2
            rw [isFile_iff.mpr ⟨b, hpd⟩] at hfalse
            cases hfalse
          · rfl
  · rw [if_neg hc] at hq
    obtain ⟨h1, h2⟩ := wf_find_cond hwf hq
    refine ⟨h1, ?_⟩
    rcases h2 with h2 | h2
    · exact Or.inl h2
    · right
      rw [hchar q.dropLast]
      rw [if_neg (by simp [h2])]
      exact h2

theorem wf_writeF {fs : FS} (hwf : wf fs) {p : Path} (c : List Nat)
    (hcw : canWrite fs p = true) : wf (writeF fs p c) := by
  unfold canWrite at hcw
  simp only [Bool.and_eq_true, Bool.or_eq_true, decide_eq_true_eq, Bool.not_eq_true] at hcw
  obtain ⟨⟨hne, hpar⟩, hnd⟩ := hcw
  refine wf_setE hwf _ hne ?_ ?_
  · rcases hpar with h | h
    · exact Or.inl h
    · exact Or.inr (isDir_iff.mp h)
  · intro q hlt
    obtain ⟨r, hr, rfl⟩ := ltP_iff.mp hlt
    rcases hp : find fs p with _ | e
    · exact under_none hwf hp hne r hr
    · rcases e with b | _
      · exact under_file hwf hp r hr
      · exfalso
        rw [isDir_iff.mpr hp] at hnd
        cases hnd

theorem wf_copy_file {fs : FS} (hwf : wf fs) (a dst : Path) :
    wf (copy_file fs a dst).1 := by
  unfold copy_file
  rcases h1 : readF fs a with _ | c
  · exact hwf
  · by_cases hcw : canWrite fs dst = true
    · simp only [hcw, if_pos]
      exact wf_writeF hwf c hcw
    · simp only [Bool.not_eq_true] at hcw
      simp only [hcw, Bool.false_eq_true, if_false]
      exact hwf

theorem wf_copy2 {fs fs2 : FS} (hwf : wf fs) {a dst : Path} {ev : SEv}
    (h : copy2 fs a dst = some (fs2, ev)) : wf fs2 := by
  unfold copy2 at h
  rcases h1 : readF fs a with _ | c
  · rw [h1] at h
    cases h
  · rw [h1] at h
    simp only at h
    split at h
    · split at h
      · rename_i hcw
        simp only [Option.some.injEq, Prod.mk.injEq] at h
        obtain ⟨h2, _⟩ := h
        subst h2
        exact wf_writeF hwf c hcw
      · cases h
    · split at h
      · rename_i hcw
        simp only [Option.some.injEq, Prod.mk.injEq] at h
        obtain ⟨h2, _⟩ := h
        subst h2
        exact wf_writeF hwf c hcw
      · cases h

theorem wf_prune_dirs (l : List Path) (preserve : List Path) :
    ∀ acc : FS × List SEv, wf acc.1 →
      wf ((l.foldl (fun acc q =>
        if isDir acc.1 q && !(preserve.contains q) then
          (rmtree acc.1 q, acc.2 ++ [.rmEv q]) else acc) acc)).1 := by
  induction l with
  | nil => intro acc h; exact h
  | cons x rest ih =>
    intro acc h
    rw [List.foldl_cons]
    by_cases hc : (isDir acc.1 x && !(preserve.contains x)) = true
    · rw [if_pos hc]
      exact ih _ (wf_rmtree h x)
    · rw [if_neg hc]
      exact ih _ h

theorem wf_prune_files (l : List Path) (preserve : List Path) :
    ∀ acc : FS × List SEv, wf acc.1 →
      wf ((l.foldl (fun acc q =>
        if isFile acc.1 q && !(preserve.contains q) then
          (unlinkE acc.1 q, acc.2 ++ [.unlinkEv q]) else acc) acc)).1 := by
  induction l with
  | nil => intro acc h; exact h
  | cons x rest ih =>
    intro acc h
    rw [List.foldl_cons]
    by_cases hc : (isFile acc.1 x && !(preserve.contains x)) = true
    · rw [if_pos hc]
      refine ih _ (wf_unlinkE h ?_)
      intro q hlt
      obtain ⟨hf, _⟩ := (Bool.and_eq_true _ _).mp hc
      obtain ⟨b, hb⟩ := isFile_iff.mp hf
      obtain ⟨r, hr, rfl⟩ := ltP_iff.mp hlt
      exact under_file h hb r hr
    · rw [if_neg hc]
      exact ih _ h

theorem wf_remove_redundant_folders {fs : FS} (hwf : wf fs) (dir : Path)
    (preserve : List Path) : wf (remove_redundant_folders fs dir preserve).1 := by
  unfold remove_redundant_folders
  exact wf_prune_dirs (iterdir fs dir) preserve (fs, []) hwf

theorem wf_remove_redundant_files {fs : FS} (hwf : wf fs) (dir : Path)
    (preserve : List Path) : wf (remove_redundant_files fs dir preserve).1 := by
  unfold remove_redundant_files
  exact wf_prune_files (iterdir fs dir) preserve (fs, []) hwf

theorem wf_sfFiles {dsz : Path → Nat} {src repl : Path} (l : List Path) :
    ∀ fs : FS, wf fs → wf (sfFiles dsz src repl l fs).1.1 := by
  induction l with
  | nil => intro fs h; exact h
  | cons f rest ih =>
    intro fs h
    rcases hc : compare_files dsz fs f (build_path repl (relTo src f)) with _ | b
    · rw [sfFiles_cons_none hc]
      exact h
    · cases b with
      | true =>
        rw [sfFiles_cons_skip hc]
        exact ih fs h
      | false =>
        rw [sfFiles_cons_copy hc]
        exact ih _ (wf_copy_file h f _)

theorem wf_cfItems {root repl : Path} {rec : FS → Path → Path → FS × List SEv}
    (hrec : ∀ a b c, wf a → wf (rec a b c).1) (l : List Path) :
    ∀ fs : FS, wf fs → wf (cfItems root repl rec l fs).1 := by
  induction l with
  | nil => intro fs h; exact h
  | cons item rest ih =>
    intro fs h
    by_cases hd : isDir fs item = true
    · rw [cfItems_cons_dir hd]
      exact ih _ (hrec fs item _ h)
    · rcases hm : mkdirP fs (build_path repl (relTo root item)).dropLast with _ | fs1
      · rw [cfItems_cons_mkfail (by simpa using hd) hm]
        exact h
      · have h1 : wf fs1 := wf_mkdirP h hm
        rcases hc : copy2 fs1 item (build_path repl (relTo root item)) with _ | r2
        · rw [cfItems_cons_copyfail (by simpa using hd) hm hc]
          exact h1
        · obtain ⟨fs2, ev⟩ := r2
          rw [cfItems_cons_copyok (by simpa using hd) hm hc]
          exact ih _ (wf_copy2 h1 hc)

theorem wf_copy_folder (fuel : Nat) :
    ∀ (fs : FS) (src repl root : Path), wf fs → wf (copy_folder fuel fs src repl root).1 := by
  induction fuel with
  | zero => intro fs src repl root h; exact h
  | succ n ih =>
    intro fs src repl root h
    rcases hm : mkdirP fs repl with _ | fs0
    · rw [copy_folder_succ_mkfail n hm]
      exact h
    · rw [copy_folder_succ_ok n hm]
      exact wf_cfItems (fun a b c => ih a b c root) _ fs0 (wf_mkdirP h hm)

theorem wf_sfFolders {src repl : Path} {rec : FS → Path → Path → (FS × List SEv) × Bool}
    (hrec : ∀ a b c, wf a → wf (rec a b c).1.1) (l : List Path) :
    ∀ fs : FS, wf fs → wf (sfFolders src repl rec l fs).1.1 := by
  induction l with
  | nil => intro fs h; exact h
  | cons d rest ih =>
    intro fs h
    rw [sfFolders_cons]
    split
    · exact ih _ (hrec fs d _ h)
    · exact hrec fs d _ h

theorem wf_sync_folder (dsz : Path → Nat) (fuel : Nat) :
    ∀ (fs : FS) (src repl : Path), wf fs → wf (sync_folder dsz fuel fs src repl).1.1 := by
  induction fuel with
  | zero => intro fs src repl h; exact h
  | succ n ih =>
    intro fs src repl h
    by_cases h1 : isDir fs src = true
    · by_cases h2 : pexists fs repl = true
      · by_cases h3 : isFile fs repl = true
        · rw [sync_folder_succ_conflict n h1 h2 h3]
          exact h
        · rw [sync_folder_succ_normal n h1 h2 (by simpa using h3)]
          split
          · refine wf_sfFolders (fun a b c => ih a b c) _ _ ?_
            refine wf_sfFiles _ _ ?_
            refine wf_remove_redundant_files ?_ _ _
            exact wf_remove_redundant_folders h _ _
          · refine wf_sfFiles _ _ ?_
            refine wf_remove_redundant_files ?_ _ _
            exact wf_remove_redundant_folders h _ _
      · rw [sync_folder_succ_fresh n h1 (by simpa using h2)]
        exact wf_copy_folder n fs src repl src h
    · rw [sync_folder_src_not_dir dsz (n + 1) fs src repl (by simpa using h1)]
      exact h

/-! ### Directory persistence inside `copy_folder`, chain creation -/

theorem find_writeF_dir_persist {fs : FS} {p : Path} {c : List Nat} {q : Path}
    (hcw : canWrite fs p = true) (h : find fs q = some .dir) :
    find (writeF fs p c) q = some .dir := by
  unfold writeF
  rw [find_setE]
  rw [if_neg]
  · exact h
  · rintro rfl
    unfold canWrite at hcw
    simp only [Bool.and_eq_true, Bool.not_eq_true] at hcw
    rw [isDir_iff.mpr h] at hcw
    exact absurd hcw.2 (by simp)

theorem mkdirP_dir_persist {fs fs' : FS} {p : Path} (h : mkdirP fs p = some fs')
    {q : Path} (hq : find fs q = some .dir) : find fs' q = some .dir := by
  rw [find_mkdirP h q, if_neg]
  · exact hq
  · rintro ⟨_, hnone⟩
    rw [hq] at hnone
    cases hnone

theorem copy2_dir_persist {fs fs2 : FS} {a dst : Path} {ev : SEv}
    (h : copy2 fs a dst = some (fs2, ev)) {q : Path} (hq : find fs q = some .dir) :
    find fs2 q = some .dir := by
  unfold copy2 at h
  rcases h1 : readF fs a with _ | c
  · rw [h1] at h
    cases h
  · rw [h1] at h
    simp only at h
    split at h
    · split at h
      · rename_i hcw
        simp only [Option.some.injEq, Prod.mk.injEq] at h
        obtain ⟨h2, _⟩ := h
        subst h2
        exact find_writeF_dir_persist hcw hq
      · cases h
    · split at h
      · rename_i hcw
        simp only [Option.some.injEq, Prod.mk.injEq] at h
        obtain ⟨h2, _⟩ := h
        subst h2
        exact find_writeF_dir_persist hcw hq
      · cases h

theorem cfItems_dir_persist {root repl : Path} {rec : FS → Path → Path → FS × List SEv}
    (hrec : ∀ a b c q, find a q = some .dir → find (rec a b c).1 q = some .dir)
    (l : List Path) :
    ∀ fs : FS, ∀ q : Path, find fs q = some .dir →
      find (cfItems root repl rec l fs).1 q = some .dir := by
  induction l with
  | nil => intro fs q h; exact h
  | cons item rest ih =>
    intro fs q h
    by_cases hd : isDir fs item = true
    · rw [cfItems_cons_dir hd]
      exact ih _ q (hrec fs item _ q h)
    · rcases hm : mkdirP fs (build_path repl (relTo root item)).dropLast with _ | fs1
      · rw [cfItems_cons_mkfail (by simpa using hd) hm]
        exact h
      · rcases hc : copy2 fs1 item (build_path repl (relTo root item)) with _ | r2
        · rw [cfItems_cons_copyfail (by simpa using hd) hm hc]
          exact mkdirP_dir_persist hm h
        · obtain ⟨fs2, ev⟩ := r2
          rw [cfItems_cons_copyok (by simpa using hd) hm hc]
          exact ih _ q (copy2_dir_persist hc (mkdirP_dir_persist hm h))

theorem copy_folder_dir_persist (fuel : Nat) :
    ∀ (fs : FS) (src repl root : Path) (q : Path), find fs q = some .dir →
      find (copy_folder fuel fs src repl root).1 q = some .dir := by
  induction fuel with
  | zero => intro fs src repl root q h; exact h
  | succ n ih =>
    intro fs src repl root q h
    rcases hm : mkdirP fs repl with _ | fs0
    · rw [copy_folder_succ_mkfail n hm]
      exact h
    · rw [copy_folder_succ_ok n hm]
      exact cfItems_dir_persist (fun a b c q' h' => ih a b c root q' h') _ fs0 q
        (mkdirP_dir_persist hm h)

theorem mkdirP_pres_dirs {fs fs' : FS} {p : Path} (h : mkdirP fs p = some fs') :
    ∀ q ∈ pres p, find fs' q = some .dir := by
  intro q hq
  rw [find_mkdirP h q]
  by_cases hc : q ∈ pres p ∧ find fs q = none
  · rw [if_pos hc]
  · rw [if_neg hc]
    rcases he : find fs q with _ | e
    · exact absurd ⟨hq, he⟩ hc
    · rcases e with b | _
      · exfalso
        have := mkdirP_some_not_file h q hq
        rw [isFile_iff.mpr ⟨b, he⟩] at this
        cases this
      · rfl

theorem copy_folder_chain {fs fs0 : FS} {src repl root : Path} (n : Nat)
    (hm : mkdirP fs repl = some fs0) :
    ∀ q ∈ pres repl, find (copy_folder (n + 1) fs src repl root).1 q = some .dir := by
  intro q hq
  rw [copy_folder_succ_ok n hm]
  exact cfItems_dir_persist (fun a b c q' h' => copy_folder_dir_persist n a b c root q' h')
    _ fs0 q (mkdirP_pres_dirs hm q hq)

theorem mkdirP_of_pres_dirs {fs : FS} {p : Path}
    (h : ∀ q ∈ pres p, find fs q = some .dir) :
    ∃ fs1 : FS, mkdirP fs p = some fs1 ∧ ∀ q : Path, find fs1 q = find fs q := by
  have hnb : ¬ (pres p).any (fun q => isFile fs q) = true := by
    rw [List.any_eq_true]
    rintro ⟨q, hq, hf⟩
    obtain ⟨b, hb⟩ := isFile_iff.mp hf
    rw [h q hq] at hb
    cases hb
  refine ⟨_, by unfold mkdirP; rw [if_neg hnb], ?_⟩
  intro q
  have hchar : mkdirP fs p = some ((pres p).foldl
      (fun acc q => if pexists acc q then acc else setE acc q .dir) fs) := by
    unfold mkdirP
    rw [if_neg hnb]
  rw [find_mkdirP hchar q]
  rw [if_neg]
  rintro ⟨hmem, hnone⟩
  rw [h q hmem] at hnone
  cases hnone

theorem SameOutside_far {repl : Path} {fs fs' : FS} (h : SameOutside repl fs fs')
    {q : Path} (h1 : leP repl q = false) (h2 : ltP q repl = false) :
    find fs' q = find fs q := by
  rcases h q h1 with ha | ⟨hlt, _, _⟩
  · exact ha
  · rw [h2] at hlt
    cases hlt

/-! ### Fixed-point (stability) lemmas: a mirrored tree is left untouched -/

theorem foldl_fix {α β : Type} (f : β → α → β) (acc0 : β) :
    ∀ l : List α, (∀ a ∈ l, f acc0 a = acc0) → l.foldl f acc0 = acc0 := by
  intro l
  induction l with
  | nil => intro _; rfl
  | cons x rest ih =>
    intro h
    rw [List.foldl_cons, h x (by simp)]
    exact ih (fun a ha => h a (by simp [ha]))

theorem MirrorAt_sub {fs : FS} {src repl rel : Path} (h : MirrorAt fs src repl)
    (hrel : rel ≠ []) (hd : find fs (src ++ rel) = some .dir) :
    MirrorAt fs (src ++ rel) (repl ++ rel) := by
  refine ⟨(h.2 rel hrel).trans hd, ?_⟩
  intro rel2 hrel2
  have := h.2 (rel ++ rel2) (by simp [hrel])
  simpa [List.append_assoc] using this

theorem contains_of_mem {l : List Path} {q : Path} (h : q ∈ l) : l.contains q = true := by
  exact List.elem_eq_true_of_mem h

theorem sync_folder_stable (dsz : Path → Nat) :
    ∀ (fuel : Nat) (fs : FS) (src repl : Path), wf fs →
    Disjoint2 src repl → isDir fs src = true → MirrorAt fs src repl →
    sync_folder dsz fuel fs src repl = ((fs, []), true) := by
  intro fuel
  induction fuel with
  | zero => intro fs src repl _ _ _ _; rfl
  | succ n ih =>
    intro fs src repl hwf hdisj hsrc hmir
    have hrepl : find fs repl = some .dir := hmir.1
    have hp : pexists fs repl = true := by simp [pexists, hrepl]
    have hnf : isFile fs repl = false := by simp [isFile, hrepl]
    rw [sync_folder_succ_normal n hsrc hp hnf]
    -- the two prunes do nothing
    have hr1 : remove_redundant_folders fs repl
        ((get_all_folders fs src).map (fun d => build_path repl (relTo src d))) = (fs, []) := by
      unfold remove_redundant_folders
      refine foldl_fix _ (fs, []) _ ?_
      intro q hq
      obtain ⟨hne, hdrop, hfind⟩ := mem_iterdir_iff.mp hq
      have hq2 : q = repl ++ [q.getLast hne] := by
        conv_lhs => rw [← List.dropLast_append_getLast hne]
        rw [hdrop]
      rcases he : find fs q with _ | e
      · exact absurd he hfind
      · rcases e with b | _
        · simp [isDir, he]
        · -- a directory child of the replica is the image of a source
          -- directory child, hence preserved
          have hsrcdir : find fs (src ++ [q.getLast hne]) = some .dir := by
            have := hmir.2 [q.getLast hne] (by simp)
            rw [← this, ← hq2, he]
          have hmem : (src ++ [q.getLast hne]) ∈ get_all_folders fs src :=
            mem_get_all_folders_iff.mpr ⟨ltP_append_ne (by simp), isDir_iff.mpr hsrcdir⟩
          have hmem2 : q ∈ (get_all_folders fs src).map
              (fun d => build_path repl (relTo src d)) := by
            refine List.mem_map.mpr ⟨src ++ [q.getLast hne], hmem, ?_⟩
            rw [build_path, relTo_append, ← hq2]
          simp only [List.mem_map] at hmem2
          simp [contains_of_mem (List.mem_map.mpr hmem2)]
          exact fun _ => hmem2
    rw [hr1]
    have hr2 : remove_redundant_files fs repl
        ((get_all_files fs src).map (fun f => build_path repl (relTo src f))) = (fs, []) := by
      unfold remove_redundant_files
      refine foldl_fix _ (fs, []) _ ?_
      intro q hq
      obtain ⟨hne, hdrop, hfind⟩ := mem_iterdir_iff.mp hq
      have hq2 : q = repl ++ [q.getLast hne] := by
        conv_lhs => rw [← List.dropLast_append_getLast hne]
        rw [hdrop]
      rcases he : find fs q with _ | e
      · exact absurd he hfind
      · rcases e with b | _
        · have hsrcfile : find fs (src ++ [q.getLast hne]) = some (.file b) := by
            have := hmir.2 [q.getLast hne] (by simp)
            rw [← this, ← hq2, he]
          have hmem : (src ++ [q.getLast hne]) ∈ get_all_files fs src :=
            mem_get_all_files_iff.mpr ⟨ltP_append_ne (by simp),
              isFile_iff.mpr ⟨b, hsrcfile⟩⟩
          have hmem2 : q ∈ (get_all_files fs src).map
              (fun f => build_path repl (relTo src f)) := by
            refine List.mem_map.mpr ⟨src ++ [q.getLast hne], hmem, ?_⟩
            rw [build_path, relTo_append, ← hq2]
          simp only [List.mem_map] at hmem2
          simp [contains_of_mem (List.mem_map.mpr hmem2)]
          exact fun _ => hmem2
        · simp [isFile, he]
    rw [hr2]
    -- the compare-and-copy loop does nothing
    have hr3 : sfFiles dsz src repl (get_all_files fs src) fs = ((fs, []), true) := by
      have hall : ∀ f ∈ get_all_files fs src,
          compare_files dsz fs f (build_path repl (relTo src f)) = some true := by
        intro f hf
        obtain ⟨hlt, hfile⟩ := mem_get_all_files_iff.mp hf
        obtain ⟨b, hb⟩ := isFile_iff.mp hfile
        obtain ⟨rel, hrelne, rfl⟩ := ltP_iff.mp hlt
        have hrf : find fs (build_path repl (relTo src (src ++ rel))) = some (.file b) := by
          rw [build_path, relTo_append]
          rw [hmir.2 rel hrelne]
          exact hb
        rw [@compare_files_files dsz fs _ _ b b hb hrf]
        simp [cmpChunks_iff]
      clear hr1 hr2
      generalize hl : get_all_files fs src = l at hall
      clear hl
      induction l with
      | nil => rfl
      | cons f rest ihl =>
        rw [sfFiles_cons_skip (hall f (by simp))]
        exact ihl (fun f' hf' => hall f' (by simp [hf']))
    rw [hr3]
    -- the recursive loop does nothing
    have hr4 : sfFolders src repl (fun a b c => sync_folder dsz n a b c)
        (get_all_folders fs src) fs = ((fs, []), true) := by
      have hall : ∀ d ∈ get_all_folders fs src,
          sync_folder dsz n fs d (build_path repl (relTo src d)) = ((fs, []), true) := by
        intro d hd
        obtain ⟨hlt, hdir⟩ := mem_get_all_folders_iff.mp hd
        obtain ⟨rel, hrelne, rfl⟩ := ltP_iff.mp hlt
        rw [build_path, relTo_append]
        refine ih fs (src ++ rel) (repl ++ rel) hwf (Disjoint2_ext hdisj rel rel) hdir ?_
        exact MirrorAt_sub hmir hrelne (isDir_iff.mp hdir)
      generalize hl : get_all_folders fs src = l at hall
      clear hl
      induction l with
      | nil => rfl
      | cons d rest ihl =>
        rw [sfFolders_cons, hall d (by simp)]
        have hih := ihl (fun d' hd' => hall d' (by simp [hd']))
        simp [hih]
    rw [hr4]
    rfl

/-! ### Path order helpers for the mirror-invariant development -/

theorem leP_eq_of_length {p q : Path} (h : leP p q = true) (hlen : q.length ≤ p.length) :
    p = q := by
  obtain ⟨r, rfl⟩ := leP_iff.mp h
  have hr : r = [] := by
    rw [List.length_append] at hlen
    exact List.eq_nil_of_length_eq_zero (by omega)
  simp [hr]

theorem ltP_of_leP_ne {p q : Path} (h : leP p q = true) (hne : p ≠ q) :
    ltP p q = true := by
  obtain ⟨r, rfl⟩ := leP_iff.mp h
  refine ltP_append_ne ?_
  rintro rfl
  simp at hne

theorem leP_snoc {q p : Path} {x : Name} (h : leP q (p ++ [x]) = true) :
    leP q p = true ∨ q = p ++ [x] := by
  obtain ⟨r, hr⟩ := leP_iff.mp h
  rcases r.eq_nil_or_concat with rfl | ⟨s, a, rfl⟩
  · right
    simpa using hr.symm
  · left
    refine leP_iff.mpr ⟨s, ?_⟩
    have := congrArg List.dropLast hr
    rw [List.concat_eq_append, ← List.append_assoc, List.dropLast_concat,
      List.dropLast_concat] at this
    exact this

theorem leP_snoc_ne {p : Path} {a b : Name} (h : a ≠ b) :
    leP (p ++ [a]) (p ++ [b]) = false := by
  cases hc : leP (p ++ [a]) (p ++ [b])
  · rfl
  · exfalso
    obtain ⟨r, hr⟩ := leP_iff.mp hc
    rw [List.append_assoc] at hr
    have := List.append_cancel_left hr
    simp only [List.cons_append, List.nil_append, List.cons.injEq] at this
    exact h this.1.symm

theorem leP_snoc_cons_ne {p : Path} {a b : Name} {tl : Path} (h : a ≠ b) :
    leP (p ++ [a]) (p ++ b :: tl) = false := by
  cases hc : leP (p ++ [a]) (p ++ b :: tl)
  · rfl
  · exfalso
    obtain ⟨r, hr⟩ := leP_iff.mp hc
    rw [List.append_assoc] at hr
    have := List.append_cancel_left hr
    simp only [List.cons_append, List.nil_append, List.cons.injEq] at this
    exact h this.1.symm

theorem length_of_child {c repl : Path} (hne : c ≠ []) (hd : c.dropLast = repl) :
    c.length = repl.length + 1 := by
  have h1 : c.dropLast.length = c.length - 1 := List.length_dropLast c
  have h2 : 0 < c.length := List.length_pos.mpr hne
  rw [hd] at h1
  omega

theorem child_eq_of_common {repl c c' q : Path}
    (hc : c ≠ []) (hcd : c.dropLast = repl) (hc' : c' ≠ []) (hcd' : c'.dropLast = repl)
    (h1 : leP c q = true) (h2 : leP c' q = true) : c = c' := by
  have hl : c.length = c'.length := by
    rw [length_of_child hc hcd, length_of_child hc' hcd']
  rcases leP_total_of_common h1 h2 with h | h
  · exact leP_eq_of_length h (by omega)
  · exact (leP_eq_of_length h (by omega)).symm

theorem child_eq_snoc {c repl : Path} (hne : c ≠ []) (hd : c.dropLast = repl) :
    c = repl ++ [c.getLast hne] := by
  conv_lhs => rw [← List.dropLast_append_getLast hne]
  rw [hd]

theorem mem_of_contains {l : List Path} {q : Path} (h : l.contains q = true) : q ∈ l := by
  simpa using h

theorem append_singleton_ne_nil (p : Path) (x : Name) : p ++ [x] ≠ [] := by
  simp

theorem iterdir_nodup {fs : FS} (hwf : wf fs) (p : Path) : (iterdir fs p).Nodup := by
  unfold iterdir
  exact hwf.1.filter _

theorem get_all_folders_nodup {fs : FS} (hwf : wf fs) (p : Path) :
    (get_all_folders fs p).Nodup := by
  unfold get_all_folders rglobL
  exact (hwf.1.filter _).filter _

theorem get_all_files_nodup {fs : FS} (hwf : wf fs) (p : Path) :
    (get_all_files fs p).Nodup := by
  unfold get_all_files rglobL
  exact (hwf.1.filter _).filter _

theorem relTo_ne_nil {root q : Path} (h : ltP root q = true) : relTo root q ≠ [] := by
  obtain ⟨r, hne, rfl⟩ := ltP_iff.mp h
  rw [relTo_append]
  exact hne

theorem leP_out_of_disjoint {src repl : Path} (hdisj : Disjoint2 src repl)
    {t q : Path} (ht : leP repl t = true) (hq : leP src q = true) :
    leP t q = false := by
  cases hc : leP t q
  · rfl
  · exfalso
    have h1 : leP repl q = true := leP_trans ht hc
    rcases leP_total_of_common hq h1 with h | h
    · rw [hdisj.1] at h
      cases h
    · rw [hdisj.2] at h
      cases h

theorem isFile_congr {fs fs' : FS} {p : Path} (h : find fs p = find fs' p) :
    isFile fs p = isFile fs' p := by
  unfold isFile
  rw [h]

/-! ### Exact characterization of the two pruning passes -/

theorem prune_dirs_none_persist (P : List Path) :
    ∀ (l : List Path) (acc : FS × List SEv) (q : Path), find acc.1 q = none →
      find ((l.foldl (fun acc q =>
        if isDir acc.1 q && !(P.contains q) then (rmtree acc.1 q, acc.2 ++ [SEv.rmEv q])
        else acc) acc).1) q = none := by
  intro l
  induction l with
  | nil => intro acc q h; exact h
  | cons c rest ih =>
    intro acc q h
    simp only [List.foldl_cons]
    by_cases hb : (isDir acc.1 c && !(P.contains c)) = true
    · rw [if_pos hb]
      refine ih _ q ?_
      simp only [find_rmtree]
      split
      · rfl
      · exact h
    · rw [if_neg hb]
      exact ih acc q h

theorem prune_dirs_char (P : List Path) (repl : Path) (fsr : FS) :
    ∀ (l : List Path) (fs0 : FS) (ev : List SEv),
      (∀ c ∈ l, c ≠ [] ∧ c.dropLast = repl) →
      l.Nodup →
      (∀ c ∈ l, ∀ q : Path, leP c q = true → find fs0 q = find fsr q) →
      ∀ q : Path,
        ((∃ c ∈ l, leP c q = true ∧ find fsr c = some .dir ∧ P.contains c = false) →
          find ((l.foldl (fun acc q =>
            if isDir acc.1 q && !(P.contains q) then (rmtree acc.1 q, acc.2 ++ [SEv.rmEv q])
            else acc) (fs0, ev)).1) q = none) ∧
        ((∀ c ∈ l, leP c q = true → find fsr c = some .dir → P.contains c = true) →
          find ((l.foldl (fun acc q =>
            if isDir acc.1 q && !(P.contains q) then (rmtree acc.1 q, acc.2 ++ [SEv.rmEv q])
            else acc) (fs0, ev)).1) q = find fs0 q) := by
  intro l
  induction l with
  | nil =>
    intro fs0 ev _ _ _ q
    exact ⟨by rintro ⟨c, hc, _⟩; simp at hc, fun _ => rfl⟩
  | cons c rest ih =>
    intro fs0 ev hch hnd hpr q
    have hc0 := hch c (List.mem_cons_self c rest)
    have hcc : find fs0 c = find fsr c := hpr c (List.mem_cons_self c rest) c (leP_refl c)
    have hchr : ∀ a ∈ rest, a ≠ [] ∧ a.dropLast = repl :=
      fun a ha => hch a (List.mem_cons_of_mem c ha)
    have hndr : rest.Nodup := (List.nodup_cons.mp hnd).2
    have hcnr : c ∉ rest := (List.nodup_cons.mp hnd).1
    simp only [List.foldl_cons]
    by_cases hb : (isDir fs0 c && !(P.contains c)) = true
    · rw [if_pos hb]
      have hbb : find fs0 c = some .dir ∧ P.contains c = false := by
        rw [Bool.and_eq_true, Bool.not_eq_true'] at hb
        exact ⟨isDir_iff.mp hb.1, hb.2⟩
      have hdirc : find fsr c = some .dir := hcc.symm.trans hbb.1
      have hprr : ∀ c' ∈ rest, ∀ q' : Path, leP c' q' = true →
          find (rmtree fs0 c) q' = find fsr q' := by
        intro c' hc' q' hq'
        have hob := hchr c' hc'
        rw [find_rmtree, if_neg]
        · exact hpr c' (List.mem_cons_of_mem c hc') q' hq'
        · intro hle
          exact hcnr ((child_eq_of_common hc0.1 hc0.2 hob.1 hob.2 hle hq') ▸ hc')
      constructor
      · rintro ⟨c0, hc0m, hle0, hdir0, hcont0⟩
        rcases List.mem_cons.mp hc0m with rfl | hc0r
        · refine prune_dirs_none_persist P rest _ q ?_
          simp only [find_rmtree, if_pos hle0]
        · exact (ih (rmtree fs0 c) (ev ++ [SEv.rmEv c]) hchr hndr hprr q).1
            ⟨c0, hc0r, hle0, hdir0, hcont0⟩
      · intro hall
        have hnle : leP c q = false := by
          cases hle : leP c q
          · rfl
          · have := hall c (List.mem_cons_self c rest) hle hdirc
            rw [hbb.2] at this
            cases this
        have hrec := (ih (rmtree fs0 c) (ev ++ [SEv.rmEv c]) hchr hndr hprr q).2
          (fun c' hc' => hall c' (List.mem_cons_of_mem c hc'))
        rw [hrec]
        simp only [find_rmtree]
        rw [if_neg (by simp [hnle])]
    · rw [if_neg hb]
      constructor
      · rintro ⟨c0, hc0m, hle0, hdir0, hcont0⟩
        rcases List.mem_cons.mp hc0m with rfl | hc0r
        · exfalso
          apply hb
          rw [Bool.and_eq_true, Bool.not_eq_true']
          exact ⟨isDir_iff.mpr (hcc.trans hdir0), hcont0⟩
        · exact (ih fs0 ev hchr hndr
            (fun c' hc' => hpr c' (List.mem_cons_of_mem c hc')) q).1
            ⟨c0, hc0r, hle0, hdir0, hcont0⟩
      · intro hall
        exact (ih fs0 ev hchr hndr
          (fun c' hc' => hpr c' (List.mem_cons_of_mem c hc')) q).2
          (fun c' hc' => hall c' (List.mem_cons_of_mem c hc'))

theorem remove_redundant_folders_del {fs : FS} (hwf : wf fs) {repl : Path} {P : List Path}
    {c : Path} (hcne : c ≠ []) (hcd : c.dropLast = repl) (hdir : find fs c = some .dir)
    (hcont : P.contains c = false) :
    ∀ q : Path, leP c q = true → find (remove_redundant_folders fs repl P).1 q = none := by
  intro q hq
  unfold remove_redundant_folders
  refine (prune_dirs_char P repl fs (iterdir fs repl) fs [] ?_ (iterdir_nodup hwf repl)
    (fun _ _ _ _ => rfl) q).1 ⟨c, ?_, hq, hdir, hcont⟩
  · intro c' hc'
    have := mem_iterdir_iff.mp hc'
    exact ⟨this.1, this.2.1⟩
  · exact mem_iterdir_iff.mpr ⟨hcne, hcd, by simp [hdir]⟩

theorem remove_redundant_folders_keep {fs : FS} (hwf : wf fs) {repl : Path} {P : List Path}
    (q : Path)
    (hall : ∀ c : Path, c ≠ [] → c.dropLast = repl → leP c q = true →
      find fs c = some .dir → P.contains c = true) :
    find (remove_redundant_folders fs repl P).1 q = find fs q := by
  unfold remove_redundant_folders
  refine (prune_dirs_char P repl fs (iterdir fs repl) fs [] ?_ (iterdir_nodup hwf repl)
    (fun _ _ _ _ => rfl) q).2 ?_
  · intro c' hc'
    have := mem_iterdir_iff.mp hc'
    exact ⟨this.1, this.2.1⟩
  · intro c' hc' hle hdir
    have := mem_iterdir_iff.mp hc'
    exact hall c' this.1 this.2.1 hle hdir

theorem prune_files_none_persist (P : List Path) :
    ∀ (l : List Path) (acc : FS × List SEv) (q : Path), find acc.1 q = none →
      find ((l.foldl (fun acc q =>
        if isFile acc.1 q && !(P.contains q) then (unlinkE acc.1 q, acc.2 ++ [SEv.unlinkEv q])
        else acc) acc).1) q = none := by
  intro l
  induction l with
  | nil => intro acc q h; exact h
  | cons c rest ih =>
    intro acc q h
    simp only [List.foldl_cons]
    by_cases hb : (isFile acc.1 c && !(P.contains c)) = true
    · rw [if_pos hb]
      refine ih _ q ?_
      simp only [find_unlinkE]
      split
      · rfl
      · exact h
    · rw [if_neg hb]
      exact ih acc q h

theorem prune_files_char (P : List Path) (fsr : FS) :
    ∀ (l : List Path) (fs0 : FS) (ev : List SEv),
      l.Nodup →
      (∀ c ∈ l, find fs0 c = find fsr c) →
      ∀ q : Path,
        ((q ∈ l ∧ isFile fsr q = true ∧ P.contains q = false) →
          find ((l.foldl (fun acc q =>
            if isFile acc.1 q && !(P.contains q) then
              (unlinkE acc.1 q, acc.2 ++ [SEv.unlinkEv q])
            else acc) (fs0, ev)).1) q = none) ∧
        ((q ∉ l ∨ isFile fsr q = false ∨ P.contains q = true) →
          find ((l.foldl (fun acc q =>
            if isFile acc.1 q && !(P.contains q) then
              (unlinkE acc.1 q, acc.2 ++ [SEv.unlinkEv q])
            else acc) (fs0, ev)).1) q = find fs0 q) := by
  intro l
  induction l with
  | nil =>
    intro fs0 ev _ _ q
    exact ⟨by rintro ⟨hc, _⟩; simp at hc, fun _ => rfl⟩
  | cons c rest ih =>
    intro fs0 ev hnd hpr q
    have hcc : find fs0 c = find fsr c := hpr c (List.mem_cons_self c rest)
    have hndr : rest.Nodup := (List.nodup_cons.mp hnd).2
    have hcnr : c ∉ rest := (List.nodup_cons.mp hnd).1
    simp only [List.foldl_cons]
    by_cases hb : (isFile fs0 c && !(P.contains c)) = true
    · rw [if_pos hb]
      have hprr : ∀ c' ∈ rest, find (unlinkE fs0 c) c' = find fsr c' := by
        intro c' hc'
        rw [find_unlinkE, if_neg]
        · exact hpr c' (List.mem_cons_of_mem c hc')
        · rintro rfl
          exact hcnr hc'
      constructor
      · rintro ⟨hqm, hqf, hqc⟩
        rcases List.mem_cons.mp hqm with rfl | hqr
        · refine prune_files_none_persist P rest _ q ?_
          simp [find_unlinkE]
        · exact (ih (unlinkE fs0 c) (ev ++ [SEv.unlinkEv c]) hndr hprr q).1 ⟨hqr, hqf, hqc⟩
      · intro hd
        have hqc : q ≠ c := by
          rintro rfl
          rw [Bool.and_eq_true, Bool.not_eq_true'] at hb
          rcases hd with hd | hd | hd
          · exact hd (List.mem_cons_self q rest)
          · rw [isFile_congr hcc] at hb
            rw [hb.1] at hd
            cases hd
          · rw [hb.2] at hd
            cases hd
        have hrec := (ih (unlinkE fs0 c) (ev ++ [SEv.unlinkEv c]) hndr hprr q).2 (by
          rcases hd with hd | hd | hd
          · exact Or.inl (fun hm => hd (List.mem_cons_of_mem c hm))
          · exact Or.inr (Or.inl hd)
          · exact Or.inr (Or.inr hd))
        rw [hrec]
        simp only [find_unlinkE]
        rw [if_neg hqc]
    · rw [if_neg hb]
      have hprr : ∀ c' ∈ rest, find fs0 c' = find fsr c' :=
        fun c' hc' => hpr c' (List.mem_cons_of_mem c hc')
      constructor
      · rintro ⟨hqm, hqf, hqc⟩
        rcases List.mem_cons.mp hqm with rfl | hqr
        · exfalso
          apply hb
          rw [Bool.and_eq_true, Bool.not_eq_true']
          rw [isFile_congr hcc]
          exact ⟨hqf, hqc⟩
        · exact (ih fs0 ev hndr hprr q).1 ⟨hqr, hqf, hqc⟩
      · intro hd
        refine (ih fs0 ev hndr hprr q).2 ?_
        rcases hd with hd | hd | hd
        · exact Or.inl (fun hm => hd (List.mem_cons_of_mem c hm))
        · exact Or.inr (Or.inl hd)
        · exact Or.inr (Or.inr hd)

theorem remove_redundant_files_del {fs : FS} (hwf : wf fs) {repl : Path} {P : List Path}
    {q : Path} (hqne : q ≠ []) (hqd : q.dropLast = repl) (hqf : isFile fs q = true)
    (hcont : P.contains q = false) :
    find (remove_redundant_files fs repl P).1 q = none := by
  unfold remove_redundant_files
  refine (prune_files_char P fs (iterdir fs repl) fs [] (iterdir_nodup hwf repl)
    (fun _ _ => rfl) q).1 ⟨?_, hqf, hcont⟩
  obtain ⟨b, hb⟩ := isFile_iff.mp hqf
  exact mem_iterdir_iff.mpr ⟨hqne, hqd, by simp [hb]⟩

theorem remove_redundant_files_keep {fs : FS} (hwf : wf fs) {repl : Path} {P : List Path}
    (q : Path) (hd : isFile fs q = false ∨ P.contains q = true ∨ q.dropLast ≠ repl) :
    find (remove_redundant_files fs repl P).1 q = find fs q := by
  unfold remove_redundant_files
  refine (prune_files_char P fs (iterdir fs repl) fs [] (iterdir_nodup hwf repl)
    (fun _ _ => rfl) q).2 ?_
  rcases hd with hd | hd | hd
  · exact Or.inr (Or.inl hd)
  · exact Or.inr (Or.inr hd)
  · exact Or.inl (fun hm => hd (mem_iterdir_iff.mp hm).2.1)

/-! ### The two prunes establish one-level agreement with the source root -/

theorem leP_of_ltP {p q : Path} (h : ltP p q = true) : leP p q = true := by
  unfold ltP at h
  exact ((Bool.and_eq_true _ _).mp h).1

theorem leP_snoc_self (p : Path) (x : Name) : leP (p ++ [x]) p = false := by
  cases hc : leP (p ++ [x]) p
  · rfl
  · exfalso
    have := leP_eq_of_length hc (by simp)
    have hl := congrArg List.length this
    simp at hl

theorem repl_ne_nil_of_disjoint {src repl : Path} (hdisj : Disjoint2 src repl) :
    repl ≠ [] := by
  rintro rfl
  have : leP ([] : Path) src = true := by simp [leP]
  rw [hdisj.2] at this
  cases this

theorem dropLast_snoc (p : Path) (x : Name) : (p ++ [x]).dropLast = p := by
  rw [dropLast_append_ne (by simp)]
  simp

theorem folders_img_contains {fs : FS} {src repl : Path} {nm : Name}
    (h : find fs (src ++ [nm]) = some .dir) :
    ((get_all_folders fs src).map (fun d => build_path repl (relTo src d))).contains
      (repl ++ [nm]) = true := by
  refine contains_of_mem (List.mem_map.mpr ⟨src ++ [nm], ?_, ?_⟩)
  · exact mem_get_all_folders_iff.mpr ⟨ltP_append_ne (by simp), isDir_iff.mpr h⟩
  · rw [build_path, relTo_append]

theorem folders_img_not_contains {fs : FS} {src repl : Path} {nm : Name}
    (h : find fs (src ++ [nm]) ≠ some .dir) :
    ((get_all_folders fs src).map (fun d => build_path repl (relTo src d))).contains
      (repl ++ [nm]) = false := by
  cases hc : ((get_all_folders fs src).map (fun d => build_path repl (relTo src d))).contains
      (repl ++ [nm])
  · rfl
  · exfalso
    obtain ⟨d, hd, himg⟩ := List.mem_map.mp (mem_of_contains hc)
    have hmem := mem_get_all_folders_iff.mp hd
    have hle : leP src d = true := leP_of_ltP hmem.1
    rw [build_path] at himg
    have hrel : relTo src d = [nm] := List.append_cancel_left himg
    have hdq : d = src ++ [nm] := by rw [← append_relTo hle, hrel]
    exact h (hdq ▸ isDir_iff.mp hmem.2)

theorem files_img_contains {fs : FS} {src repl : Path} {nm : Name} {b : List Nat}
    (h : find fs (src ++ [nm]) = some (.file b)) :
    ((get_all_files fs src).map (fun f => build_path repl (relTo src f))).contains
      (repl ++ [nm]) = true := by
  refine contains_of_mem (List.mem_map.mpr ⟨src ++ [nm], ?_, ?_⟩)
  · exact mem_get_all_files_iff.mpr ⟨ltP_append_ne (by simp), isFile_iff.mpr ⟨b, h⟩⟩
  · rw [build_path, relTo_append]

theorem files_img_not_contains {fs : FS} {src repl : Path} {nm : Name}
    (h : isFile fs (src ++ [nm]) = false) :
    ((get_all_files fs src).map (fun f => build_path repl (relTo src f))).contains
      (repl ++ [nm]) = false := by
  cases hc : ((get_all_files fs src).map (fun f => build_path repl (relTo src f))).contains
      (repl ++ [nm])
  · rfl
  · exfalso
    obtain ⟨d, hd, himg⟩ := List.mem_map.mp (mem_of_contains hc)
    have hmem := mem_get_all_files_iff.mp hd
    have hle : leP src d = true := leP_of_ltP hmem.1
    rw [build_path] at himg
    have hrel : relTo src d = [nm] := List.append_cancel_left himg
    have hdq : d = src ++ [nm] := by rw [← append_relTo hle, hrel]
    rw [hdq] at hmem
    rw [hmem.2] at h
    cases h

theorem prune_phases_src {fs : FS} {src repl : Path} (hwf : wf fs)
    (hdisj : Disjoint2 src repl) (P P' : List Path) (q : Path) (hq : leP src q = true) :
    find (remove_redundant_files (remove_redundant_folders fs repl P).1 repl P').1 q
      = find fs q := by
  have hwf1 : wf (remove_redundant_folders fs repl P).1 :=
    wf_remove_redundant_folders hwf repl P
  have h1 : find (remove_redundant_folders fs repl P).1 q = find fs q := by
    refine remove_redundant_folders_keep hwf q ?_
    intro c hcne hcd hle _
    exfalso
    have hrc : leP repl c = true := by
      rw [child_eq_snoc hcne hcd]
      exact leP_append _ _
    have := leP_out_of_disjoint hdisj (leP_trans hrc hle) hq
    rw [leP_refl] at this
    cases this
  rw [← h1]
  refine remove_redundant_files_keep hwf1 q (Or.inr (Or.inr ?_))
  intro hdl
  have hrq : leP repl q = true := by
    rw [← hdl]
    exact leP_dropLast q
  have := leP_out_of_disjoint hdisj hrq hq
  rw [leP_refl] at this
  cases this

theorem prune_phases_repl {fs : FS} {src repl : Path} (hwf : wf fs)
    (hdisj : Disjoint2 src repl) (P P' : List Path) :
    find (remove_redundant_files (remove_redundant_folders fs repl P).1 repl P').1 repl
      = find fs repl := by
  have hwf1 : wf (remove_redundant_folders fs repl P).1 :=
    wf_remove_redundant_folders hwf repl P
  have h1 : find (remove_redundant_folders fs repl P).1 repl = find fs repl := by
    refine remove_redundant_folders_keep hwf repl ?_
    intro c hcne hcd hle _
    exfalso
    rw [child_eq_snoc hcne hcd, leP_snoc_self] at hle
    cases hle
  rw [← h1]
  exact remove_redundant_files_keep hwf1 repl
    (Or.inr (Or.inr (dropLast_ne_self (repl_ne_nil_of_disjoint hdisj))))

theorem prune_phases_slot_dir {fs : FS} {src repl : Path} (hwf : wf fs) {nm : Name}
    (hdir : find fs (src ++ [nm]) = some .dir) :
    (find fs (repl ++ [nm]) = some .dir →
      find (remove_redundant_files (remove_redundant_folders fs repl
          ((get_all_folders fs src).map (fun d => build_path repl (relTo src d)))).1 repl
          ((get_all_files fs src).map (fun f => build_path repl (relTo src f)))).1
        (repl ++ [nm]) = some .dir ∧
      (∀ q : Path, leP (repl ++ [nm]) q = true →
        find (remove_redundant_files (remove_redundant_folders fs repl
            ((get_all_folders fs src).map (fun d => build_path repl (relTo src d)))).1 repl
            ((get_all_files fs src).map (fun f => build_path repl (relTo src f)))).1 q
          = find fs q)) ∧
    (find fs (repl ++ [nm]) ≠ some .dir →
      find (remove_redundant_files (remove_redundant_folders fs repl
          ((get_all_folders fs src).map (fun d => build_path repl (relTo src d)))).1 repl
          ((get_all_files fs src).map (fun f => build_path repl (relTo src f)))).1
        (repl ++ [nm]) = none) := by
  have hwf1 : wf (remove_redundant_folders fs repl
      ((get_all_folders fs src).map (fun d => build_path repl (relTo src d)))).1 :=
    wf_remove_redundant_folders hwf repl _
  have hkeepq : ∀ q : Path, leP (repl ++ [nm]) q = true →
      find (remove_redundant_folders fs repl
        ((get_all_folders fs src).map (fun d => build_path repl (relTo src d)))).1 q
        = find fs q := by
    intro q hq
    refine remove_redundant_folders_keep hwf q ?_
    intro c hcne hcd hle _
    have hceq : c = repl ++ [nm] :=
      child_eq_of_common hcne hcd (by simp) (dropLast_snoc repl nm) hle hq
    rw [hceq]
    exact folders_img_contains hdir
  constructor
  · intro hfr
    constructor
    · rw [← hkeepq (repl ++ [nm]) (leP_refl _)] at hfr
      rw [← hfr]
      refine remove_redundant_files_keep hwf1 (repl ++ [nm]) (Or.inl ?_)
      rw [Bool.eq_false_iff]
      intro hif
      obtain ⟨b, hb⟩ := isFile_iff.mp hif
      rw [hfr] at hb
      cases hb
    · intro q hq
      rw [← hkeepq q hq]
      refine remove_redundant_files_keep hwf1 q ?_
      by_cases hdl : q.dropLast = repl
      · have hqne : q ≠ [] := by
          rintro rfl
          obtain ⟨r, hr⟩ := leP_iff.mp hq
          simp at hr
        have hqc : q = repl ++ [nm] :=
          child_eq_of_common hqne hdl (by simp) (dropLast_snoc repl nm) (leP_refl q) hq
        left
        rw [Bool.eq_false_iff]
        intro hif
        obtain ⟨b, hb⟩ := isFile_iff.mp hif
        rw [hkeepq q hq, hqc, hfr] at hb
        cases hb
      · exact Or.inr (Or.inr hdl)
  · intro hfr
    rcases find_file_or_none hfr with hn | ⟨b, hb⟩
    · have h1 : find (remove_redundant_folders fs repl
          ((get_all_folders fs src).map (fun d => build_path repl (relTo src d)))).1
          (repl ++ [nm]) = none := (hkeepq _ (leP_refl _)).trans hn
      rw [← h1]
      refine remove_redundant_files_keep hwf1 (repl ++ [nm]) (Or.inl ?_)
      rw [Bool.eq_false_iff]
      intro hif
      obtain ⟨b, hb⟩ := isFile_iff.mp hif
      rw [h1] at hb
      cases hb
    · have h1 : find (remove_redundant_folders fs repl
          ((get_all_folders fs src).map (fun d => build_path repl (relTo src d)))).1
          (repl ++ [nm]) = some (.file b) := (hkeepq _ (leP_refl _)).trans hb
      refine remove_redundant_files_del hwf1 (by simp) (dropLast_snoc repl nm) ?_ ?_
      · exact isFile_iff.mpr ⟨b, h1⟩
      · refine files_img_not_contains ?_
        rw [Bool.eq_false_iff]
        intro hif
        obtain ⟨b', hb'⟩ := isFile_iff.mp hif
        rw [hdir] at hb'
        cases hb'

theorem prune_phases_slot_file {fs : FS} {src repl : Path} (hwf : wf fs) {nm : Name}
    {b : List Nat} (hfile : find fs (src ++ [nm]) = some (.file b)) :
    find (remove_redundant_files (remove_redundant_folders fs repl
        ((get_all_folders fs src).map (fun d => build_path repl (relTo src d)))).1 repl
        ((get_all_files fs src).map (fun f => build_path repl (relTo src f)))).1
      (repl ++ [nm]) = none ∨
    ∃ b' : List Nat,
      find (remove_redundant_files (remove_redundant_folders fs repl
          ((get_all_folders fs src).map (fun d => build_path repl (relTo src d)))).1 repl
          ((get_all_files fs src).map (fun f => build_path repl (relTo src f)))).1
        (repl ++ [nm]) = some (.file b') := by
  have hwf1 : wf (remove_redundant_folders fs repl
      ((get_all_folders fs src).map (fun d => build_path repl (relTo src d)))).1 :=
    wf_remove_redundant_folders hwf repl _
  rcases hslot : find fs (repl ++ [nm]) with _ | e
  · -- absent in the original state: stays absent
    left
    have h1 : find (remove_redundant_folders fs repl
        ((get_all_folders fs src).map (fun d => build_path repl (relTo src d)))).1
        (repl ++ [nm]) = none := by
      rw [← hslot]
      refine remove_redundant_folders_keep hwf _ ?_
      intro c hcne hcd hle hdirc
      exfalso
      have hceq : c = repl ++ [nm] :=
        child_eq_of_common hcne hcd (by simp) (dropLast_snoc repl nm) hle (leP_refl _)
      rw [hceq, hslot] at hdirc
      cases hdirc
    rw [← h1]
    refine remove_redundant_files_keep hwf1 (repl ++ [nm]) (Or.inl ?_)
    rw [Bool.eq_false_iff]
    intro hif
    obtain ⟨b', hb'⟩ := isFile_iff.mp hif
    rw [h1] at hb'
    cases hb'
  · rcases e with b' | _
    · -- a stale file: preserved by both prunes (its image is in the preserve list)
      right
      refine ⟨b', ?_⟩
      have h1 : find (remove_redundant_folders fs repl
          ((get_all_folders fs src).map (fun d => build_path repl (relTo src d)))).1
          (repl ++ [nm]) = some (.file b') := by
        rw [← hslot]
        refine remove_redundant_folders_keep hwf _ ?_
        intro c hcne hcd hle hdirc
        exfalso
        have hceq : c = repl ++ [nm] :=
          child_eq_of_common hcne hcd (by simp) (dropLast_snoc repl nm) hle (leP_refl _)
        rw [hceq, hslot] at hdirc
        cases hdirc
      rw [← h1]
      exact remove_redundant_files_keep hwf1 (repl ++ [nm])
        (Or.inr (Or.inl (files_img_contains hfile)))
    · -- a stale directory: removed by the folder prune
      left
      have h1 : find (remove_redundant_folders fs repl
          ((get_all_folders fs src).map (fun d => build_path repl (relTo src d)))).1
          (repl ++ [nm]) = none :=
        remove_redundant_folders_del hwf (by simp) (dropLast_snoc repl nm) hslot
          (folders_img_not_contains (by rw [hfile]; intro hc; cases hc)) _ (leP_refl _)
      rw [← h1]
      refine remove_redundant_files_keep hwf1 (repl ++ [nm]) (Or.inl ?_)
      rw [Bool.eq_false_iff]
      intro hif
      obtain ⟨b'', hb''⟩ := isFile_iff.mp hif
      rw [h1] at hb''
      cases hb''

theorem prune_phases_slot_none {fs : FS} {src repl : Path} (hwf : wf fs) {nm : Name}
    (hnone : find fs (src ++ [nm]) = none) :
    find (remove_redundant_files (remove_redundant_folders fs repl
        ((get_all_folders fs src).map (fun d => build_path repl (relTo src d)))).1 repl
        ((get_all_files fs src).map (fun f => build_path repl (relTo src f)))).1
      (repl ++ [nm]) = none := by
  have hwf1 : wf (remove_redundant_folders fs repl
      ((get_all_folders fs src).map (fun d => build_path repl (relTo src d)))).1 :=
    wf_remove_redundant_folders hwf repl _
  rcases hslot : find fs (repl ++ [nm]) with _ | e
  · have h1 : find (remove_redundant_folders fs repl
        ((get_all_folders fs src).map (fun d => build_path repl (relTo src d)))).1
        (repl ++ [nm]) = none := by
      rw [← hslot]
      refine remove_redundant_folders_keep hwf _ ?_
      intro c hcne hcd hle hdirc
      exfalso
      have hceq : c = repl ++ [nm] :=
        child_eq_of_common hcne hcd (by simp) (dropLast_snoc repl nm) hle (leP_refl _)
      rw [hceq, hslot] at hdirc
      cases hdirc
    rw [← h1]
    refine remove_redundant_files_keep hwf1 (repl ++ [nm]) (Or.inl ?_)
    rw [Bool.eq_false_iff]
    intro hif
    obtain ⟨b', hb'⟩ := isFile_iff.mp hif
    rw [h1] at hb'
    cases hb'
  · rcases e with b' | _
    · have h1 : find (remove_redundant_folders fs repl
          ((get_all_folders fs src).map (fun d => build_path repl (relTo src d)))).1
          (repl ++ [nm]) = some (.file b') := by
        rw [← hslot]
        refine remove_redundant_folders_keep hwf _ ?_
        intro c hcne hcd hle hdirc
        exfalso
        have hceq : c = repl ++ [nm] :=
          child_eq_of_common hcne hcd (by simp) (dropLast_snoc repl nm) hle (leP_refl _)
        rw [hceq, hslot] at hdirc
        cases hdirc
      refine remove_redundant_files_del hwf1 (by simp) (dropLast_snoc repl nm)
        (isFile_iff.mpr ⟨b', h1⟩) ?_
      refine files_img_not_contains ?_
      rw [Bool.eq_false_iff]
      intro hif
      obtain ⟨b'', hb''⟩ := isFile_iff.mp hif
      rw [hnone] at hb''
      cases hb''
    · have h1 : find (remove_redundant_folders fs repl
          ((get_all_folders fs src).map (fun d => build_path repl (relTo src d)))).1
          (repl ++ [nm]) = none :=
        remove_redundant_folders_del hwf (by simp) (dropLast_snoc repl nm) hslot
          (folders_img_not_contains (by rw [hnone]; intro hc; cases hc)) _ (leP_refl _)
      rw [← h1]
      refine remove_redundant_files_keep hwf1 (repl ++ [nm]) (Or.inl ?_)
      rw [Bool.eq_false_iff]
      intro hif
      obtain ⟨b'', hb''⟩ := isFile_iff.mp hif
      rw [h1] at hb''
      cases hb''

/-! ### Effect of the compare-and-copy file loop -/

theorem copy_file_write {fs : FS} {f rf : Path} {c : List Nat}
    (h1 : readF fs f = some c) (h2 : canWrite fs rf = true) :
    copy_file fs f rf = (writeF fs rf c, [.copyEv f rf]) := by
  simp [copy_file, h1, h2]

theorem copy_file_find_ne {fs : FS} (f rf : Path) {q : Path} (h : q ≠ rf) :
    find (copy_file fs f rf).1 q = find fs q := by
  rcases h1 : readF fs f with _ | c
  · simp [copy_file, h1]
  · by_cases h2 : canWrite fs rf = true
    · rw [copy_file_write h1 h2]
      unfold writeF
      rw [find_setE, if_neg h]
    · simp [copy_file, h1, Bool.eq_false_iff.mpr h2]

theorem sfFiles_keep (dsz : Path → Nat) (src repl : Path) :
    ∀ (l : List Path) (fs : FS) (q : Path),
      (∀ f ∈ l, build_path repl (relTo src f) ≠ q) →
      find (sfFiles dsz src repl l fs).1.1 q = find fs q := by
  intro l
  induction l with
  | nil => intro fs q _; rfl
  | cons f rest ih =>
    intro fs q hall
    rcases hc : compare_files dsz fs f (build_path repl (relTo src f)) with _ | b
    · rw [sfFiles_cons_none hc]
    · cases b with
      | true =>
        rw [sfFiles_cons_skip hc]
        exact ih fs q (fun f' hf' => hall f' (List.mem_cons_of_mem f hf'))
      | false =>
        rw [sfFiles_cons_copy hc]
        simp only
        rw [ih _ q (fun f' hf' => hall f' (List.mem_cons_of_mem f hf'))]
        exact copy_file_find_ne f _ (fun hq => hall f (List.mem_cons_self f rest) hq.symm)

theorem sfFiles_pristine (dsz : Path → Nat) (src repl : Path) (hdisj : Disjoint2 src repl)
    (l : List Path) (fs : FS) (q : Path) (hq : leP src q = true) :
    find (sfFiles dsz src repl l fs).1.1 q = find fs q := by
  refine sfFiles_keep dsz src repl l fs q ?_
  intro f hf heq
  have hrq : leP repl q = true := by
    rw [← heq, build_path]
    exact leP_append _ _
  have h2 := leP_out_of_disjoint hdisj hrq hq
  rw [leP_refl] at h2
  cases h2

theorem sfFiles_slot_other (dsz : Path → Nat) (src repl : Path) {fsr : FS} {nm : Name}
    (hnotfile : isFile fsr (src ++ [nm]) = false) :
    ∀ (l : List Path) (fs : FS),
      (∀ f ∈ l, ltP src f = true ∧ isFile fsr f = true) →
      find (sfFiles dsz src repl l fs).1.1 (repl ++ [nm]) = find fs (repl ++ [nm]) := by
  intro l fs hl
  refine sfFiles_keep dsz src repl l fs _ ?_
  intro f hf heq
  rw [build_path] at heq
  have hrel := List.append_cancel_left heq
  have hfe : f = src ++ [nm] := by
    rw [← append_relTo (leP_of_ltP (hl f hf).1), hrel]
  have := (hl f hf).2
  rw [hfe, hnotfile] at this
  cases this

theorem sfFiles_flag (dsz : Path → Nat) (src repl : Path) (hdisj : Disjoint2 src repl)
    (fsr : FS)
    (hsz : ∀ p q b, leP src q = true → find fsr q = some (.file b) → dsz p ≠ b.length) :
    ∀ (l : List Path) (fs : FS),
      (∀ f ∈ l, ltP src f = true ∧ isFile fsr f = true) →
      (∀ q : Path, leP src q = true → find fs q = find fsr q) →
      (sfFiles dsz src repl l fs).2 = true := by
  intro l
  induction l with
  | nil => intro fs _ _; rfl
  | cons f rest ih =>
    intro fs hl hpr
    obtain ⟨hlt, hfile⟩ := hl f (List.mem_cons_self f rest)
    obtain ⟨b, hb⟩ := isFile_iff.mp hfile
    have hfsf : find fs f = some (.file b) := (hpr f (leP_of_ltP hlt)).trans hb
    have hlr : ∀ f' ∈ rest, ltP src f' = true ∧ isFile fsr f' = true :=
      fun f' hf' => hl f' (List.mem_cons_of_mem f hf')
    have hnotnone : compare_files dsz fs f (build_path repl (relTo src f)) ≠ none := by
      rcases hq : find fs (build_path repl (relTo src f)) with _ | e2
      · rw [compare_files_none_right hq]
        simp
      · rcases e2 with b2 | _
        · rw [compare_files_files hfsf hq]
          split <;> simp
        · have hne : ¬ b.length = dsz (build_path repl (relTo src f)) :=
            fun he => hsz (build_path repl (relTo src f)) f b (leP_of_ltP hlt) hb he.symm
          rw [compare_files_file_dir hfsf hq, if_neg hne]
          simp
    rcases hc : compare_files dsz fs f (build_path repl (relTo src f)) with _ | bb
    · exact absurd hc hnotnone
    · cases bb with
      | true =>
        rw [sfFiles_cons_skip hc]
        exact ih fs hlr hpr
      | false =>
        rw [sfFiles_cons_copy hc]
        show (sfFiles dsz src repl rest (copy_file fs f (build_path repl (relTo src f))).1).2 =
          true
        refine ih _ hlr ?_
        intro q hqle
        rw [copy_file_find_ne f _ ?_]
        · exact hpr q hqle
        · intro he
          have hrq : leP repl q = true := by
            rw [he, build_path]
            exact leP_append _ _
          have h2 := leP_out_of_disjoint hdisj hrq hqle
          rw [leP_refl] at h2
          cases h2

theorem sfFiles_slot (dsz : Path → Nat) (src repl : Path) (hdisj : Disjoint2 src repl)
    (fsr : FS) (nm : Name) (b : List Nat) (hsb : find fsr (src ++ [nm]) = some (.file b)) :
    ∀ (l : List Path) (fs : FS),
      (∀ f ∈ l, ltP src f = true) →
      l.Nodup →
      (∀ q : Path, leP src q = true → find fs q = find fsr q) →
      find fs repl = some .dir →
      (src ++ [nm]) ∈ l →
      (find fs (repl ++ [nm]) = none ∨ ∃ b', find fs (repl ++ [nm]) = some (.file b')) →
      (sfFiles dsz src repl l fs).2 = true →
      find (sfFiles dsz src repl l fs).1.1 (repl ++ [nm]) = some (.file b) := by
  intro l
  induction l with
  | nil =>
    intro fs _ _ _ _ hmem _ _
    simp at hmem
  | cons f rest ih =>
    intro fs hl hnd hpr hrd hmem hslot hflag
    have hkeep_rest : ∀ fsx : FS, find fsx (repl ++ [nm]) = some (.file b) →
        (src ++ [nm]) ∉ rest →
        find (sfFiles dsz src repl rest fsx).1.1 (repl ++ [nm]) = some (.file b) := by
      intro fsx hfsx hnin
      rw [sfFiles_keep dsz src repl rest fsx _ ?_]
      · exact hfsx
      · intro f' hf' heq
        rw [build_path] at heq
        have hrel := List.append_cancel_left heq
        have hfe : f' = src ++ [nm] := by
          rw [← append_relTo (leP_of_ltP (hl f' (List.mem_cons_of_mem f hf'))), hrel]
        exact hnin (hfe ▸ hf')
    by_cases hfe : f = src ++ [nm]
    · have hnin : (src ++ [nm]) ∉ rest := hfe ▸ (List.nodup_cons.mp hnd).1
      have hrf : build_path repl (relTo src f) = repl ++ [nm] := by
        rw [build_path, hfe, relTo_append]
      have hfsf : find fs f = some (.file b) := by
        rw [hfe]
        exact (hpr _ (leP_append src [nm])).trans hsb
      have hread : readF fs f = some b := by
        unfold readF
        rw [hfsf]
      have hnotdir : isDir fs (repl ++ [nm]) = false := by
        rcases hslot with hn | ⟨b', hb'⟩
        · simp [isDir, hn]
        · simp [isDir, hb']
      have hcw : canWrite fs (repl ++ [nm]) = true := by
        unfold canWrite
        rw [dropLast_snoc]
        simp [isDir_iff.mpr hrd, hnotdir]
      rcases hcmp : compare_files dsz fs f (build_path repl (relTo src f)) with _ | bb
      · rw [sfFiles_cons_none hcmp] at hflag
        simp at hflag
      · cases bb with
        | true =>
          rw [sfFiles_cons_skip hcmp]
          have hbval : find fs (repl ++ [nm]) = some (.file b) := by
            rcases hslot with hn | ⟨b', hb'⟩
            · rw [hrf, compare_files_none_right hn] at hcmp
              cases hcmp
            · rw [hrf, compare_files_files hfsf hb'] at hcmp
              split at hcmp
              · have hbe : b = b' := (cmpChunks_iff b b').mp (Option.some.inj hcmp)
                rw [hb', ← hbe]
              · cases hcmp
          exact hkeep_rest fs hbval hnin
        | false =>
          rw [sfFiles_cons_copy hcmp]
          simp only
          have hcf : copy_file fs f (build_path repl (relTo src f)) =
              (writeF fs (repl ++ [nm]) b, [.copyEv f (repl ++ [nm])]) := by
            rw [hrf]
            exact copy_file_write hread hcw
          rw [hcf]
          refine hkeep_rest _ ?_ hnin
          unfold writeF
          rw [find_setE, if_pos rfl]
    · have himg : build_path repl (relTo src f) ≠ repl ++ [nm] := by
        intro he
        rw [build_path] at he
        have hrel := List.append_cancel_left he
        exact hfe (by rw [← append_relTo (leP_of_ltP (hl f (List.mem_cons_self f rest))), hrel])
      have hmem2 : (src ++ [nm]) ∈ rest := by
        rcases List.mem_cons.mp hmem with he | hm
        · exact absurd he.symm hfe
        · exact hm
      have hlr : ∀ f' ∈ rest, ltP src f' = true :=
        fun f' hf' => hl f' (List.mem_cons_of_mem f hf')
      have hndr : rest.Nodup := (List.nodup_cons.mp hnd).2
      rcases hcmp : compare_files dsz fs f (build_path repl (relTo src f)) with _ | bb
      · rw [sfFiles_cons_none hcmp] at hflag
        simp at hflag
      · cases bb with
        | true =>
          rw [sfFiles_cons_skip hcmp] at hflag ⊢
          exact ih fs hlr hndr hpr hrd hmem2 hslot hflag
        | false =>
          rw [sfFiles_cons_copy hcmp] at hflag ⊢
          simp only
          replace hflag : (sfFiles dsz src repl rest
              (copy_file fs f (build_path repl (relTo src f))).1).2 = true := hflag
          have hout : ∀ q : Path, leP src q = true →
              q ≠ build_path repl (relTo src f) := by
            intro q hq he
            have hrq : leP repl q = true := by
              rw [he, build_path]
              exact leP_append _ _
            have h2 := leP_out_of_disjoint hdisj hrq hq
            rw [leP_refl] at h2
            cases h2
          refine ih _ hlr hndr ?_ ?_ hmem2 ?_ hflag
          · intro q hq
            rw [copy_file_find_ne f _ (hout q hq)]
            exact hpr q hq
          · rw [copy_file_find_ne f _ ?_]
            · exact hrd
            · intro he
              have hrt : relTo src f ≠ [] :=
                relTo_ne_nil (hl f (List.mem_cons_self f rest))
              rw [build_path] at he
              have := congrArg List.length he
              rw [List.length_append] at this
              exact hrt (List.eq_nil_of_length_eq_zero (by omega))
          · rcases hslot with hn | ⟨b', hb'⟩
            · exact Or.inl (by rw [copy_file_find_ne f _ (Ne.symm himg)]; exact hn)
            · exact Or.inr ⟨b', by rw [copy_file_find_ne f _ (Ne.symm himg)]; exact hb'⟩

/-! ### Frame reasoning for one recursive call of the folder loop -/

theorem frame_child {fs fs' : FS} {repl rd : Path} {x : Name}
    (hwf : wf fs) (hwf' : wf fs')
    (hrepl : find fs repl = some .dir)
    (hle : leP (repl ++ [x]) rd = true)
    (hso : SameOutside rd fs fs') :
    ∀ q : Path, leP (repl ++ [x]) q = false → find fs' q = find fs q := by
  intro q hq
  have hrdq : leP rd q = false := by
    cases hc : leP rd q
    · rfl
    · rw [leP_trans hle hc] at hq
      cases hq
  rcases hso q hrdq with ha | ⟨hlt, hnone, hdir⟩
  · exact ha
  · exfalso
    have hqrd : leP q rd = true := leP_of_ltP hlt
    by_cases hql : repl.length + 1 ≤ q.length
    · rcases leP_total_of_common hqrd hle with h | h
      · have hqe : q = repl ++ [x] := leP_eq_of_length h (by simp; omega)
        rw [hqe, leP_refl] at hq
        cases hq
      · rw [h] at hq
        cases hq
    · have hrrd : leP repl rd = true := leP_trans (leP_append repl [x]) hle
      rcases leP_total_of_common hqrd hrrd with h | h
      · by_cases hqe : q = repl
        · rw [hqe, hrepl] at hnone
          cases hnone
        · by_cases hqn : q = []
          · subst hqn
            have hmem := find_some_mem hdir
            have := hwf'.2 _ hmem
            simp at this
          · have := wf_ancestors hwf repl (by simp [hrepl]) q
              (ltP_of_leP_ne h hqe) hqn
            rw [this] at hnone
            cases hnone
      · have hqe : repl = q := leP_eq_of_length h (by omega)
        rw [← hqe, hrepl] at hnone
        cases hnone

theorem MirrorAt_congr {fs fs' : FS} {c rc : Path}
    (h1 : ∀ q : Path, leP rc q = true → find fs' q = find fs q)
    (h2 : ∀ q : Path, leP c q = true → find fs' q = find fs q)
    (h : MirrorAt fs c rc) : MirrorAt fs' c rc := by
  refine ⟨(h1 rc (leP_refl rc)).trans h.1, ?_⟩
  intro rel hrel
  rw [h1 (rc ++ rel) (leP_append rc rel), h2 (c ++ rel) (leP_append c rel)]
  exact h.2 rel hrel

theorem Psi_frame {fsc fs_next : FS} {L L' : List Path} {c rc : Path}
    (hfr : ∀ q : Path, leP rc q = true → find fs_next q = find fsc q)
    (hfc : ∀ q : Path, leP c q = true → find fs_next q = find fsc q)
    (hmemb : ∀ p : Path, leP c p = true → p ∈ L → p ∈ L')
    (h : Psi fsc L c rc) : Psi fs_next L' c rc := by
  rcases h with h | ⟨hm, hd⟩ | ⟨hm, hn, hg⟩ | ⟨hd, hl1, hgr⟩
  · exact Or.inl (MirrorAt_congr hfr hfc h)
  · exact Or.inr (Or.inl ⟨hmemb c (leP_refl c) hm, (hfr rc (leP_refl rc)).trans hd⟩)
  · refine Or.inr (Or.inr (Or.inl ⟨hmemb c (leP_refl c) hm,
      (hfr rc (leP_refl rc)).trans hn, ?_⟩))
    intro g hlt hdir
    have hgle : leP c g = true := leP_of_ltP hlt
    rw [isDir_iff, hfc g hgle, ← isDir_iff] at hdir
    exact hmemb g hgle (hg g hlt hdir)
  · refine Or.inr (Or.inr (Or.inr ⟨(hfr rc (leP_refl rc)).trans hd, ?_, ?_⟩))
    · intro x
      rw [hfr (rc ++ [x]) (leP_append rc [x]), hfc (c ++ [x]) (leP_append c [x])]
      exact hl1 x
    · intro nm hnm
      rw [hfc (c ++ [nm]) (leP_append c [nm])] at hnm
      rcases hgr nm hnm with hmir | ⟨hmem, hdir⟩
      · refine Or.inl (MirrorAt_congr ?_ ?_ hmir)
        · intro q hq
          exact hfr q (leP_trans (leP_append rc [nm]) hq)
        · intro q hq
          exact hfc q (leP_trans (leP_append c [nm]) hq)
      · exact Or.inr ⟨hmemb (c ++ [nm]) (leP_append c [nm]) hmem,
          (hfr (rc ++ [nm]) (leP_append rc [nm])).trans hdir⟩

theorem MirrorAt_of_level1 {fs : FS} {c rc : Path}
    (hwf : wf fs) (hrc : find fs rc = some .dir)
    (hl1 : Level1 fs c rc)
    (hch : ∀ x : Name, find fs (c ++ [x]) = some .dir →
      MirrorAt fs (c ++ [x]) (rc ++ [x])) :
    MirrorAt fs c rc := by
  refine ⟨hrc, ?_⟩
  intro rel hrel
  rcases rel with _ | ⟨x, rel'⟩
  · exact absurd rfl hrel
  · rcases rel' with _ | ⟨y, rel''⟩
    · exact hl1 x
    · have hassoc1 : rc ++ x :: y :: rel'' = (rc ++ [x]) ++ (y :: rel'') := by
        simp
      have hassoc2 : c ++ x :: y :: rel'' = (c ++ [x]) ++ (y :: rel'') := by
        simp
      rw [hassoc1, hassoc2]
      rcases hcx : find fs (c ++ [x]) with _ | e
      · rw [under_none hwf hcx (by simp) (y :: rel'') (by simp),
          under_none hwf ((hl1 x).trans hcx) (by simp) (y :: rel'') (by simp)]
      · rcases e with b | _
        · rw [under_file hwf hcx (y :: rel'') (by simp),
            under_file hwf ((hl1 x).trans hcx) (y :: rel'') (by simp)]
        · exact (hch x hcx).2 (y :: rel'') (by simp)

theorem mkdirP_succeeds {fs : FS} {p : Path}
    (h : ∀ q ∈ pres p, isFile fs q = false) :
    ∃ fs' : FS, mkdirP fs p = some fs' := by
  have hnb : ¬ ((pres p).any (fun q => isFile fs q)) = true := by
    intro hc
    obtain ⟨q, hq, hf⟩ := List.any_eq_true.mp hc
    rw [h q hq] at hf
    cases hf
  exact ⟨_, by unfold mkdirP; rw [if_neg hnb]⟩

/-! ### A fresh `copy_folder` into an empty replica site gets one level right -/

theorem cfItems_fresh (src' repl' : Path) (fsr : FS) (fuel : Nat)
    (hrne : repl' ≠ [])
    (hds : leP src' repl' = false) (hdr : leP repl' src' = false) :
    ∀ (l : List Path) (fs_c : FS),
      wf fs_c →
      (∀ q : Path, leP src' q = true → find fs_c q = find fsr q) →
      (∀ q ∈ pres repl', find fs_c q = some .dir) →
      (∀ item ∈ l, item ≠ [] ∧ item.dropLast = src' ∧ find fsr item ≠ none) →
      l.Nodup →
      (∀ item ∈ l, find fs_c (repl' ++ relTo src' item) = none) →
      (l ≠ [] → 1 ≤ fuel) →
      (∀ item ∈ l,
        find (cfItems src' repl' (fun a b c => copy_folder fuel a b c src') l fs_c).1
          (repl' ++ relTo src' item) = find fsr item) ∧
      (∀ q : Path, (∀ item ∈ l, leP (repl' ++ relTo src' item) q = false) →
        find (cfItems src' repl' (fun a b c => copy_folder fuel a b c src') l fs_c).1 q
          = find fs_c q) ∧
      (∀ q : Path, leP src' q = true →
        find (cfItems src' repl' (fun a b c => copy_folder fuel a b c src') l fs_c).1 q
          = find fsr q) := by
  intro l
  induction l with
  | nil =>
    intro fs_c _ hpr _ _ _ _ _
    exact ⟨fun item hm => absurd hm (by simp),
      fun q _ => rfl, fun q hq => hpr q hq⟩
  | cons item rest ih =>
    intro fs_c hwfc hpr hpres hit hnd hslots hfl
    obtain ⟨hne_i, hdrop_i, hfind_i⟩ := hit item (List.mem_cons_self item rest)
    have hsnoc : item = src' ++ [item.getLast hne_i] := child_eq_snoc hne_i hdrop_i
    set nm := item.getLast hne_i with hnm
    have hrel : relTo src' item = [nm] := by
      rw [hsnoc, relTo_append]
    have hritv : build_path repl' (relTo src' item) = repl' ++ [nm] := by
      rw [build_path, hrel]
    have hile : leP src' item = true := by
      rw [hsnoc]
      exact leP_append _ _
    have hfsi : find fs_c item = find fsr item := hpr item hile
    have hslot : find fs_c (repl' ++ [nm]) = none := by
      rw [← hrel]
      exact hslots item (List.mem_cons_self item rest)
    have hout_src : ∀ q : Path, leP src' q = true → leP (repl' ++ [nm]) q = false := by
      intro q hq
      cases hc : leP (repl' ++ [nm]) q
      · rfl
      · exfalso
        have hrq : leP repl' q = true := leP_trans (leP_append repl' [nm]) hc
        rcases leP_total_of_common hq hrq with h | h
        · rw [hds] at h
          cases h
        · rw [hdr] at h
          cases h
    have hout_pres : ∀ q ∈ pres repl', leP (repl' ++ [nm]) q = false := by
      intro q hq
      cases hc : leP (repl' ++ [nm]) q
      · rfl
      · exfalso
        have := leP_trans hc (mem_pres.mp hq).2
        rw [leP_snoc_self] at this
        cases this
    have hname_rest : ∀ item' ∈ rest, ∀ hne' : item' ≠ [],
        item'.getLast hne' ≠ nm := by
      intro item' hm hne' he
      have : item = item' := by
        rw [hsnoc, child_eq_snoc hne' (hit item' (List.mem_cons_of_mem item hm)).2.1, he]
      exact (List.nodup_cons.mp hnd).1 (this ▸ hm)
    have hout_rest : ∀ item' ∈ rest, leP (repl' ++ relTo src' item')
        (repl' ++ [nm]) = false := by
      intro item' hm
      obtain ⟨hne', hdrop', _⟩ := hit item' (List.mem_cons_of_mem item hm)
      have hrel' : relTo src' item' = [item'.getLast hne'] := by
        conv_lhs => rw [child_eq_snoc hne' hdrop']
        rw [relTo_append]
      rw [hrel']
      exact leP_snoc_ne (hname_rest item' hm hne')
    have hout_rest2 : ∀ item' ∈ rest, leP (repl' ++ [nm])
        (repl' ++ relTo src' item') = false := by
      intro item' hm
      obtain ⟨hne', hdrop', _⟩ := hit item' (List.mem_cons_of_mem item hm)
      have hrel' : relTo src' item' = [item'.getLast hne'] := by
        conv_lhs => rw [child_eq_snoc hne' hdrop']
        rw [relTo_append]
      rw [hrel']
      exact leP_snoc_ne (fun h => hname_rest item' hm hne' h.symm)
    have hitr : ∀ a ∈ rest, a ≠ [] ∧ a.dropLast = src' ∧ find fsr a ≠ none :=
      fun a ha => hit a (List.mem_cons_of_mem item ha)
    have hndr : rest.Nodup := (List.nodup_cons.mp hnd).2
    by_cases hdir : isDir fs_c item = true
    · -- a directory child: the recursive copy creates its replica directory
      obtain ⟨k, rfl⟩ : ∃ k, fuel = k + 1 := by
        rcases fuel with _ | k
        · exact absurd (hfl (by simp)) (by simp)
        · exact ⟨k, rfl⟩
      have hmk : ∃ fsm, mkdirP fs_c (repl' ++ [nm]) = some fsm := by
        refine mkdirP_succeeds ?_
        intro q hq
        rcases leP_snoc (mem_pres.mp hq).2 with h | h
        · have := hpres q (mem_pres.mpr ⟨(mem_pres.mp hq).1, h⟩)
          simp [isFile, this]
        · rw [h]
          simp [isFile, hslot]
      obtain ⟨fsm, hmk⟩ := hmk
      rw [cfItems_cons_dir hdir]
      simp only
      rw [hritv]
      have hfr_dir : find (copy_folder (k + 1) fs_c item (repl' ++ [nm]) src').1
          (repl' ++ [nm]) = some .dir :=
        copy_folder_chain k hmk (repl' ++ [nm]) (mem_pres.mpr ⟨by simp, leP_refl _⟩)
      have hwfr : wf (copy_folder (k + 1) fs_c item (repl' ++ [nm]) src').1 :=
        wf_copy_folder (k + 1) fs_c item (repl' ++ [nm]) src' hwfc
      have hframe : ∀ q : Path, leP (repl' ++ [nm]) q = false →
          find (copy_folder (k + 1) fs_c item (repl' ++ [nm]) src').1 q = find fs_c q :=
        frame_child hwfc hwfr (hpres repl' (mem_pres.mpr ⟨hrne, leP_refl _⟩))
          (leP_refl _) (copy_folder_SameOutside (k + 1) fs_c item (repl' ++ [nm]) src')
      have hpr' : ∀ q : Path, leP src' q = true →
          find (copy_folder (k + 1) fs_c item (repl' ++ [nm]) src').1 q = find fsr q :=
        fun q hq => (hframe q (hout_src q hq)).trans (hpr q hq)
      have hpres' : ∀ q ∈ pres repl',
          find (copy_folder (k + 1) fs_c item (repl' ++ [nm]) src').1 q = some .dir :=
        fun q hq => (hframe q (hout_pres q hq)).trans (hpres q hq)
      have hslots' : ∀ item' ∈ rest,
          find (copy_folder (k + 1) fs_c item (repl' ++ [nm]) src').1
            (repl' ++ relTo src' item') = none := by
        intro item' hm
        rw [hframe _ ?_]
        · exact hslots item' (List.mem_cons_of_mem item hm)
        · exact hout_rest2 item' hm
      obtain ⟨c1r, c2r, c3r⟩ := ih _ hwfr hpr' hpres' hitr hndr hslots'
        (fun _ => by omega)
      refine ⟨?_, ?_, ?_⟩
      · intro item0 hm0
        rcases List.mem_cons.mp hm0 with rfl | hm0r
        · rw [hrel]
          rw [c2r (repl' ++ [nm]) (hout_rest)]
          rw [hfr_dir, ← hfsi]
          exact (isDir_iff.mp hdir).symm
        · exact c1r item0 hm0r
      · intro q hq
        rw [c2r q (fun item' hm => hq item' (List.mem_cons_of_mem item hm))]
        refine hframe q ?_
        have := hq item (List.mem_cons_self item rest)
        rw [hrel] at this
        exact this
      · exact c3r
    · -- a file child: mkdir of the parent is a no-op and copy2 writes the bytes
      have hnotdir : find fs_c item ≠ some .dir := by
        intro h
        rw [isDir_iff.mpr h] at hdir
        exact hdir rfl
      rcases find_file_or_none hnotdir with hn | ⟨b, hb⟩
      · rw [hfsi] at hn
        exact absurd hn hfind_i
      · obtain ⟨fsm, hmkeq, hmid⟩ := mkdirP_of_pres_dirs hpres
        have hread : readF fsm item = some b := by
          unfold readF
          rw [hmid, hb]
        have hdslot : isDir fsm (repl' ++ [nm]) = false := by
          simp [isDir, hmid, hslot]
        have hcw : canWrite fsm (repl' ++ [nm]) = true := by
          unfold canWrite
          rw [dropLast_snoc]
          have hrd : isDir fsm repl' = true := by
            simp [isDir, hmid, hpres repl' (mem_pres.mpr ⟨hrne, leP_refl _⟩)]
          simp [hrd, hdslot]
        have hc2 : copy2 fsm item (repl' ++ [nm]) =
            some (writeF fsm (repl' ++ [nm]) b, .copyEv item (repl' ++ [nm])) := by
          unfold copy2
          rw [hread]
          simp only [hdslot, Bool.false_eq_true, if_false]
          rw [if_pos hcw]
        have hmk0 : mkdirP fs_c (build_path repl' (relTo src' item)).dropLast = some fsm := by
          rw [hritv, dropLast_snoc]
          exact hmkeq
        have hc20 : copy2 fsm item (build_path repl' (relTo src' item)) =
            some (writeF fsm (repl' ++ [nm]) b, .copyEv item (repl' ++ [nm])) := by
          rw [hritv]
          exact hc2
        rw [cfItems_cons_copyok (by simpa using hdir) hmk0 hc20]
        simp only
        have hwfw : wf (writeF fsm (repl' ++ [nm]) b) :=
          wf_writeF (wf_mkdirP hwfc hmkeq) b hcw
        have hfw : ∀ q : Path, q ≠ repl' ++ [nm] →
            find (writeF fsm (repl' ++ [nm]) b) q = find fs_c q := by
          intro q hq
          unfold writeF
          rw [find_setE, if_neg hq]
          exact hmid q
        have hfw_slot : find (writeF fsm (repl' ++ [nm]) b) (repl' ++ [nm])
            = some (.file b) := by
          unfold writeF
          rw [find_setE, if_pos rfl]
        have hpr' : ∀ q : Path, leP src' q = true →
            find (writeF fsm (repl' ++ [nm]) b) q = find fsr q := by
          intro q hq
          rw [hfw q ?_]
          · exact hpr q hq
          · intro he
            have := hout_src q hq
            rw [he, leP_refl] at this
            cases this
        have hpres' : ∀ q ∈ pres repl',
            find (writeF fsm (repl' ++ [nm]) b) q = some .dir := by
          intro q hq
          rw [hfw q ?_]
          · exact hpres q hq
          · intro he
            have := hout_pres q hq
            rw [he, leP_refl] at this
            cases this
        have hslots' : ∀ item' ∈ rest,
            find (writeF fsm (repl' ++ [nm]) b) (repl' ++ relTo src' item') = none := by
          intro item' hm
          rw [hfw _ ?_]
          · exact hslots item' (List.mem_cons_of_mem item hm)
          · intro he
            have := hout_rest2 item' hm
            rw [← he, leP_refl] at this
            cases this
        obtain ⟨c1r, c2r, c3r⟩ := ih _ hwfw hpr' hpres' hitr hndr hslots'
          (fun _ => hfl (by simp))
        refine ⟨?_, ?_, ?_⟩
        · intro item0 hm0
          rcases List.mem_cons.mp hm0 with rfl | hm0r
          · rw [hrel]
            rw [c2r (repl' ++ [nm]) (hout_rest)]
            rw [hfw_slot, ← hfsi]
            exact hb.symm
          · exact c1r item0 hm0r
        · intro q hq
          rw [c2r q (fun item' hm => hq item' (List.mem_cons_of_mem item hm))]
          refine hfw q ?_
          have := hq item (List.mem_cons_self item rest)
          rw [hrel] at this
          intro he
          rw [← he, leP_refl] at this
          cases this
        · exact c3r

theorem copy_folder_fresh {fs : FS} {src' repl' : Path} {fuel : Nat}
    (hwf : wf fs) (hrne : repl' ≠ [])
    (hds : leP src' repl' = false) (hdr : leP repl' src' = false)
    (hdir : find fs src' = some .dir)
    (hempty : find fs repl' = none)
    (hanc : ∀ q ∈ pres repl', q ≠ repl' → find fs q = some .dir)
    (hfl : iterdir fs src' ≠ [] → 2 ≤ fuel) (hf1 : 1 ≤ fuel) :
    find (copy_folder fuel fs src' repl' src').1 repl' = some .dir ∧
      Level1 (copy_folder fuel fs src' repl' src').1 src' repl' ∧
      (∀ q : Path, leP src' q = true →
        find (copy_folder fuel fs src' repl' src').1 q = find fs q) := by
  obtain ⟨k, rfl⟩ : ∃ k, fuel = k + 1 := by
    rcases fuel with _ | k
    · exact absurd hf1 (by simp)
    · exact ⟨k, rfl⟩
  obtain ⟨fs0, hmk⟩ : ∃ fs0, mkdirP fs repl' = some fs0 := by
    refine mkdirP_succeeds ?_
    intro q hq
    by_cases hqe : q = repl'
    · simp [isFile, hqe, hempty]
    · simp [isFile, hanc q hq hqe]
  have hfs0 : ∀ q : Path, find fs0 q = if q = repl' then some .dir else find fs q := by
    intro q
    rw [find_mkdirP hmk q]
    by_cases hqe : q = repl'
    · subst hqe
      rw [if_pos ⟨mem_pres.mpr ⟨hrne, leP_refl _⟩, hempty⟩, if_pos rfl]
    · rw [if_neg, if_neg hqe]
      rintro ⟨hmem, hnone⟩
      rw [hanc q hmem hqe] at hnone
      cases hnone
  have hnotrepl : ∀ {q : Path}, q.dropLast = src' → q ≠ repl' := by
    intro q hdl hqe
    have : repl' = src' ++ [repl'.getLast hrne] := child_eq_snoc hrne (hqe ▸ hdl)
    have hle : leP src' repl' = true := by
      rw [this]
      exact leP_append _ _
    rw [hds] at hle
    cases hle
  have hmem0 : ∀ {q : Path}, q ∈ iterdir fs0 src' ↔ q ∈ iterdir fs src' := by
    intro q
    rw [mem_iterdir_iff, mem_iterdir_iff]
    constructor
    · rintro ⟨h1, h2, h3⟩
      rw [hfs0 q, if_neg (hnotrepl h2)] at h3
      exact ⟨h1, h2, h3⟩
    · rintro ⟨h1, h2, h3⟩
      refine ⟨h1, h2, ?_⟩
      rw [hfs0 q, if_neg (hnotrepl h2)]
      exact h3
  have hform : ∀ item ∈ iterdir fs0 src', ∃ x : Name,
      item = src' ++ [x] ∧ relTo src' item = [x] ∧ find fs item ≠ none := by
    intro item hm
    obtain ⟨h1, h2, h3⟩ := mem_iterdir_iff.mp (hmem0.mp hm)
    refine ⟨item.getLast h1, child_eq_snoc h1 h2, ?_, h3⟩
    conv_lhs => rw [child_eq_snoc h1 h2]
    rw [relTo_append]
  rw [copy_folder_succ_ok k hmk]
  have hwf0 : wf fs0 := wf_mkdirP hwf hmk
  obtain ⟨c1, c2, c3⟩ := cfItems_fresh src' repl' fs k hrne hds hdr (iterdir fs0 src') fs0
    hwf0
    (by
      intro q hq
      rw [hfs0 q, if_neg]
      rintro rfl
      rw [hds] at hq
      cases hq)
    (by
      intro q hq
      rw [hfs0 q]
      by_cases hqe : q = repl'
      · rw [if_pos hqe]
      · rw [if_neg hqe]
        exact hanc q hq hqe)
    (by
      intro item hm
      obtain ⟨h1, h2, h3⟩ := mem_iterdir_iff.mp (hmem0.mp hm)
      exact ⟨h1, h2, h3⟩)
    (iterdir_nodup hwf0 src')
    (by
      intro item hm
      obtain ⟨x, hsn, hrel, _⟩ := hform item hm
      rw [hrel, hfs0, if_neg]
      · exact under_none hwf hempty hrne [x] (by simp)
      · intro he
        have := congrArg List.length he
        simp at this)
    (by
      intro hne
      obtain ⟨x, hx⟩ := List.exists_mem_of_ne_nil _ hne
      have h2 := hfl (List.ne_nil_of_mem (hmem0.mp hx))
      omega)
  have hout_items : ∀ item ∈ iterdir fs0 src',
      leP (repl' ++ relTo src' item) repl' = false := by
    intro item hm
    obtain ⟨x, hsn, hrel, _⟩ := hform item hm
    rw [hrel]
    exact leP_snoc_self repl' x
  have hrepl_dir : find (cfItems src' repl'
      (fun a b c => copy_folder k a b c src') (iterdir fs0 src') fs0).1 repl'
      = some .dir := by
    rw [c2 repl' hout_items, hfs0, if_pos rfl]
  refine ⟨hrepl_dir, ?_, ?_⟩
  · intro x
    have hrhs : find (cfItems src' repl'
        (fun a b c => copy_folder k a b c src') (iterdir fs0 src') fs0).1 (src' ++ [x])
        = find fs (src' ++ [x]) := c3 (src' ++ [x]) (leP_append _ _)
    rw [hrhs]
    rcases hex : find fs (src' ++ [x]) with _ | e
    · rw [c2 (repl' ++ [x]) ?_]
      · rw [hfs0, if_neg]
        · exact under_none hwf hempty hrne [x] (by simp)
        · intro he
          have := congrArg List.length he
          simp at this
      · intro item hm
        obtain ⟨y, hsn, hrel, hfind⟩ := hform item hm
        rw [hrel]
        refine leP_snoc_ne ?_
        rintro rfl
        rw [hsn, hex] at hfind
        exact hfind rfl
    · have hmem : (src' ++ [x]) ∈ iterdir fs0 src' := by
        rw [hmem0, mem_iterdir_iff]
        exact ⟨by simp, dropLast_snoc src' x, by simp [hex]⟩
      have := c1 (src' ++ [x]) hmem
      rw [relTo_append] at this
      rw [this, hex]
  · intro q hq
    exact c3 q hq

/-! ### One step of the recursion loop preserves the invariant -/

theorem LoopInv_step {fs fsc fs_next : FS} {src repl d : Path} {L' : List Path}
    {nm0 : Name}
    (hdisj : Disjoint2 src repl)
    (hinv : LoopInv fs src repl (d :: L') fsc)
    (hc0dir : find fs (src ++ [nm0]) = some .dir)
    (hd_under : leP (src ++ [nm0]) d = true)
    (hwfn : wf fs_next)
    (HF : ∀ q : Path, leP (repl ++ [nm0]) q = false → find fs_next q = find fsc q)
    (hpsi0 : Psi fs_next L' (src ++ [nm0]) (repl ++ [nm0])) :
    LoopInv fs src repl L' fs_next := by
  obtain ⟨hwfc, hrd, hpr, hfn, hpsi⟩ := hinv
  have hout_src : ∀ q : Path, leP src q = true → leP (repl ++ [nm0]) q = false :=
    fun q hq => leP_out_of_disjoint hdisj (leP_append repl [nm0]) hq
  have hpr' : ∀ q : Path, leP src q = true → find fs_next q = find fs q :=
    fun q hq => (HF q (hout_src q hq)).trans (hpr q hq)
  have hsnoc_out : ∀ nm : Name, nm ≠ nm0 → ∀ q : Path,
      leP (repl ++ [nm]) q = true → leP (repl ++ [nm0]) q = false := by
    intro nm hne q hq
    cases hc : leP (repl ++ [nm0]) q
    · rfl
    · exfalso
      rcases leP_total_of_common hq hc with h | h
      · rw [leP_snoc_ne hne] at h
        cases h
      · rw [leP_snoc_ne (fun hh => hne hh.symm)] at h
        cases h
  refine ⟨hwfn, ?_, hpr', ?_, ?_⟩
  · rw [HF repl (leP_snoc_self repl nm0)]
    exact hrd
  · intro nm
    constructor
    · intro b hbf
      by_cases hne : nm = nm0
      · rw [hne, hc0dir] at hbf
        cases hbf
      · rw [HF _ (hsnoc_out nm hne _ (leP_refl _))]
        exact (hfn nm).1 b hbf
    · intro hbn
      by_cases hne : nm = nm0
      · rw [hne, hc0dir] at hbn
        cases hbn
      · rw [HF _ (hsnoc_out nm hne _ (leP_refl _))]
        exact (hfn nm).2 hbn
  · intro nm hdirnm
    by_cases hne : nm = nm0
    · rw [hne]
      exact hpsi0
    · refine Psi_frame ?_ ?_ ?_ (hpsi nm hdirnm)
      · intro q hq
        exact HF q (hsnoc_out nm hne q hq)
      · intro q hq
        exact HF q (hout_src q (leP_trans (leP_append src [nm]) hq))
      · intro p hple hpm
        rcases List.mem_cons.mp hpm with rfl | hm
        · exfalso
          rcases leP_total_of_common hple hd_under with h | h
          · rw [leP_snoc_ne hne] at h
            cases h
          · rw [leP_snoc_ne (fun hh => hne hh.symm)] at h
            cases h
        · exact hm

theorem leP_false_of_length {p q : Path} (h : q.length < p.length) : leP p q = false := by
  cases hc : leP p q
  · rfl
  · exfalso
    have := leP_eq_of_length hc (by omega)
    rw [this] at h
    omega

theorem pres_repl_child_dirs {fsc : FS} {repl : Path} {nm0 : Name}
    (hwfc : wf fsc) (hrdir : find fsc repl = some .dir) :
    ∀ q ∈ pres (repl ++ [nm0]), q ≠ repl ++ [nm0] → find fsc q = some .dir := by
  intro q hq hne
  rcases leP_snoc (mem_pres.mp hq).2 with h | h
  · by_cases hqe : q = repl
    · rw [hqe]
      exact hrdir
    · exact wf_ancestors hwfc repl (by simp [hrdir]) q (ltP_of_leP_ne h hqe)
        (mem_pres.mp hq).1
  · exact absurd h hne

theorem chain_prefix_kind {fsc : FS} {repl : Path} {nm0 : Name} {tl : Path}
    (hwfc : wf fsc) (hrdir : find fsc repl = some .dir)
    (hCn : find fsc (repl ++ [nm0]) = none) :
    ∀ q ∈ pres (repl ++ nm0 :: tl), find fsc q = some .dir ∨ find fsc q = none := by
  intro q hq
  obtain ⟨hqne, hqle⟩ := mem_pres.mp hq
  have hrle : leP repl (repl ++ nm0 :: tl) = true := leP_append _ _
  rcases leP_total_of_common hqle hrle with h | h
  · left
    by_cases hqe : q = repl
    · rw [hqe]
      exact hrdir
    · exact wf_ancestors hwfc repl (by simp [hrdir]) q (ltP_of_leP_ne h hqe) hqne
  · obtain ⟨s, rfl⟩ := leP_iff.mp h
    rcases s with _ | ⟨x, s'⟩
    · left
      simpa using hrdir
    · right
      obtain ⟨t, ht⟩ := leP_iff.mp hqle
      rw [List.append_assoc] at ht
      have hcs := List.append_cancel_left ht
      simp only [List.cons_append, List.cons.injEq] at hcs
      obtain ⟨hx, _⟩ := hcs
      subst hx
      rcases s' with _ | ⟨y, s''⟩
      · simpa using hCn
      · rw [show repl ++ nm0 :: y :: s'' = (repl ++ [nm0]) ++ y :: s'' from by simp]
        exact under_none hwfc hCn (by simp) _ (by simp)

/-! ### The recursion loop of a normal pass mirrors every directory child -/

theorem Disjoint2_ext_right {src repl : Path} (h : Disjoint2 src repl) (b : Path) :
    Disjoint2 src (repl ++ b) := by
  have h2 := Disjoint2_ext h [] b
  simpa using h2

theorem sync_folder_flag (dsz : Path → Nat) (fsr : FS) :
    ∀ (fuel : Nat) (fs : FS) (src repl : Path),
    wf fs → Disjoint2 src repl →
    (∀ q : Path, leP src q = true → find fs q = find fsr q) →
    (∀ p q b, leP src q = true → find fsr q = some (.file b) → dsz p ≠ b.length) →
    (sync_folder dsz fuel fs src repl).2 = true := by
  intro fuel
  induction fuel with
  | zero => intro fs src repl _ _ _ _; rfl
  | succ n ih =>
    intro fs src repl hwf hdisj hpr hsz
    by_cases h1 : isDir fs src = true
    · by_cases h2 : pexists fs repl = true
      · by_cases h3 : isFile fs repl = true
        · rw [sync_folder_succ_conflict n h1 h2 h3]
        · rw [sync_folder_succ_normal n h1 h2 (by simpa using h3)]
          have hpr2 : ∀ q : Path, leP src q = true →
              find (remove_redundant_files (remove_redundant_folders fs repl
                ((get_all_folders fs src).map (fun d => build_path repl (relTo src d)))).1 repl
                ((get_all_files fs src).map (fun f => build_path repl (relTo src f)))).1 q
              = find fsr q := by
            intro q hq
            rw [prune_phases_src hwf hdisj _ _ q hq]
            exact hpr q hq
          have hr3flag : (sfFiles dsz src repl (get_all_files fs src)
              (remove_redundant_files (remove_redundant_folders fs repl
                ((get_all_folders fs src).map (fun d => build_path repl (relTo src d)))).1 repl
                ((get_all_files fs src).map (fun f => build_path repl (relTo src f)))).1).2
              = true := by
            refine sfFiles_flag dsz src repl hdisj fsr hsz (get_all_files fs src) _ ?_ hpr2
            intro f hf
            obtain ⟨hlt, hfile⟩ := mem_get_all_files_iff.mp hf
            refine ⟨hlt, ?_⟩
            rw [← isFile_congr (hpr f (leP_of_ltP hlt))]
            exact hfile
          rw [if_pos hr3flag]
          have hwf3 : wf (sfFiles dsz src repl (get_all_files fs src)
              (remove_redundant_files (remove_redundant_folders fs repl
                ((get_all_folders fs src).map (fun d => build_path repl (relTo src d)))).1 repl
                ((get_all_files fs src).map (fun f => build_path repl (relTo src f)))).1).1.1 :=
            wf_sfFiles _ _ (wf_remove_redundant_files
              (wf_remove_redundant_folders hwf repl _) repl _)
          have hpr3 : ∀ q : Path, leP src q = true →
              find (sfFiles dsz src repl (get_all_files fs src)
                (remove_redundant_files (remove_redundant_folders fs repl
                  ((get_all_folders fs src).map (fun d => build_path repl (relTo src d)))).1
                  repl
                  ((get_all_files fs src).map (fun f => build_path repl (relTo src f)))).1).1.1
                q = find fsr q := by
            intro q hq
            rw [sfFiles_pristine dsz src repl hdisj _ _ q hq]
            exact hpr2 q hq
          have hfolders_lt : ∀ d ∈ get_all_folders fs src, ltP src d = true :=
            fun d hd => (mem_get_all_folders_iff.mp hd).1
          have hloop : ∀ (L : List Path), (∀ d ∈ L, ltP src d = true) →
              ∀ fsx : FS, wf fsx →
              (∀ q : Path, leP src q = true → find fsx q = find fsr q) →
              (sfFolders src repl (fun a b c => sync_folder dsz n a b c) L fsx).2 = true := by
            intro L
            induction L with
            | nil => intro _ fsx _ _; rfl
            | cons d L2 ihL =>
              intro hL fsx hwfx hprx
              obtain ⟨rel, hrelne, hdeq⟩ := ltP_iff.mp (hL d (List.mem_cons_self d L2))
              subst hdeq
              have hbp : build_path repl (relTo src (src ++ rel)) = repl ++ rel := by
                rw [build_path, relTo_append]
              have hflag1 : (sync_folder dsz n fsx (src ++ rel) (repl ++ rel)).2 = true := by
                refine ih fsx (src ++ rel) (repl ++ rel) hwfx
                  (Disjoint2_ext hdisj rel rel) ?_ ?_
                · intro q hq
                  exact hprx q (leP_trans (leP_append src rel) hq)
                · intro p q b hq hb
                  exact hsz p q b (leP_trans (leP_append src rel) hq) hb
              rw [sfFolders_cons]
              rw [hbp, if_pos hflag1]
              show (sfFolders src repl (fun a b c => sync_folder dsz n a b c) L2
                (sync_folder dsz n fsx (src ++ rel) (repl ++ rel)).1.1).2 = true
              refine ihL (fun d' hd' => hL d' (List.mem_cons_of_mem _ hd')) _
                (wf_sync_folder dsz n fsx _ _ hwfx) ?_
              intro q hq
              rw [SameOutside_src_untouched (Disjoint2_ext_right hdisj rel)
                (sync_folder_SameOutside dsz n fsx (src ++ rel) (repl ++ rel)) q hq]
              exact hprx q hq
          exact hloop (get_all_folders fs src) hfolders_lt _ hwf3 hpr3
      · rw [sync_folder_succ_fresh n h1 (by simpa using h2)]
    · rw [sync_folder_src_not_dir dsz (n + 1) fs src repl (by simpa using h1)]

theorem sfFolders_mirror (dsz : Path → Nat)
    (fs : FS) (src repl : Path) (H G : Nat)
    (hwf0 : wf fs) (hdisj : Disjoint2 src repl)
    (hH : HeightLe fs src H) (hG : H + 1 ≤ G)
    (hsz : ∀ p q b, leP src q = true → find fs q = some (.file b) → dsz p ≠ b.length)
    (oracle : ∀ H' : Nat, H' < H → ∀ (fuel' : Nat) (fs' : FS) (s' r' : Path),
      wf fs' → Disjoint2 s' r' → find fs' s' = some .dir → find fs' r' = some .dir →
      HeightLe fs' s' H' → H' + 2 ≤ fuel' →
      (∀ p q b, leP s' q = true → find fs' q = some (.file b) → dsz p ≠ b.length) →
      MirrorAt (sync_folder dsz fuel' fs' s' r').1.1 s' r') :
    ∀ (L : List Path) (fsc : FS),
      (∀ d' ∈ L, ltP src d' = true ∧ find fs d' = some .dir) →
      LoopInv fs src repl L fsc →
      LoopInv fs src repl []
        (sfFolders src repl (fun a b c => sync_folder dsz G a b c) L fsc).1.1 := by
  intro L
  induction L with
  | nil =>
    intro fsc _ hinv
    exact hinv
  | cons d L' ih =>
    intro fsc hL hinv
    have hwfc : wf fsc := hinv.1
    have hrdir : find fsc repl = some .dir := hinv.2.1
    have hpr : ∀ q : Path, leP src q = true → find fsc q = find fs q := hinv.2.2.1
    have hpsi := hinv.2.2.2.2
    obtain ⟨hlt_d, hdir_d⟩ := hL d (List.mem_cons_self d L')
    obtain ⟨rel, hrelne, hdeq⟩ := ltP_iff.mp hlt_d
    subst hdeq
    rcases rel with _ | ⟨nm0, tl⟩
    · exact absurd rfl hrelne
    have hc0dir : find fs (src ++ [nm0]) = some .dir := by
      rcases tl with _ | ⟨nm1, tl2⟩
      · exact hdir_d
      · refine wf_ancestors hwf0 (src ++ nm0 :: nm1 :: tl2) (by simp [hdir_d])
          (src ++ [nm0]) ?_ (by simp)
        rw [show src ++ nm0 :: nm1 :: tl2 = (src ++ [nm0]) ++ nm1 :: tl2 from by simp]
        exact ltP_append_ne (by simp)
    have hc0dir_fsc : find fsc (src ++ [nm0]) = some .dir :=
      (hpr _ (leP_append _ _)).trans hc0dir
    have hbp : build_path repl (relTo src (src ++ nm0 :: tl)) = repl ++ nm0 :: tl := by
      rw [build_path, relTo_append]
    have hd_under : leP (src ++ [nm0]) (src ++ nm0 :: tl) = true := by
      rw [show src ++ nm0 :: tl = (src ++ [nm0]) ++ tl from by simp]
      exact leP_append _ _
    have hrd_under : leP (repl ++ [nm0]) (repl ++ nm0 :: tl) = true := by
      rw [show repl ++ nm0 :: tl = (repl ++ [nm0]) ++ tl from by simp]
      exact leP_append _ _
    have hd_fsc : find fsc (src ++ nm0 :: tl) = some .dir :=
      (hpr _ (leP_of_ltP hlt_d)).trans hdir_d
    have hd_isdir : isDir fsc (src ++ nm0 :: tl) = true := isDir_iff.mpr hd_fsc
    have hflag1 : (sync_folder dsz G fsc (src ++ nm0 :: tl) (repl ++ nm0 :: tl)).2
        = true := by
      refine sync_folder_flag dsz fs G fsc (src ++ nm0 :: tl) (repl ++ nm0 :: tl) hwfc
        (Disjoint2_ext hdisj (nm0 :: tl) (nm0 :: tl)) ?_ ?_
      · intro q hq
        exact hpr q (leP_trans (leP_append src (nm0 :: tl)) hq)
      · intro p q b hq hb
        exact hsz p q b (leP_trans (leP_append src (nm0 :: tl)) hq) hb
    rw [sfFolders_cons]
    rw [hbp]
    rw [if_pos hflag1]
    have hwfn : wf (sync_folder dsz G fsc (src ++ nm0 :: tl) (repl ++ nm0 :: tl)).1.1 :=
      wf_sync_folder dsz G fsc _ _ hwfc
    have hso : SameOutside (repl ++ nm0 :: tl) fsc
        (sync_folder dsz G fsc (src ++ nm0 :: tl) (repl ++ nm0 :: tl)).1.1 :=
      sync_folder_SameOutside dsz G fsc _ _
    have HF : ∀ q : Path, leP (repl ++ [nm0]) q = false →
        find (sync_folder dsz G fsc (src ++ nm0 :: tl) (repl ++ nm0 :: tl)).1.1 q
          = find fsc q :=
      frame_child hwfc hwfn hrdir hrd_under hso
    have hH1 : 1 ≤ H := by
      have := hH (src ++ [nm0]) (leP_append _ _) (by simp [hc0dir])
      rw [List.length_append] at this
      simp at this
      omega
    have hout_src_q : ∀ t q : Path, leP repl t = true → leP src q = true →
        leP t q = false := fun t q h1 h2 => leP_out_of_disjoint hdisj h1 h2
    have horacle : find fsc (repl ++ [nm0]) = some .dir →
        MirrorAt (sync_folder dsz G fsc (src ++ [nm0]) (repl ++ [nm0])).1.1
          (src ++ [nm0]) (repl ++ [nm0]) := by
      intro hrc0
      refine oracle (H - 1) (by omega) G fsc (src ++ [nm0]) (repl ++ [nm0]) hwfc
        (Disjoint2_ext hdisj [nm0] [nm0]) hc0dir_fsc hrc0 ?_ (by omega) ?_
      · intro q hq hf
        have hq' : leP src q = true := leP_trans (leP_append src [nm0]) hq
        have hf' : find fs q ≠ none := by
          rw [← hpr q hq']
          exact hf
        have h2 := hH q hq' hf'
        rw [List.length_append]
        simp
        omega
      · intro p q b hq hb
        have hq' : leP src q = true := leP_trans (leP_append src [nm0]) hq
        refine hsz p q b hq' ?_
        rw [← hpr q hq']
        exact hb
    refine ih _ (fun d' hd' => hL d' (List.mem_cons_of_mem _ hd')) ?_
    refine LoopInv_step hdisj hinv hc0dir hd_under hwfn HF ?_
    rcases hpsi nm0 hc0dir with hA | ⟨hBm, hBd⟩ | ⟨hCm, hCn, hC3⟩ | ⟨hDd, hDl1, hDgr⟩
    · -- already mirrored: the call is a fixed point
      have hmird : MirrorAt fsc (src ++ nm0 :: tl) (repl ++ nm0 :: tl) := by
        rcases tl with _ | ⟨nm1, tl2⟩
        · exact hA
        · have hsub := @MirrorAt_sub fsc (src ++ [nm0]) (repl ++ [nm0])
            (nm1 :: tl2) hA (by simp) (by
            rw [show (src ++ [nm0]) ++ nm1 :: tl2 = src ++ nm0 :: nm1 :: tl2 from by simp]
            exact hd_fsc)
          rw [show (src ++ [nm0]) ++ nm1 :: tl2 = src ++ nm0 :: nm1 :: tl2 from by simp,
            show (repl ++ [nm0]) ++ nm1 :: tl2 = repl ++ nm0 :: nm1 :: tl2 from by simp]
            at hsub
          exact hsub
      have hstab := sync_folder_stable dsz G fsc (src ++ nm0 :: tl) (repl ++ nm0 :: tl)
        hwfc (Disjoint2_ext hdisj (nm0 :: tl) (nm0 :: tl)) hd_isdir hmird
      have hfse : (sync_folder dsz G fsc (src ++ nm0 :: tl) (repl ++ nm0 :: tl)).1.1 = fsc := by
        rw [hstab]
      rw [hfse]
      exact Or.inl hA
    · -- unprocessed child with an existing replica directory
      rcases tl with _ | ⟨nm1, tl2⟩
      · exact Or.inl (horacle hBd)
      · refine Or.inr (Or.inl ⟨?_, ?_⟩)
        · rcases List.mem_cons.mp hBm with he | hm
          · exfalso
            have := congrArg List.length he
            simp at this
          · exact hm
        · have hlen : (repl ++ [nm0]).length < (repl ++ nm0 :: nm1 :: tl2).length := by
            simp
          rcases hso (repl ++ [nm0]) (leP_false_of_length hlen) with heq | ⟨_, hnone, _⟩
          · rw [heq]
            exact hBd
          · rw [hBd] at hnone
            cases hnone
    · -- unprocessed child with no replica yet: a fresh copy runs
      obtain ⟨m, rfl⟩ : ∃ m, G = m + 1 := by
        rcases G with _ | m
        · exact absurd hG (by omega)
        · exact ⟨m, rfl⟩
      have hm_ge : H ≤ m := by omega
      rcases tl with _ | ⟨nm1, tl2⟩
      · -- the child itself: the fresh copy gets one level right (case D)
        have hfr_eq : sync_folder dsz (m + 1) fsc (src ++ [nm0]) (repl ++ [nm0]) =
            (copy_folder m fsc (src ++ [nm0]) (repl ++ [nm0]) (src ++ [nm0]), true) :=
          sync_folder_succ_fresh m hd_isdir (pexists_eq_false.mpr hCn)
        rw [hfr_eq]
        have hdisj0 := Disjoint2_ext hdisj [nm0] [nm0]
        obtain ⟨hfdir, hfl1, hfpr⟩ := @copy_folder_fresh fsc (src ++ [nm0])
          (repl ++ [nm0]) m hwfc (by simp)
          hdisj0.1 hdisj0.2 hc0dir_fsc hCn
          (fun q hq hne => pres_repl_child_dirs hwfc hrdir q hq hne)
          (by
            intro hne
            obtain ⟨x, hx⟩ := List.exists_mem_of_ne_nil _ hne
            obtain ⟨h1, h2, h3⟩ := mem_iterdir_iff.mp hx
            have hxle : leP src x = true := by
              refine leP_trans (leP_append src [nm0]) ?_
              rw [child_eq_snoc h1 h2]
              exact leP_append _ _
            have hf' : find fs x ≠ none := by
              rw [← hpr x hxle]
              exact h3
            have hb := hH x hxle hf'
            have hlx := length_of_child h1 h2
            rw [List.length_append] at hlx
            simp at hlx
            omega)
          (by omega)
        refine Or.inr (Or.inr (Or.inr ⟨hfdir, hfl1, ?_⟩))
        intro nm' hnm'
        have hsrcval : find fsc ((src ++ [nm0]) ++ [nm']) = some .dir := by
          rw [← hfpr _ (leP_append _ _)]
          exact hnm'
        right
        constructor
        · have hgmem := hC3 ((src ++ [nm0]) ++ [nm'])
            (ltP_append_ne (by simp)) (isDir_iff.mpr hsrcval)
          rcases List.mem_cons.mp hgmem with he | hm
          · exfalso
            have := congrArg List.length he
            simp at this
          · exact hm
        · rw [hfl1 nm']
          exact hnm'
      · -- a deeper descendant: its fresh copy creates the missing chain (case B)
        have hH2 : 2 ≤ H := by
          have := hH (src ++ nm0 :: nm1 :: tl2) (leP_append _ _) (by simp [hdir_d])
          rw [List.length_append] at this
          simp at this
          omega
        have hrd_none : find fsc (repl ++ nm0 :: nm1 :: tl2) = none := by
          rw [show repl ++ nm0 :: nm1 :: tl2 = (repl ++ [nm0]) ++ nm1 :: tl2 from by simp]
          exact under_none hwfc hCn (by simp) _ (by simp)
        have hfr_eq : sync_folder dsz (m + 1) fsc (src ++ nm0 :: nm1 :: tl2)
            (repl ++ nm0 :: nm1 :: tl2) =
            (copy_folder m fsc (src ++ nm0 :: nm1 :: tl2) (repl ++ nm0 :: nm1 :: tl2)
              (src ++ nm0 :: nm1 :: tl2), true) :=
          sync_folder_succ_fresh m hd_isdir (pexists_eq_false.mpr hrd_none)
        rw [hfr_eq]
        obtain ⟨fsm, hmk⟩ : ∃ fsm, mkdirP fsc (repl ++ nm0 :: nm1 :: tl2) = some fsm := by
          refine mkdirP_succeeds ?_
          intro q hq
          rcases chain_prefix_kind hwfc hrdir hCn q hq with h | h <;> simp [isFile, h]
        obtain ⟨k, rfl⟩ : ∃ k, m = k + 1 := by
          rcases m with _ | k
          · exact absurd hm_ge (by omega)
          · exact ⟨k, rfl⟩
        refine Or.inr (Or.inl ⟨?_, ?_⟩)
        · rcases List.mem_cons.mp hCm with he | hm
          · exfalso
            have := congrArg List.length he
            simp at this
          · exact hm
        · exact copy_folder_chain k hmk (repl ++ [nm0])
            (mem_pres.mpr ⟨by simp, hrd_under⟩)
    · -- a previously fresh-copied child (case D is maintained)
      rcases tl with _ | ⟨nm1, tl2⟩
      · exact Or.inl (horacle hDd)
      · have hg0dir_fsc : find fsc ((src ++ [nm0]) ++ [nm1]) = some .dir := by
          rcases tl2 with _ | ⟨nm2, tl3⟩
          · rw [show (src ++ [nm0]) ++ [nm1] = src ++ nm0 :: nm1 :: ([] : Path) from by simp]
            exact hd_fsc
          · refine wf_ancestors hwfc (src ++ nm0 :: nm1 :: nm2 :: tl3)
              (by simp [hd_fsc]) ((src ++ [nm0]) ++ [nm1]) ?_ (by simp)
            rw [show src ++ nm0 :: nm1 :: nm2 :: tl3 =
              ((src ++ [nm0]) ++ [nm1]) ++ nm2 :: tl3 from by simp]
            exact ltP_append_ne (by simp)
        have hgr := hDgr nm1 hg0dir_fsc
        have hrg_under : leP ((repl ++ [nm0]) ++ [nm1]) (repl ++ nm0 :: nm1 :: tl2)
            = true := by
          rw [show repl ++ nm0 :: nm1 :: tl2 =
            ((repl ++ [nm0]) ++ [nm1]) ++ tl2 from by simp]
          exact leP_append _ _
        have HF2 : ∀ q : Path, leP ((repl ++ [nm0]) ++ [nm1]) q = false →
            find (sync_folder dsz G fsc (src ++ nm0 :: nm1 :: tl2)
              (repl ++ nm0 :: nm1 :: tl2)).1.1 q = find fsc q :=
          frame_child hwfc hwfn hDd hrg_under hso
        have hout_rg_src : ∀ q : Path, leP src q = true →
            leP ((repl ++ [nm0]) ++ [nm1]) q = false := by
          intro q hq
          refine hout_src_q _ q ?_ hq
          exact leP_trans (leP_append repl [nm0]) (leP_append _ _)
        have hrc0_keep : find (sync_folder dsz G fsc (src ++ nm0 :: nm1 :: tl2)
            (repl ++ nm0 :: nm1 :: tl2)).1.1 (repl ++ [nm0]) = some .dir := by
          rw [HF2 _ (leP_false_of_length (by simp))]
          exact hDd
        rcases hgr with hgmir | ⟨hg0m, hg0d⟩
        · -- the grandchild subtree is already mirrored: the call is a fixed point
          have hmird : MirrorAt fsc (src ++ nm0 :: nm1 :: tl2)
              (repl ++ nm0 :: nm1 :: tl2) := by
            rcases tl2 with _ | ⟨nm2, tl3⟩
            · rw [show src ++ nm0 :: nm1 :: ([] : Path) =
                (src ++ [nm0]) ++ [nm1] from by simp,
                show repl ++ nm0 :: nm1 :: ([] : Path) =
                (repl ++ [nm0]) ++ [nm1] from by simp]
              exact hgmir
            · have hsub := @MirrorAt_sub fsc ((src ++ [nm0]) ++ [nm1])
                ((repl ++ [nm0]) ++ [nm1]) (nm2 :: tl3) hgmir (by simp) (by
                rw [show ((src ++ [nm0]) ++ [nm1]) ++ nm2 :: tl3 =
                  src ++ nm0 :: nm1 :: nm2 :: tl3 from by simp]
                exact hd_fsc)
              rw [show ((src ++ [nm0]) ++ [nm1]) ++ nm2 :: tl3 =
                src ++ nm0 :: nm1 :: nm2 :: tl3 from by simp,
                show ((repl ++ [nm0]) ++ [nm1]) ++ nm2 :: tl3 =
                repl ++ nm0 :: nm1 :: nm2 :: tl3 from by simp] at hsub
              exact hsub
          have hstab := sync_folder_stable dsz G fsc (src ++ nm0 :: nm1 :: tl2)
            (repl ++ nm0 :: nm1 :: tl2) hwfc
            (Disjoint2_ext hdisj (nm0 :: nm1 :: tl2) (nm0 :: nm1 :: tl2))
            hd_isdir hmird
          have hfse : (sync_folder dsz G fsc (src ++ nm0 :: nm1 :: tl2)
              (repl ++ nm0 :: nm1 :: tl2)).1.1 = fsc := by
            rw [hstab]
          rw [hfse]
          refine Or.inr (Or.inr (Or.inr ⟨hDd, hDl1, ?_⟩))
          intro nm' hnm'
          by_cases hx : nm' = nm1
          · rw [hx]
            exact Or.inl hgmir
          · rcases hDgr nm' hnm' with hm2 | ⟨hm3, hv3⟩
            · exact Or.inl hm2
            · refine Or.inr ⟨?_, hv3⟩
              rcases List.mem_cons.mp hm3 with he | hm
              · exfalso
                have hc := List.append_cancel_left
                  (he.trans (show src ++ nm0 :: nm1 :: tl2 =
                    (src ++ [nm0]) ++ nm1 :: tl2 from by simp))
                simp only [List.cons.injEq] at hc
                exact hx hc.1
              · exact hm
        · -- the grandchild is still pending, its replica directory exists
          rcases tl2 with _ | ⟨nm2, tl3⟩
          · -- the call is exactly the grandchild: the oracle mirrors it
            have hH2 : 2 ≤ H := by
              have := hH (src ++ nm0 :: nm1 :: ([] : Path)) (leP_append _ _)
                (by simp [hdir_d])
              rw [List.length_append] at this
              simp at this
              omega
            have heqs : src ++ nm0 :: nm1 :: ([] : Path) = (src ++ [nm0]) ++ [nm1] := by
              simp
            have heqr : repl ++ nm0 :: nm1 :: ([] : Path) = (repl ++ [nm0]) ++ [nm1] := by
              simp
            have hmir : MirrorAt (sync_folder dsz G fsc (src ++ nm0 :: nm1 :: ([] : Path))
                (repl ++ nm0 :: nm1 :: ([] : Path))).1.1
                ((src ++ [nm0]) ++ [nm1]) ((repl ++ [nm0]) ++ [nm1]) := by
              rw [heqs, heqr]
              refine oracle (H - 2) (by omega) G fsc ((src ++ [nm0]) ++ [nm1])
                ((repl ++ [nm0]) ++ [nm1]) hwfc ?_ ?_ hg0d ?_ (by omega) ?_
              · have := Disjoint2_ext hdisj [nm0, nm1] [nm0, nm1]
                rw [show src ++ [nm0, nm1] = (src ++ [nm0]) ++ [nm1] from by simp,
                  show repl ++ [nm0, nm1] = (repl ++ [nm0]) ++ [nm1] from by simp] at this
                exact this
              · exact hg0dir_fsc
              · intro q hq hf
                have hq' : leP src q = true :=
                  leP_trans (leP_trans (leP_append src [nm0]) (leP_append _ _)) hq
                have hf' : find fs q ≠ none := by
                  rw [← hpr q hq']
                  exact hf
                have h2 := hH q hq' hf'
                rw [List.length_append, List.length_append]
                simp
                omega
              · intro p q b hq hb
                have hq' : leP src q = true :=
                  leP_trans (leP_trans (leP_append src [nm0]) (leP_append _ _)) hq
                refine hsz p q b hq' ?_
                rw [← hpr q hq']
                exact hb
            refine Or.inr (Or.inr (Or.inr ⟨hrc0_keep, ?_, ?_⟩))
            · intro x
              by_cases hx : x = nm1
              · rw [hx]
                have h1 : find (sync_folder dsz G fsc (src ++ nm0 :: nm1 :: ([] : Path))
                    (repl ++ nm0 :: nm1 :: ([] : Path))).1.1 ((repl ++ [nm0]) ++ [nm1])
                    = some .dir := hmir.1
                have h2 : find (sync_folder dsz G fsc (src ++ nm0 :: nm1 :: ([] : Path))
                    (repl ++ nm0 :: nm1 :: ([] : Path))).1.1 ((src ++ [nm0]) ++ [nm1])
                    = some .dir := by
                  rw [HF2 _ (hout_rg_src _ (leP_trans (leP_append src [nm0])
                    (leP_append _ _)))]
                  exact hg0dir_fsc
                rw [h1, h2]
              · rw [HF2 _ (leP_snoc_ne (fun hh => hx hh.symm)),
                  HF2 _ (hout_rg_src _ (leP_trans (leP_append src [nm0])
                    (leP_append _ _)))]
                exact hDl1 x
            · intro nm' hnm'
              have hsv : find fsc ((src ++ [nm0]) ++ [nm']) = some .dir := by
                rw [← HF2 _ (hout_rg_src _ (leP_trans (leP_append src [nm0])
                  (leP_append _ _)))]
                exact hnm'
              by_cases hx : nm' = nm1
              · rw [hx]
                exact Or.inl hmir
              · rcases hDgr nm' hsv with hm2 | ⟨hm3, hv3⟩
                · refine Or.inl (MirrorAt_congr ?_ ?_ hm2)
                  · intro q hq
                    refine HF2 q ?_
                    cases hc : leP ((repl ++ [nm0]) ++ [nm1]) q
                    · rfl
                    · exfalso
                      rcases leP_total_of_common hq hc with h | h
                      · rw [leP_snoc_ne hx] at h
                        cases h
                      · rw [leP_snoc_ne (fun hh => hx hh.symm)] at h
                        cases h
                  · intro q hq
                    exact HF2 q (hout_rg_src q
                      (leP_trans (leP_trans (leP_append src [nm0]) (leP_append _ _)) hq))
                · refine Or.inr ⟨?_, ?_⟩
                  · rcases List.mem_cons.mp hm3 with he | hm
                    · exfalso
                      have hc := List.append_cancel_left
                        (he.trans (show src ++ nm0 :: nm1 :: ([] : Path) =
                          (src ++ [nm0]) ++ nm1 :: ([] : Path) from by simp))
                      simp only [List.cons.injEq] at hc
                      exact hx hc.1
                    · exact hm
                  · rw [HF2 _ (leP_snoc_ne (fun hh => hx hh.symm))]
                    exact hv3
          · -- the call runs strictly below the grandchild's replica directory
            have hrg_keep : find (sync_folder dsz G fsc (src ++ nm0 :: nm1 :: nm2 :: tl3)
                (repl ++ nm0 :: nm1 :: nm2 :: tl3)).1.1 ((repl ++ [nm0]) ++ [nm1])
                = some .dir := by
              have hlen : ((repl ++ [nm0]) ++ [nm1]).length <
                  (repl ++ nm0 :: nm1 :: nm2 :: tl3).length := by
                simp
              rcases hso ((repl ++ [nm0]) ++ [nm1]) (leP_false_of_length hlen)
                with heq | ⟨_, hnone, _⟩
              · rw [heq]
                exact hg0d
              · rw [hg0d] at hnone
                cases hnone
            refine Or.inr (Or.inr (Or.inr ⟨hrc0_keep, ?_, ?_⟩))
            · intro x
              by_cases hx : x = nm1
              · rw [hx, hrg_keep]
                rw [HF2 _ (hout_rg_src _ (leP_trans (leP_append src [nm0])
                  (leP_append _ _)))]
                exact hg0dir_fsc.symm ▸ hg0dir_fsc
              · rw [HF2 _ (leP_snoc_ne (fun hh => hx hh.symm)),
                  HF2 _ (hout_rg_src _ (leP_trans (leP_append src [nm0])
                    (leP_append _ _)))]
                exact hDl1 x
            · intro nm' hnm'
              have hsv : find fsc ((src ++ [nm0]) ++ [nm']) = some .dir := by
                rw [← HF2 _ (hout_rg_src _ (leP_trans (leP_append src [nm0])
                  (leP_append _ _)))]
                exact hnm'
              by_cases hx : nm' = nm1
              · rw [hx]
                refine Or.inr ⟨?_, hrg_keep⟩
                rcases List.mem_cons.mp hg0m with he | hm
                · exfalso
                  have := congrArg List.length he
                  simp at this
                · exact hm
              · rcases hDgr nm' hsv with hm2 | ⟨hm3, hv3⟩
                · refine Or.inl (MirrorAt_congr ?_ ?_ hm2)
                  · intro q hq
                    refine HF2 q ?_
                    cases hc : leP ((repl ++ [nm0]) ++ [nm1]) q
                    · rfl
                    · exfalso
                      rcases leP_total_of_common hq hc with h | h
                      · rw [leP_snoc_ne hx] at h
                        cases h
                      · rw [leP_snoc_ne (fun hh => hx hh.symm)] at h
                        cases h
                  · intro q hq
                    exact HF2 q (hout_rg_src q
                      (leP_trans (leP_trans (leP_append src [nm0]) (leP_append _ _)) hq))
                · refine Or.inr ⟨?_, ?_⟩
                  · rcases List.mem_cons.mp hm3 with he | hm
                    · exfalso
                      have hc := List.append_cancel_left
                        (he.trans (show src ++ nm0 :: nm1 :: nm2 :: tl3 =
                          (src ++ [nm0]) ++ nm1 :: nm2 :: tl3 from by simp))
                      simp only [List.cons.injEq] at hc
                      exact hx hc.1
                    · exact hm
                  · rw [HF2 _ (leP_snoc_ne (fun hh => hx hh.symm))]
                    exact hv3

/-! ### Assembling the mirror from the finished loop invariant -/

theorem MirrorAt_of_loopinv {fs fse : FS} {src repl : Path}
    (hinv : LoopInv fs src repl [] fse) :
    MirrorAt fse src repl := by
  obtain ⟨hwfe, hrd, hpr, hfn, hpsi⟩ := hinv
  refine ⟨hrd, ?_⟩
  intro rel hrel
  rcases rel with _ | ⟨nm, rel'⟩
  · exact absurd rfl hrel
  have hassocr : repl ++ nm :: rel' = (repl ++ [nm]) ++ rel' := by simp
  have hassocs : src ++ nm :: rel' = (src ++ [nm]) ++ rel' := by simp
  rcases hsv : find fs (src ++ [nm]) with _ | e
  · have hslot : find fse (repl ++ [nm]) = none := (hfn nm).2 hsv
    have hsrc_e : find fse (src ++ [nm]) = none := by
      rw [hpr _ (leP_append _ _)]
      exact hsv
    rcases rel' with _ | ⟨y, rel''⟩
    · rw [hslot, hsrc_e]
    · rw [hassocr, hassocs,
        under_none hwfe hslot (by simp) (y :: rel'') (by simp),
        under_none hwfe hsrc_e (by simp) (y :: rel'') (by simp)]
  · rcases e with b | _
    · have hslot : find fse (repl ++ [nm]) = some (.file b) := (hfn nm).1 b hsv
      have hsrc_e : find fse (src ++ [nm]) = some (.file b) := by
        rw [hpr _ (leP_append _ _)]
        exact hsv
      rcases rel' with _ | ⟨y, rel''⟩
      · rw [hslot, hsrc_e]
      · rw [hassocr, hassocs,
          under_file hwfe hslot (y :: rel'') (by simp),
          under_file hwfe hsrc_e (y :: rel'') (by simp)]
    · have hmir : MirrorAt fse (src ++ [nm]) (repl ++ [nm]) := by
        rcases hpsi nm hsv with h | ⟨hm, _⟩ | ⟨hm, _, _⟩ | ⟨hd, hl1, hgr⟩
        · exact h
        · simp at hm
        · simp at hm
        · refine MirrorAt_of_level1 hwfe hd hl1 ?_
          intro x hx
          rcases hgr x hx with h | ⟨hm, _⟩
          · exact h
          · simp at hm
      rcases rel' with _ | ⟨y, rel''⟩
      · rw [hmir.1, hpr _ (leP_append _ _), hsv]
      · rw [hassocr, hassocs]
        exact hmir.2 (y :: rel'') (by simp)

theorem ltP_of_le_lt {p q r : Path} (h1 : leP p q = true) (h2 : ltP q r = true) :
    ltP p r = true := by
  unfold ltP at h2 ⊢
  rw [Bool.and_eq_true] at h2 ⊢
  obtain ⟨h2a, h2b⟩ := h2
  obtain ⟨s, rfl⟩ := leP_iff.mp h1
  refine ⟨leP_trans h1 h2a, ?_⟩
  simp only [decide_eq_true_eq] at h2b ⊢
  rw [List.length_append] at h2b
  omega

/-! ### The mirror invariant of one normal-case pass -/

theorem sync_folder_mirror (dsz : Path → Nat) :
    ∀ H : Nat, ∀ (fuel : Nat) (fs : FS) (src repl : Path),
    wf fs → Disjoint2 src repl → find fs src = some .dir → find fs repl = some .dir →
    HeightLe fs src H → H + 2 ≤ fuel →
    (∀ p q b, leP src q = true → find fs q = some (.file b) → dsz p ≠ b.length) →
    (sync_folder dsz fuel fs src repl).2 = true ∧
      MirrorAt (sync_folder dsz fuel fs src repl).1.1 src repl := by
  intro H
  induction H using Nat.strong_induction_on with
  | _ H ih =>
    intro fuel fs src repl hwf hdisj hsrc hrepl hH hfuel hsz
    refine ⟨sync_folder_flag dsz fs fuel fs src repl hwf hdisj (fun q _ => rfl) hsz, ?_⟩
    obtain ⟨F, rfl⟩ : ∃ F, fuel = F + 1 := ⟨fuel - 1, by omega⟩
    have hsrcd : isDir fs src = true := isDir_iff.mpr hsrc
    have hpex : pexists fs repl = true := by simp [pexists, hrepl]
    have hnf : isFile fs repl = false := by simp [isFile, hrepl]
    rw [sync_folder_succ_normal F hsrcd hpex hnf]
    have hwf2 : wf (remove_redundant_files (remove_redundant_folders fs repl
        ((get_all_folders fs src).map (fun d => build_path repl (relTo src d)))).1 repl
        ((get_all_files fs src).map (fun f => build_path repl (relTo src f)))).1 :=
      wf_remove_redundant_files (wf_remove_redundant_folders hwf repl _) repl _
    have hfiles_lt : ∀ f ∈ get_all_files fs src, ltP src f = true :=
      fun f hf => (mem_get_all_files_iff.mp hf).1
    have hfiles_chr : ∀ f ∈ get_all_files fs src, ltP src f = true ∧ isFile fs f = true :=
      fun f hf => mem_get_all_files_iff.mp hf
    have hpr2 : ∀ q : Path, leP src q = true →
        find (remove_redundant_files (remove_redundant_folders fs repl
          ((get_all_folders fs src).map (fun d => build_path repl (relTo src d)))).1 repl
          ((get_all_files fs src).map (fun f => build_path repl (relTo src f)))).1 q
          = find fs q :=
      fun q hq => prune_phases_src hwf hdisj _ _ q hq
    have hrepl2 : find (remove_redundant_files (remove_redundant_folders fs repl
        ((get_all_folders fs src).map (fun d => build_path repl (relTo src d)))).1 repl
        ((get_all_files fs src).map (fun f => build_path repl (relTo src f)))).1 repl
        = some .dir :=
      (prune_phases_repl hwf hdisj _ _).trans hrepl
    have hr3flag : (sfFiles dsz src repl (get_all_files fs src)
        (remove_redundant_files (remove_redundant_folders fs repl
          ((get_all_folders fs src).map (fun d => build_path repl (relTo src d)))).1 repl
          ((get_all_files fs src).map (fun f => build_path repl (relTo src f)))).1).2
        = true :=
      sfFiles_flag dsz src repl hdisj fs hsz (get_all_files fs src) _ hfiles_chr hpr2
    rw [if_pos hr3flag]
    have hinv0 : LoopInv fs src repl (get_all_folders fs src)
        (sfFiles dsz src repl (get_all_files fs src)
          (remove_redundant_files (remove_redundant_folders fs repl
            ((get_all_folders fs src).map (fun d => build_path repl (relTo src d)))).1 repl
            ((get_all_files fs src).map (fun f => build_path repl (relTo src f)))).1).1.1 := by
      refine ⟨wf_sfFiles _ _ hwf2, ?_, ?_, ?_, ?_⟩
      · rw [sfFiles_keep dsz src repl _ _ repl ?_]
        · exact hrepl2
        · intro f hf he
          have hrt := relTo_ne_nil (hfiles_lt f hf)
          rw [build_path] at he
          have hlen := congrArg List.length he
          rw [List.length_append] at hlen
          exact hrt (List.eq_nil_of_length_eq_zero (by omega))
      · intro q hq
        rw [sfFiles_pristine dsz src repl hdisj _ _ q hq]
        exact hpr2 q hq
      · intro nm
        constructor
        · intro b hbf
          refine sfFiles_slot dsz src repl hdisj fs nm b hbf _ _ hfiles_lt
            (get_all_files_nodup hwf src) hpr2 hrepl2 ?_ ?_ hr3flag
          · exact mem_get_all_files_iff.mpr ⟨ltP_append_ne (by simp),
              isFile_iff.mpr ⟨b, hbf⟩⟩
          · exact prune_phases_slot_file hwf hbf
        · intro hbn
          rw [sfFiles_slot_other dsz src repl (by simp [isFile, hbn]) _ _ hfiles_chr]
          exact prune_phases_slot_none hwf hbn
      · intro nm hnm
        have hslot3 : find (sfFiles dsz src repl (get_all_files fs src)
            (remove_redundant_files (remove_redundant_folders fs repl
              ((get_all_folders fs src).map (fun d => build_path repl (relTo src d)))).1 repl
              ((get_all_files fs src).map (fun f => build_path repl (relTo src f)))).1).1.1
            (repl ++ [nm]) =
            find (remove_redundant_files (remove_redundant_folders fs repl
              ((get_all_folders fs src).map (fun d => build_path repl (relTo src d)))).1 repl
              ((get_all_files fs src).map (fun f => build_path repl (relTo src f)))).1
            (repl ++ [nm]) :=
          sfFiles_slot_other dsz src repl (by simp [isFile, hnm]) _ _ hfiles_chr
        have hmemf : (src ++ [nm]) ∈ get_all_folders fs src :=
          mem_get_all_folders_iff.mpr ⟨ltP_append_ne (by simp), isDir_iff.mpr hnm⟩
        by_cases hfr : find fs (repl ++ [nm]) = some .dir
        · refine Or.inr (Or.inl ⟨hmemf, ?_⟩)
          rw [hslot3]
          exact ((prune_phases_slot_dir hwf hnm).1 hfr).1
        · refine Or.inr (Or.inr (Or.inl ⟨hmemf, ?_, ?_⟩))
          · rw [hslot3]
            exact (prune_phases_slot_dir hwf hnm).2 hfr
          · intro g hlt hdir
            have hgle : leP src g = true :=
              leP_trans (leP_append src [nm]) (leP_of_ltP hlt)
            rw [isDir_iff] at hdir
            rw [sfFiles_pristine dsz src repl hdisj _ _ g hgle, hpr2 g hgle] at hdir
            exact mem_get_all_folders_iff.mpr
              ⟨ltP_of_le_lt (leP_append src [nm]) hlt, isDir_iff.mpr hdir⟩
    have hfinal := sfFolders_mirror dsz fs src repl H F hwf hdisj hH (by omega) hsz
      (fun H' hlt fuel' fs' s' r' a b c d e f g =>
        (ih H' hlt fuel' fs' s' r' a b c d e f g).2)
      (get_all_folders fs src) _
      (fun d' hd' => ⟨(mem_get_all_folders_iff.mp hd').1,
        isDir_iff.mp (mem_get_all_folders_iff.mp hd').2⟩)
      hinv0
    exact MirrorAt_of_loopinv hfinal

theorem hsz_of_const (fs : FS) (src : Path) (k : Nat)
    (h : fs.all (fun pe => match pe.2 with
      | Entry.file b => ! (b.length == k)
      | Entry.dir => true) = true) :
    ∀ p q b, leP src q = true → find fs q = some (.file b) →
      (fun _ : Path => k) p ≠ b.length := by
  intro p q b _ hf he
  have hm : (! (b.length == k)) = true :=
    List.all_eq_true.mp h (q, .file b) (find_some_mem hf)
  have hne : b.length ≠ k := by simpa using hm
  exact hne he.symm

/-- Claim C2 (corrected).  For every source directory and every replica path
that exists as a directory (the normal-case branch), provided the source
and replica roots are disjoint (neither is a path prefix of the other), the
filesystem is well formed, and no OS-reported directory size coincides with
the length of any file stored under the source root (otherwise
`compare_files` opens a directory whose `st_size` equals the source file's
size and the uncaught `IsADirectoryError` aborts the pass), one
`sync_folder` call with enough fuel (recursion depth at least the stored
height of the source subtree plus two) completes without raising and
establishes the mirror invariant: the replica root is a directory and every
relative path below the replica carries exactly the entry found below the
source — byte-identical files, identical directory sets, no extra entries.
The claim as written, which also quantifies over replica roots lying inside
the source tree, is refuted separately by its counterexample. -/
theorem C2_mirror_invariant (dsz : Path → Nat) (H fuel : Nat) (fs : FS) (src repl : Path)
    (hwf : wf fs) (hdisj : Disjoint2 src repl) (hsrc : isDir fs src = true)
    (hrepl : find fs repl = some .dir) (hH : HeightLe fs src H)
    (hfuel : H + 2 ≤ fuel)
    (hsz : ∀ p q b, leP src q = true → find fs q = some (.file b) → dsz p ≠ b.length) :
    (sync_folder dsz fuel fs src repl).2 = true ∧
      MirrorAt (sync_folder dsz fuel fs src repl).1.1 src repl :=
  sync_folder_mirror dsz H fuel fs src repl hwf hdisj (isDir_iff.mp hsrc) hrepl hH hfuel hsz

/-- Witness for the corrected C2: on a concrete two-level source with a
stale replica (a junk directory tree, a junk file and an outdated file),
with the OS reporting 4096 bytes for every directory (no source file has
that length), one pass with fuel 4 completes and establishes the mirror. -/
theorem C2_mirror_invariant_witness :
    wf fsC2W ∧ Disjoint2 ["s"] ["r"] ∧ isDir fsC2W ["s"] = true ∧
      find fsC2W ["r"] = some .dir ∧ 2 + 2 ≤ 4 ∧
      ((sync_folder dszC 4 fsC2W ["s"] ["r"]).2 = true ∧
        MirrorAt (sync_folder dszC 4 fsC2W ["s"] ["r"]).1.1 ["s"] ["r"]) :=
  ⟨by decide, by decide, by decide, by decide, by decide,
    C2_mirror_invariant dszC 2 4 fsC2W ["s"] ["r"] (by decide) (by decide) (by decide)
      (by decide) (HeightLe_of_entries (by decide)) (by decide)
      (hsz_of_const fsC2W ["s"] 4096 (by decide))⟩

end FilderFlux
